import Mathlib

/-!
Verification of the IRL compiler middle-end: a shallow embedding of the
IR data model (`lang/instr.rs`, spec §3), the SSA engine (`lang/ssa.rs`),
the copy-propagation pass (`opt/simple.rs`) and the builders' `ret`
handling (`irc/build.rs`, `compile/build.rs`), together with theorems
about the frozen claims.

Shared handles with interior mutability (`ExtRc`, `RefCell`) are embedded
by giving every symbol and instruction a numeric identity (`sid` / `iid`);
object identity comparison in the source becomes equality of those
identities, and in-place slot mutation becomes a functional update that
preserves the identity.  The dominator-tree infrastructure (`lang/func.rs`)
and the work-list container (`lang/util.rs`) are not present under `src/`;
they are modelled from the spec where noted.
-/

namespace IRL

/-- Types of the IR (`Type` in `lang/val.rs`, spec §3).  Only the
structure the verified passes inspect is embedded. -/
inductive Ty where
  | void
  | i (width : Nat)
  | ptr (tgt : Ty)
deriving DecidableEq, Repr

/-- Unary operators (`UnOp` in `lang/instr.rs`). -/
inductive UnOp where
  | neg | not
deriving DecidableEq, Repr

/-- Binary operators (`BinOp` in `lang/instr.rs`). -/
inductive BinOp where
  | add | sub | mul | div | mod | and | or | xor | shl | shr
  | eq | ne | lt | le | gt | ge
deriving DecidableEq, Repr

/-- A symbol (`Symbol` in `lang/val.rs`).  Symbols are compared by object
identity in the source (pointer equality of the shared handle); the `sid`
field models that identity.  `isLocal` distinguishes `Symbol::Local` from
`Symbol::Global`. -/
structure Symbol where
  sid : Nat
  name : String
  isLocal : Bool
  ty : Ty
deriving DecidableEq, Repr

/-- Mirrors `Symbol::is_local_var`. -/
def Symbol.isLocalVar (s : Symbol) : Bool := s.isLocal

/-- A value (`Value` in `lang/val.rs`): a variable or a constant.
Constant payloads are collapsed to an integer; their structure is never
inspected by the embedded passes. -/
inductive Value where
  | var (s : Symbol)
  | intConst (v : Int)
deriving DecidableEq, Repr

/-- Blocks are identified by their name (`BasicBlock.name`); the source
compares block handles by identity, and block names are unique within a
function built by the builder. -/
abbrev BlockId := String

/-- A phi source pair (`PhiSrc` in `lang/inst.rs`): a predecessor block
paired with a value. -/
abbrev PhiSrc := BlockId × Value

/-- Instructions (`Inst` in `lang/inst.rs` / `Instr` in `lang/instr.rs`). -/
inductive Inst where
  | mov (src : Value) (dst : Symbol)
  | un (op : UnOp) (opd : Value) (dst : Symbol)
  | bin (op : BinOp) (fst snd : Value) (dst : Symbol)
  | jmp (tgt : BlockId)
  | br (cond : Value) (tr fls : BlockId)
  | call (callee : String) (arg : List Value) (dst : Option Symbol)
  | ret (val : Option Value)
  | phi (src : List PhiSrc) (dst : Symbol)
  | alloc (dst : Symbol)
  | new (dst : Symbol) (len : Option Value)
  | ptrIdx (base : Value) (off : Option Value) (ind : Option (List Value)) (dst : Symbol)
  | ld (ptr : Value) (dst : Symbol)
  | st (src ptr : Value)
deriving DecidableEq, Repr

namespace Inst

/-- Mirrors `Inst::dst`: the possible destination symbol. -/
def dst : Inst → Option Symbol
  | .mov _ d => some d
  | .un _ _ d => some d
  | .bin _ _ _ d => some d
  | .jmp _ => none
  | .br _ _ _ => none
  | .call _ _ d => d
  | .ret _ => none
  | .phi _ d => some d
  | .alloc d => some d
  | .new d _ => some d
  | .ptrIdx _ _ _ d => some d
  | .ld _ d => some d
  | .st _ _ => none

/-- Mirrors `Inst::src`: the list of source operand slots, in slot order. -/
def src : Inst → List Value
  | .mov s _ => [s]
  | .un _ o _ => [o]
  | .bin _ a b _ => [a, b]
  | .call _ args _ => args
  | .phi ps _ => ps.map Prod.snd
  | .ret (some v) => [v]
  | .ret none => []
  | .jmp _ => []
  | .br c _ _ => [c]
  | .alloc _ => []
  | .new _ (some l) => [l]
  | .new _ none => []
  | .ptrIdx b o i _ =>
      [b] ++ (match o with | some v => [v] | none => []) ++
        (match i with | some vs => vs | none => [])
  | .ld p _ => [p]
  | .st s p => [s, p]

/-- Mirrors `Inst::is_ctrl`. -/
def isCtrl : Inst → Bool
  | .jmp _ | .br _ _ _ | .ret _ => true
  | _ => false

/-- Mirrors `Inst::is_phi` (used by the DCE circular-reference rule). -/
def isPhi : Inst → Bool
  | .phi _ _ => true
  | _ => false

/-- Mirrors `Inst::has_side_effect`: calls and stores are assumed to have
side effects, as is any instruction whose destination is a global. -/
def hasSideEffect (i : Inst) : Bool :=
  match i with
  | .call _ _ _ => true
  | .st _ _ => true
  | _ =>
    match i.dst with
    | some s => !s.isLocal
    | none => false

/-- Rewrite every non-phi source slot with `g`, leaving everything else
(including the destination slot) in place.  This is the functional image
of a `ValueListener` pass calling `on_use` with `replace_with` on each
slot returned by `src()`; passes that special-case phi instructions never
call it on a phi. -/
def mapUses (g : Value → Value) : Inst → Inst
  | .mov s d => .mov (g s) d
  | .un op o d => .un op (g o) d
  | .bin op a b d => .bin op (g a) (g b) d
  | .call f args d => .call f (args.map g) d
  | .phi ps d => .phi (ps.map (fun p => (p.1, g p.2))) d
  | .ret (some v) => .ret (some (g v))
  | .ret none => .ret none
  | .jmp t => .jmp t
  | .br c tr fl => .br (g c) tr fl
  | .alloc d => .alloc d
  | .new d l => .new d (l.map g)
  | .ptrIdx b o i d => .ptrIdx (g b) (o.map g) (i.map (·.map g)) d
  | .ld p d => .ld (g p) d
  | .st s p => .st (g s) (g p)

/-- Replace the destination slot (the functional image of
`dst().replace_with`); instructions without a destination are unchanged. -/
def withDst (d : Symbol) : Inst → Inst
  | .mov s _ => .mov s d
  | .un op o _ => .un op o d
  | .bin op a b _ => .bin op a b d
  | .call f args (some _) => .call f args (some d)
  | .call f args none => .call f args none
  | .phi ps _ => .phi ps d
  | .alloc _ => .alloc d
  | .new _ l => .new d l
  | .ptrIdx b o i _ => .ptrIdx b o i d
  | .ld p _ => .ld p d
  | i => i

end Inst

/-- A shared instruction handle (`InstRef = ExtRc<Inst>`): the `iid`
models the handle's object identity, which survives in-place mutation of
the instruction's operand cells. -/
structure InstRef where
  iid : Nat
  inst : Inst
deriving DecidableEq, Repr

/-- A basic block (`BasicBlock` in `lang/func.rs`, spec §3): name,
instruction list, predecessor and successor lists.  Modelled from the
spec: `lang/func.rs` is not under `src/`. -/
structure Block where
  name : BlockId
  insts : List InstRef
  preds : List BlockId
  succs : List BlockId
deriving DecidableEq, Repr

/-- A function (`Fn` in `lang/func.rs`, spec §3): name, local scope,
parameter slots, return type, entry block, exit list, block store and the
SSA flag.  Modelled from the spec: `lang/func.rs` is not under `src/`;
the shared block graph is stored as a list of blocks keyed by name. -/
structure Fn where
  name : String
  scope : List Symbol
  param : List Symbol
  ret : Ty
  ent : BlockId
  exits : List BlockId
  blocks : List Block
  ssa : Bool
deriving DecidableEq, Repr

/-- Look a block up by name in the function's block store. -/
def Fn.findBlock (f : Fn) (bn : BlockId) : Option Block :=
  f.blocks.find? (fun b => b.name == bn)

/-- Store an updated block back under its name. -/
def Fn.setBlock (f : Fn) (b : Block) : Fn :=
  { f with blocks := f.blocks.map (fun x => if x.name == b.name then b else x) }

/-- Scope insertion (`Scope::insert`): fails (leaves the scope unchanged)
when the name is already taken. -/
def scopeInsert (sc : List Symbol) (s : Symbol) : List Symbol :=
  if sc.any (fun t => t.name == s.name) then sc else sc ++ [s]

/-- Scope removal by name (`Scope::remove`). -/
def scopeRemove (sc : List Symbol) (n : String) : List Symbol :=
  sc.filter (fun t => !(t.name == n))

/-! ### The dominator-tree walk

`Fn::walk_dom` (in `lang/func.rs`, which is not under `src/`) drives a
`DomTreeListener` over the dominator tree: `on_begin(func)`, a
depth-first visit calling `on_enter(b)` before and `on_exit(b)` after
each node's subtree, then `on_end(func)`; `on_enter_child` and
`on_exit_child` are empty in every listener embedded here.  Modelled
from the spec: the recursive traversal is embedded as the flat list of
`enter` / `exit` events it produces, and each pass is a fold over that
list. -/

/-- One traversal event of the dominator-tree walk. -/
inductive Ev where
  | enter (b : BlockId)
  | exit (b : BlockId)
deriving DecidableEq, Repr

/-- The names of the blocks a walk enters, in preorder (`iter_dom`). -/
def enteredNames (evs : List Ev) : List BlockId :=
  evs.filterMap (fun e => match e with | .enter b => some b | .exit _ => none)

/-- The phi instructions at the front of a block: the source iterates a
block's instructions and breaks at the first non-phi. -/
def phiPrefix (l : List InstRef) : List InstRef :=
  l.takeWhile (fun i => i.inst.isPhi)

/-! #### Linearized listener callbacks

The read-only listeners (`Verifier`, `DefUseBuilder`) never mutate the
function, so the exact sequence of `on_enter` / `on_exit` / `on_use` /
`on_def` callbacks the walk performs can be computed up front.
`InstListener::on_enter` visits every instruction of the block and then,
for each successor, the phi instructions at that successor's front;
`ValueListener::on_instr` visits all sources then the destination,
except that for a phi only the destination is visited, and
`ValueListener::on_succ_phi` visits exactly the phi sources whose
predecessor slot equals the current block. -/

/-- One linearized callback of a `ValueListener` walk. -/
inductive VisitEv where
  | openB (blk : Block)
  | closeB
  | useV (i : InstRef) (v : Value)
  | defV (i : InstRef) (s : Symbol)
deriving DecidableEq, Repr

/-- The `on_use` / `on_def` callbacks `ValueListener::on_instr` performs
for one instruction. -/
def instVisits (i : InstRef) : List VisitEv :=
  match i.inst with
  | .phi _ d => [.defV i d]
  | _ =>
      (i.inst.src.map (fun v => VisitEv.useV i v)) ++
        (match i.inst.dst with
         | some d => [VisitEv.defV i d]
         | none => [])

/-- The `on_use` callbacks performed from block `b` on the phi
instructions of its successors (`on_succ_phi`). -/
def succPhiVisits (f : Fn) (b : Block) : List VisitEv :=
  b.succs.flatMap (fun sn =>
    match f.findBlock sn with
    | some sb =>
        (phiPrefix sb.insts).flatMap (fun p =>
          match p.inst with
          | .phi srcs _ =>
              (srcs.filter (fun pr => pr.1 == b.name)).map
                (fun pr => VisitEv.useV p pr.2)
          | _ => [])
    | none => [])

/-- All callbacks `InstListener::on_enter` performs for one block. -/
def blockVisits (f : Fn) (b : Block) : List VisitEv :=
  [.openB b] ++ b.insts.flatMap instVisits ++ succPhiVisits f b

/-- The full callback sequence of a read-only `ValueListener` walk. -/
def visits (f : Fn) (evs : List Ev) : List VisitEv :=
  evs.flatMap (fun e =>
    match e with
    | .enter bn =>
        match f.findBlock bn with
        | some b => blockVisits f b
        | none => []
    | .exit _ => [.closeB])

/-! ### The SSA verifier (`Verifier` in `lang/ssa.rs`) -/

/-- One recorded verifier error, tagged by kind; `render` reproduces the
exact message string the source formats. -/
inductive VErr where
  | phiMissing (pred : String)
  | useBeforeDef (name : String)
  | alreadyDefined (name : String)
deriving DecidableEq, Repr

/-- The message string pushed onto `Verifier::err`. -/
def VErr.render : VErr → String
  | .phiMissing p => "phi operand not found for " ++ p
  | .useBeforeDef n => "variable " ++ n ++ " is used before defined"
  | .alreadyDefined n => "variable " ++ n ++ " already defined"

/-- The verifier state: the statically-defined set `def`, the
availability stack `avail` (top frame first; the bottom frame holds the
parameters) and the error list, threaded together with the walked
function. -/
structure Verifier where
  fn : Fn
  defd : List Symbol
  avail : List (List Symbol)
  err : List VErr
deriving DecidableEq, Repr

/-- Mirrors `Verifier::is_avail`: present in some frame of the stack. -/
def Verifier.isAvail (st : Verifier) (s : Symbol) : Bool :=
  st.avail.any (fun fr => fr.contains s)

/-- The phi-operand/predecessor correspondence check `Verifier::on_enter`
performs: every predecessor of the block must appear among each leading
phi's source pairs. -/
def phiPredErrs (b : Block) : List VErr :=
  (phiPrefix b.insts).flatMap (fun p =>
    match p.inst with
    | .phi srcs _ =>
        b.preds.filterMap (fun pr =>
          if (srcs.map Prod.fst).contains pr then none
          else some (VErr.phiMissing pr))
    | _ => [])

/-- One verifier step, from `DomTreeListener`/`ValueListener for
Verifier`: enter pushes a frame and checks phi predecessors, exit pops,
a use of an unavailable local records `useBeforeDef`, a duplicate local
definition records `alreadyDefined`, and a fresh local definition enters
the defined set and the top frame. -/
def vStep (st : Verifier) : VisitEv → Verifier
  | .openB b => { st with avail := [] :: st.avail, err := st.err ++ phiPredErrs b }
  | .closeB => { st with avail := st.avail.tail }
  | .useV _ v =>
      match v with
      | .var s =>
          if s.isLocalVar && !(st.isAvail s) then
            { st with err := st.err ++ [.useBeforeDef s.name] }
          else st
      | .intConst _ => st
  | .defV _ s =>
      if s.isLocalVar then
        if st.defd.contains s then
          { st with err := st.err ++ [.alreadyDefined s.name] }
        else
          { st with
            defd := st.defd ++ [s]
            avail := match st.avail with
              | fr :: rest => (fr ++ [s]) :: rest
              | [] => [] }
      else st

/-- Run the verifier over a walk: `on_begin` seeds the defined set and
the bottom availability frame with the parameters, the walk folds
`vStep`, and `on_end` sets the function's SSA flag to `true`
unconditionally (and clears the working state). -/
def runVerifier (f : Fn) (evs : List Ev) : Verifier :=
  let st0 : Verifier := { fn := f, defd := f.param, avail := [f.param], err := [] }
  let st := (visits f evs).foldl vStep st0
  { st with fn := { st.fn with ssa := true }, defd := [], avail := [] }

/-- The projection selecting use-before-defined errors. -/
def useProj : VErr → Option String
  | .useBeforeDef n => some n
  | _ => none

/-- The names reported by the verifier's use-before-defined errors, in
order of recording. -/
def verifierUseNames (f : Fn) (evs : List Ev) : List String :=
  (runVerifier f evs).err.filterMap useProj

/-! ### Association lists

`HashMap` / `HashSet` keyed by object identity are embedded as
insertion-ordered association lists; `Rust`'s unspecified hash-map
iteration order becomes insertion order (the spec leaves every order
that depends on it unspecified). -/

/-- Find the value bound to `k`. -/
def assocFind {α β : Type} [DecidableEq α] (l : List (α × β)) (k : α) : Option β :=
  (l.find? (fun p => p.1 == k)).map Prod.snd

/-- Bind `k` to `v`, replacing an existing binding in place. -/
def assocSet {α β : Type} [DecidableEq α] (l : List (α × β)) (k : α) (v : β) :
    List (α × β) :=
  if l.any (fun p => p.1 == k) then
    l.map (fun p => if p.1 == k then (k, v) else p)
  else l ++ [(k, v)]

/-- Append an element unless it is already present (set-like insertion). -/
def appendOnce {α : Type} [DecidableEq α] (l : List α) (x : α) : List α :=
  if l.contains x then l else l ++ [x]

/-! ### Define-use information (`Fn::def_use` in `lang/ssa.rs`) -/

/-- The definition position of a symbol (`DefPos`).  `nonePos` is the
placeholder for a symbol observed in use before any recorded
definition. -/
inductive DefPos where
  | param
  | inst (b : BlockId) (i : InstRef)
  | nonePos
deriving DecidableEq, Repr

/-- Definition point and use points of a symbol (`DefUse`).  The order
of `uses` is the visit order of the walk; the DCE circular rule indexes
`uses[0]`. -/
structure DefUse where
  defPos : DefPos
  uses : List InstRef
deriving DecidableEq, Repr

/-- State of the `DefUseBuilder` listener: the info map and the stack of
blocks on the current path. -/
structure DefUseSt where
  info : List (Symbol × DefUse)
  blk : List BlockId
deriving DecidableEq, Repr

/-- One `DefUseBuilder` step: definitions overwrite the entry for the
defined local; uses append to the entry, creating a `nonePos` placeholder
when the local has no entry yet. -/
def duStep (st : DefUseSt) : VisitEv → DefUseSt
  | .openB b => { st with blk := b.name :: st.blk }
  | .closeB => { st with blk := st.blk.tail }
  | .useV i v =>
      match v with
      | .var s =>
          if s.isLocalVar then
            match assocFind st.info s with
            | some du => { st with info := assocSet st.info s { du with uses := du.uses ++ [i] } }
            | none =>
                { st with info := st.info ++ [(s, { defPos := .nonePos, uses := [i] })] }
          else st
      | .intConst _ => st
  | .defV i s =>
      if s.isLocalVar then
        { st with info :=
            assocSet st.info s { defPos := .inst (st.blk.headD "") i, uses := [] } }
      else st

/-- `Fn::def_use` without the leading `assert_ssa` (the caller checks the
flag): parameters are seeded as `Param` definitions, then the walk folds
`duStep`. -/
def runDefUse (f : Fn) (evs : List Ev) : List (Symbol × DefUse) :=
  let st0 : DefUseSt :=
    { info := f.param.map (fun p => (p, { defPos := .param, uses := [] })), blk := [] }
  ((visits f evs).foldl duStep st0).info

/-! ### Dead-code elimination (`Fn::elim_dead_code` in `lang/ssa.rs`)

The work list (`WorkList` in `lang/util.rs`, which is not under `src/`)
is modelled from the spec as a FIFO queue with set-like insertion: `pick`
removes the front element, `insert` appends an absent element.  The spec
calls the iteration order unspecified. -/

/-- State of the work-list loop: the (mutated) def-use map, the work
list, and the set of marked instruction identities. -/
structure DceState where
  defUse : List (Symbol × DefUse)
  work : List Symbol
  marked : List Nat
deriving DecidableEq, Repr

/-- Remove the first instruction with identity `n` from a use list. -/
def removeFirstIid : List InstRef → Nat → List InstRef
  | [], _ => []
  | x :: xs, n => if x.iid == n then xs else x :: removeFirstIid xs n

/-- Erase instruction `n` from the use list of a local-variable source
operand `v`, re-queueing the source when an occurrence was actually
erased. -/
def dceEraseUse (n : Nat) (st : DceState) (v : Value) : DceState :=
  match v with
  | .var o =>
      if o.isLocalVar then
        match assocFind st.defUse o with
        | some du =>
            if du.uses.any (fun e => e.iid == n) then
              { st with
                defUse := assocSet st.defUse o
                  { du with uses := removeFirstIid du.uses n }
                work := appendOnce st.work o }
            else st
        | none => st
      else st
  | .intConst _ => st

/-- Mark one instruction for removal: insert it into the marked set, and
for each of its local-variable sources erase it from that source's use
list and re-add the source to the work list (only when an occurrence was
actually erased). -/
def dceMarkOne (st : DceState) (i : InstRef) : DceState :=
  let st := { st with marked := appendOnce st.marked i.iid }
  i.inst.src.foldl (dceEraseUse i.iid) st

/-- The instructions the picked symbol `s` causes to be removed: the
circular-phi rule (a phi with a single use whose user's local destination
is used exactly once, by that very phi) removes the pair; otherwise an
instruction with no uses and no side effects is removed. -/
def dceRemoveList (defUse : List (Symbol × DefUse)) (s : Symbol) : List InstRef :=
  match assocFind defUse s with
  | none => []
  | some du =>
    match du.defPos with
    | .inst _ i =>
        if i.inst.isPhi && decide (du.uses.length = 1) then
          match du.uses.head? with
          | some other =>
              match other.inst.dst with
              | some t =>
                  if t.isLocalVar then
                    match assocFind defUse t with
                    | some dut =>
                        if decide (dut.uses.length = 1) &&
                            (match dut.uses.head? with
                             | some u0 => u0.iid == i.iid
                             | none => false) then
                          [i, other]
                        else []
                    | none => []
                  else []
              | none => []
          | none => []
        else if du.uses.isEmpty && !i.inst.hasSideEffect then [i]
        else []
    | _ => []

/-- One iteration of the work-list loop: pick the front symbol, compute
its removal list, and mark each listed instruction. -/
def dceStep (st : DceState) : DceState :=
  match st.work with
  | [] => st
  | s :: rest =>
      let remove := dceRemoveList st.defUse s
      remove.foldl dceMarkOne { st with work := rest }

/-- The fuelled work-list loop; the fuel below suffices because every
iteration either shrinks the work list or erases a use occurrence. -/
def dceLoop : Nat → DceState → DceState
  | 0, st => st
  | n + 1, st => if st.work.isEmpty then st else dceLoop n (dceStep st)

/-- A fuel bound for `dceLoop`. -/
def dceFuel (st : DceState) : Nat :=
  st.work.length + st.defUse.foldl (fun a p => a + p.2.uses.length) 0 + 1

/-- Drop the marked instructions from one block, removing each dropped
destination's name from the scope (in instruction-list order, as the
source's `retain` closure does). -/
def dceRemoveBlock (f : Fn) (marked : List Nat) (bn : BlockId) : Fn :=
  match f.findBlock bn with
  | some b =>
      let dropped := b.insts.filter (fun i => marked.contains i.iid)
      let f := dropped.foldl
        (fun g i =>
          match i.inst.dst with
          | some d => { g with scope := scopeRemove g.scope d.name }
          | none => g) f
      f.setBlock { b with insts := b.insts.filter (fun i => !(marked.contains i.iid)) }
  | none => f

/-- Drop the marked instructions from every block the dominator walk
visits (`iter_dom`). -/
def dceRemoveAll (f : Fn) (evs : List Ev) (marked : List Nat) : Fn :=
  (enteredNames evs).foldl (fun g bn => dceRemoveBlock g marked bn) f

/-- `Fn::elim_dead_code`: the leading `assert_ssa` panics when the SSA
flag is unset (embedded as an `error` carrying the panic message);
otherwise build the def-use map, run the work-list loop, and remove the
marked instructions. -/
def elimDeadCode (f : Fn) (evs : List Ev) : Except String Fn :=
  if !f.ssa then .error ("fn @" ++ f.name ++ " is not in SSA form")
  else
    let du := runDefUse f evs
    let st0 : DceState := { defUse := du, work := du.map Prod.fst, marked := [] }
    let st := dceLoop (dceFuel st0) st0
    .ok (dceRemoveAll f evs st.marked)

/-! ### SSA renaming (`Renamer` in `lang/ssa.rs`) -/

/-- Renaming status of one original name (`RenamedSym`): how many
versions were issued and the stack of live versions (top first; the
source keeps the top at the Vec's back). -/
structure RenamedSym where
  name : String
  count : Nat
  stack : List Symbol
deriving DecidableEq, Repr

/-- Mirrors `RenamedSym::latest`: the top of the version stack. -/
def RenamedSym.latest (rs : RenamedSym) : Symbol :=
  rs.stack.headD { sid := 0, name := rs.name, isLocal := true, ty := .void }

/-- The renamer state: the per-name table, the stack of per-block frames
of touched names, the threaded function, and a counter supplying fresh
object identities for `ExtRc::new`. -/
structure Renamer where
  fn : Fn
  sym : List (String × RenamedSym)
  defFrames : List (List String)
  fresh : Nat
deriving DecidableEq, Repr

/-- `Renamer`'s `on_use`: replace a local variable by the latest version
of its name.  (Every local name is registered in `on_begin`; the source
unwraps the lookup.) -/
def rnUseVal (st : Renamer) (v : Value) : Value :=
  match v with
  | .var s =>
      if s.isLocalVar then
        match assocFind st.sym s.name with
        | some rs => .var rs.latest
        | none => v
      else v
  | _ => v

/-- `Renamer`'s `on_def` together with `RenamedSym::rename`: issue a
fresh symbol `name.k`, push it on the name's stack, record the original
name in the current frame, insert the new symbol into the scope, and
return it as the new destination. -/
def rnDef (st : Renamer) (s : Symbol) : Symbol × Renamer :=
  if s.isLocalVar then
    match assocFind st.sym s.name with
    | some rs =>
        let cnt := rs.count + 1
        let ns : Symbol :=
          { sid := st.fresh, name := rs.name ++ "." ++ toString cnt
            isLocal := true, ty := rs.latest.ty }
        let rs' : RenamedSym := { rs with count := cnt, stack := ns :: rs.stack }
        let frames :=
          match st.defFrames with
          | fr :: rest => (fr ++ [rs.name]) :: rest
          | [] => []
        (ns,
          { st with
            sym := assocSet st.sym s.name rs'
            defFrames := frames
            fresh := st.fresh + 1
            fn := { st.fn with scope := scopeInsert st.fn.scope ns } })
    | none => (s, st)
  else (s, st)

/-- `ValueListener::on_instr` for the renamer: for a phi only the
destination is renamed; otherwise all sources are replaced by latest
versions and then the destination (if any) is renamed. -/
def rnInstr (st : Renamer) (i : InstRef) : InstRef × Renamer :=
  match i.inst with
  | .phi _ d =>
      let r := rnDef st d
      ({ i with inst := i.inst.withDst r.1 }, r.2)
  | _ =>
      let inst1 := i.inst.mapUses (rnUseVal st)
      match inst1.dst with
      | some d =>
          let r := rnDef st d
          ({ i with inst := inst1.withDst r.1 }, r.2)
      | none => ({ i with inst := inst1 }, st)

/-- `on_succ_phi` for the renamer: rewrite exactly the phi sources whose
predecessor slot equals the current block. -/
def rnPhiSrcs (st : Renamer) (bn : BlockId) (i : InstRef) : InstRef :=
  match i.inst with
  | .phi srcs d =>
      let srcs' := srcs.map (fun pr => if pr.1 == bn then (pr.1, rnUseVal st pr.2) else pr)
      { i with inst := Inst.phi srcs' d }
  | _ => i

/-- One in-place instruction rewrite of the renamer's `on_enter`: read
the `k`-th instruction of the current block, rewrite it, store it back. -/
def rnStepInstr (bn : BlockId) (st : Renamer) (k : Nat) : Renamer :=
  match st.fn.findBlock bn with
  | some b =>
      match b.insts.get? k with
      | some i =>
          let r := rnInstr st i
          { r.2 with fn := r.2.fn.setBlock { b with insts := b.insts.set k r.1 } }
      | none => st
  | none => st

/-- One successor visit of the renamer's `on_enter`: rewrite the phi
prefix of the successor via `on_succ_phi`. -/
def rnStepSucc (bn : BlockId) (st : Renamer) (sn : BlockId) : Renamer :=
  match st.fn.findBlock sn with
  | some sb =>
      let m := (phiPrefix sb.insts).length
      let newInsts := sb.insts.enum.map
        (fun (p : Nat × InstRef) => if p.1 < m then rnPhiSrcs st bn p.2 else p.2)
      { st with fn := st.fn.setBlock { sb with insts := newInsts } }
  | none => st

/-- `on_enter` for the renamer: push a frame, rewrite the block's
instructions in place (by index, threading the state), then rewrite the
matching phi sources in each successor. -/
def rnEnterBlock (st : Renamer) (bn : BlockId) : Renamer :=
  let st := { st with defFrames := [] :: st.defFrames }
  let n := ((st.fn.findBlock bn).map (fun b => b.insts.length)).getD 0
  let st := (List.range n).foldl (rnStepInstr bn) st
  match st.fn.findBlock bn with
  | some b2 => b2.succs.foldl (rnStepSucc bn) st
  | none => st

/-- `on_exit` for the renamer: pop one stack entry for every name the
frame recorded, then pop the frame. -/
def rnExitBlock (st : Renamer) : Renamer :=
  match st.defFrames with
  | fr :: rest =>
      let tab := fr.foldl
        (fun tab n =>
          match assocFind tab n with
          | some rs => assocSet tab n { rs with stack := rs.stack.tail }
          | none => tab) st.sym
      { st with sym := tab, defFrames := rest }
  | [] => st

/-- `on_begin` for the renamer: re-create every scope symbol as a fresh
version-0 object, reset the scope to those objects, and replace each
parameter slot by the version at the top of its name's stack.  Fresh
identities start above every identity reachable from the function. -/
def rnBegin (f : Fn) : Renamer :=
  let base :=
    (f.scope.map (·.sid) ++ f.param.map (·.sid) ++
        f.blocks.flatMap (fun b => b.insts.map (·.iid))).foldl Nat.max 0 + 1
  let seed := f.scope.foldl
    (fun (acc : List Symbol × List (String × RenamedSym) × Nat) s =>
      let ns : Symbol := { sid := acc.2.2, name := s.name, isLocal := true, ty := s.ty }
      (acc.1 ++ [ns],
        acc.2.1 ++ [(s.name, { name := s.name, count := 0, stack := [ns] })],
        acc.2.2 + 1))
    ([], [], base)
  let tab := seed.2.1
  let param := f.param.map
    (fun p =>
      match assocFind tab p.name with
      | some rs => rs.latest
      | none => p)
  { fn := { f with scope := seed.1, param := param }
    sym := tab, defFrames := [], fresh := seed.2.2 }

/-- `Fn::rename`: run the renamer listener over the dominator walk. -/
def runRename (f : Fn) (evs : List Ev) : Fn :=
  (evs.foldl
    (fun st e =>
      match e with
      | .enter bn => rnEnterBlock st bn
      | .exit _ => rnExitBlock st)
    (rnBegin f)).fn

/-! ### Phi insertion (`Fn::insert_phi` in `lang/ssa.rs`) -/

/-- Mirrors `Fn::defined_sym`: the set (insertion-ordered) of local
symbols defined by the block's instructions. -/
def definedSym (b : Block) : List Symbol :=
  b.insts.foldl
    (fun acc i =>
      match i.inst.dst with
      | some s => if s.isLocalVar then appendOnce acc s else acc
      | none => acc) []

/-- Depth-first CFG traversal from the entry (`Fn::dfs`), fuelled. -/
def dfsAux (f : Fn) : Nat → List BlockId → List BlockId → List BlockId
  | 0, _, acc => acc.reverse
  | _ + 1, [], acc => acc.reverse
  | n + 1, bn :: rest, acc =>
      if acc.contains bn then dfsAux f n rest acc
      else
        match f.findBlock bn with
        | some b => dfsAux f n (b.succs ++ rest) (bn :: acc)
        | none => dfsAux f n rest acc

/-- The block names in CFG depth-first order. -/
def Fn.dfs (f : Fn) : List BlockId :=
  dfsAux f
    (f.blocks.length + f.blocks.foldl (fun a b => a + b.succs.length) 0 + 2)
    [f.ent] []

/-- The largest instruction identity occurring in the function; fresh
phi instructions are allocated above it (`ExtRc::new` always yields a
new object). -/
def maxIid (f : Fn) : Nat :=
  f.blocks.foldl (fun a b => b.insts.foldl (fun a i => Nat.max a i.iid) a) 0

/-- State threaded through phi insertion: the function, the map of
already-inserted symbols per block, and the fresh-identity counter. -/
structure PhiIns where
  fn : Fn
  insPhi : List (BlockId × List Symbol)
  fresh : Nat
deriving DecidableEq, Repr

/-- Process one dominance-frontier target for symbol `s`: unless a phi
for `s` was already inserted there, push `phi s = [(pred, s), …]` (one
placeholder pair per predecessor, in predecessor-list order) at the
block's front, and enqueue the target when it did not originally define
`s`. -/
def insPhiTgt (orig : List (BlockId × List Symbol)) (s : Symbol)
    (pi : PhiIns) (work : List BlockId) (tgt : BlockId) : PhiIns × List BlockId :=
  let inserted := (assocFind pi.insPhi tgt).getD []
  if inserted.contains s then (pi, work)
  else
    match pi.fn.findBlock tgt with
    | none => (pi, work)
    | some tb =>
        let pairs : List PhiSrc := tb.preds.map (fun p => (p, Value.var s))
        let fn := pi.fn.setBlock
          { tb with insts := { iid := pi.fresh, inst := .phi pairs s } :: tb.insts }
        let work :=
          if ((assocFind orig tgt).getD []).contains s then work else appendOnce work tgt
        ({ fn := fn, insPhi := assocSet pi.insPhi tgt (inserted ++ [s]), fresh := pi.fresh + 1 },
          work)

/-- The per-symbol work-list loop of phi insertion. -/
def insPhiLoop (df : BlockId → List BlockId) (orig : List (BlockId × List Symbol))
    (s : Symbol) : Nat → PhiIns → List BlockId → PhiIns
  | 0, pi, _ => pi
  | n + 1, pi, work =>
      match work with
      | [] => pi
      | bn :: rest =>
          let step := (df bn).foldl
            (fun (acc : PhiIns × List BlockId) tgt => insPhiTgt orig s acc.1 acc.2 tgt)
            (pi, rest)
          insPhiLoop df orig s n step.1 step.2

/-- `Fn::insert_phi`: build the `orig` and `def_site` records over the
CFG depth-first order, then run the classical work-list insertion for
every scope symbol.  The dominance frontier `df` is an input: `compute_df`
lives in `lang/func.rs`, which is not under `src/`. -/
def insertPhi (f : Fn) (df : BlockId → List BlockId) : Fn :=
  let order := f.dfs
  let orig : List (BlockId × List Symbol) :=
    order.map (fun bn =>
      (bn, match f.findBlock bn with
           | some b => definedSym b
           | none => []))
  let defSite : List (Symbol × List BlockId) :=
    order.foldl
      (fun ds bn =>
        match f.findBlock bn with
        | some b =>
            (definedSym b).foldl
              (fun ds s =>
                match assocFind ds s with
                | some l => assocSet ds s (appendOnce l bn)
                | none => ds) ds
        | none => ds)
      (f.scope.map (fun s => (s, [])))
  (f.scope.foldl
    (fun (pi : PhiIns) s =>
      insPhiLoop df orig s (2 * pi.fn.blocks.length + 2) pi
        ((assocFind defSite s).getD []))
    { fn := f, insPhi := order.map (fun bn => (bn, [])), fresh := maxIid f + 1 }).fn

/-- `Fn::to_ssa`: on a non-SSA function, insert phis over the dominance
frontier, rename, run dead-code elimination, then set the SSA flag.  The
dominator walk `evs` and frontier `df` are inputs (computed by
`build_dom` / `compute_df` in the absent `lang/func.rs`). -/
def toSsa (f : Fn) (evs : List Ev) (df : BlockId → List BlockId) : Except String Fn :=
  if f.ssa then .ok f
  else
    let f1 := insertPhi f df
    let f2 := runRename f1 evs
    match elimDeadCode f2 evs with
    | .ok f3 => .ok { f3 with ssa := true }
    | .error e => .error e

/-! ### Copy propagation (`CopyListener` in `opt/simple.rs`) -/

/-- The copy-propagation listener state: the scoped substitution map from
mov destinations to their recorded source values, the per-block frames of
recorded destinations, and the set of movs marked for removal. -/
structure CopyListener where
  fn : Fn
  map : List (Symbol × Value)
  defFrames : List (List Symbol)
  rm : List Nat
deriving DecidableEq, Repr

/-- Remove a binding from an association list. -/
def assocRemove {α β : Type} [DecidableEq α] (l : List (α × β)) (k : α) : List (α × β) :=
  l.filter (fun p => !(p.1 == k))

/-- `CopyListener`'s `on_use`: a variable present in the map is replaced
by its mapped value (one step; the map is not chased transitively). -/
def cpUseVal (st : CopyListener) (v : Value) : Value :=
  match v with
  | .var s =>
      match assocFind st.map s with
      | some w => w
      | none => v
  | _ => v

/-- `CopyListener`'s `on_instr`: a mov records `dst ↦ src` (the slot's
current value), notes `dst` in the current frame, and is marked for
removal; any other instruction has its uses substituted (for a phi only
the destination is visited at its own block, so nothing changes here). -/
def cpInstr (st : CopyListener) (i : InstRef) : InstRef × CopyListener :=
  match i.inst with
  | .mov src dst =>
      let st' : CopyListener :=
        { st with
          map := assocSet st.map dst src
          defFrames :=
            match st.defFrames with
            | fr :: rest => (fr ++ [dst]) :: rest
            | [] => []
          rm := appendOnce st.rm i.iid }
      (i, st')
  | .phi _ _ => (i, st)
  | _ => ({ i with inst := i.inst.mapUses (cpUseVal st) }, st)

/-- `on_succ_phi` for copy propagation: substitute exactly the phi
sources whose predecessor slot equals the current block. -/
def cpPhiSrcs (st : CopyListener) (bn : BlockId) (i : InstRef) : InstRef :=
  match i.inst with
  | .phi srcs d =>
      let srcs' := srcs.map (fun pr => if pr.1 == bn then (pr.1, cpUseVal st pr.2) else pr)
      { i with inst := Inst.phi srcs' d }
  | _ => i

/-- A block with the instruction at index `k` replaced. -/
def setInstsAt (b : Block) (k : Nat) (i : InstRef) : Block :=
  { b with insts := b.insts.set k i }

/-- One in-place instruction rewrite of copy propagation's `on_enter`. -/
def cpStepInstr (bn : BlockId) (st : CopyListener) (k : Nat) : CopyListener :=
  match st.fn.findBlock bn with
  | some b =>
      match b.insts.get? k with
      | some i =>
          let r := cpInstr st i
          { r.2 with fn := r.2.fn.setBlock (setInstsAt b k r.1) }
      | none => st
  | none => st

/-- The successor block with `on_succ_phi` applied to its phi prefix. -/
def succRewrite (st : CopyListener) (bn : BlockId) (sb : Block) : Block :=
  let newInsts := sb.insts.enum.map
    (fun (p : Nat × InstRef) =>
      if p.1 < (phiPrefix sb.insts).length then cpPhiSrcs st bn p.2 else p.2)
  { sb with insts := newInsts }

/-- One successor visit of copy propagation's `on_enter`: substitute into
the phi prefix of the successor via `on_succ_phi`. -/
def cpStepSucc (bn : BlockId) (st : CopyListener) (sn : BlockId) : CopyListener :=
  match st.fn.findBlock sn with
  | some sb => { st with fn := st.fn.setBlock (succRewrite st bn sb) }
  | none => st

/-- The instruction sweep of `on_enter`: process the block's
instructions in place, one index at a time. -/
def cpEnterInsts (st : CopyListener) (bn : BlockId) : CopyListener :=
  (List.range (((st.fn.findBlock bn).map (fun b => b.insts.length)).getD 0)).foldl
    (cpStepInstr bn) st

/-- The successor sweep of `on_enter`: substitute into the matching phi
sources of each successor. -/
def cpEnterSuccs (st : CopyListener) (bn : BlockId) : CopyListener :=
  match st.fn.findBlock bn with
  | some b2 => b2.succs.foldl (cpStepSucc bn) st
  | none => st

/-- A block with the instructions whose ids are on the removal list
dropped. -/
def filterRewrite (rm : List Nat) (b3 : Block) : Block :=
  { b3 with insts := b3.insts.filter (fun i => !(rm.contains i.iid)) }

/-- The final `retain` of `on_enter`: drop every instruction marked for
removal from this block's list. -/
def cpEnterFilter (st : CopyListener) (bn : BlockId) : CopyListener :=
  match st.fn.findBlock bn with
  | some b3 => { st with fn := st.fn.setBlock (filterRewrite st.rm b3) }
  | none => st

/-- `on_enter` for copy propagation: push a frame, process the block's
instructions in place, substitute into the matching successor phi
sources, then drop every instruction marked for removal from this
block's list. -/
def cpEnterBlock (st : CopyListener) (bn : BlockId) : CopyListener :=
  cpEnterFilter
    (cpEnterSuccs (cpEnterInsts { st with defFrames := [] :: st.defFrames } bn) bn) bn

/-- `on_exit` for copy propagation: pop the frame and remove each of its
recorded destinations from the substitution map. -/
def cpExitBlock (st : CopyListener) : CopyListener :=
  match st.defFrames with
  | fr :: rest =>
      { st with map := fr.foldl (fun m s => assocRemove m s) st.map, defFrames := rest }
  | [] => st

/-- One walk event of the copy-propagation listener. -/
def cpStep (st : CopyListener) (e : Ev) : CopyListener :=
  match e with
  | .enter bn => cpEnterBlock st bn
  | .exit _ => cpExitBlock st

/-- `CopyProp::opt_fn`: walk the dominator tree with a fresh
`CopyListener`. -/
def runCopyProp (f : Fn) (evs : List Ev) : Fn :=
  (evs.foldl cpStep { fn := f, map := [], defFrames := [], rm := [] }).fn

/-- Is this instruction a mov (`Instr::Mov`)? -/
def Inst.isMov : Inst → Bool
  | .mov _ _ => true
  | _ => false

/-- Is this instruction a mov whose destination is `d`? -/
def Inst.isMovTo (d : Symbol) : Inst → Bool
  | .mov _ d' => d' == d
  | _ => false

/-- The block named `bn` of `g` (when present) holds no mov
instruction. -/
def movFreeIn (g : Fn) (bn : BlockId) : Prop :=
  ∀ b, g.findBlock bn = some b → ∀ i ∈ b.insts, i.inst.isMov = false

/-- Listener-state soundness against the walked function `f`: every mov
instruction still stored in a block of the evolving function is an
original instruction of `f`'s block of the same name, and every
instruction id marked for removal is the id of an original mov of `f`. -/
def movsFromFn (f : Fn) (st : CopyListener) : Prop :=
  (∀ b' ∈ st.fn.blocks, ∀ i' ∈ b'.insts, i'.inst.isMov = true →
    ∃ b0 ∈ f.blocks, b0.name = b'.name ∧ i' ∈ b0.insts) ∧
  (∀ x ∈ st.rm, ∃ b0 ∈ f.blocks, ∃ i0 ∈ b0.insts, i0.inst.isMov = true ∧ i0.iid = x)

/-- `r` (in the block named `bnH`) is the only mov of `f` whose
destination is `d`. -/
def movUniqueB (f : Fn) (d : Symbol) (bnH : BlockId) (r : InstRef) : Bool :=
  f.blocks.all (fun b' => b'.insts.all (fun i' =>
    !(i'.inst.isMovTo d) || (b'.name == bnH && i' == r)))

/-- No mov of `f` carries the instruction id `u`. -/
def noMovIidB (f : Fn) (u : Nat) : Bool :=
  f.blocks.all (fun b' => b'.insts.all (fun i' =>
    !(i'.inst.isMov) || !(i'.iid == u)))

/-- Slotwise correspondence between two snapshots of a block: same
length, and each slot keeps its instruction id, its mov-ness and its
phi-ness; a slot that held a non-phi instruction is untouched (only phi
sources are rewritten from outside a block's own visit). -/
def slotCorr (bOld bNew : Block) : Prop :=
  bNew.insts.length = bOld.insts.length ∧
  ∀ (k : Nat) (i2 : InstRef), bNew.insts[k]? = some i2 →
    ∃ i0 : InstRef, bOld.insts[k]? = some i0 ∧
      i2.iid = i0.iid ∧ i2.inst.isMov = i0.inst.isMov ∧ i2.inst.isPhi = i0.inst.isPhi ∧
      (i0.inst.isPhi = false → i2 = i0)

/-- Every exit event in the list closes a block opened inside the list
itself (the running open-count never underflows). -/
def midOkAux : List Ev → Nat → Bool
  | [], _ => true
  | .enter _ :: r, bal => midOkAux r (bal + 1)
  | .exit _ :: r, bal =>
      match bal with
      | 0 => false
      | b + 1 => midOkAux r b

/-- A walk segment that never closes a block it did not itself open. -/
def midOk (l : List Ev) : Bool := midOkAux l 0

/-! ### An observational semantics

Modelled from the spec: the repository contains no interpreter, but the
spec's instruction table (§3) fixes the meaning of `mov`, arithmetic,
`phi`, branches and `ret`.  The evaluator below interprets exactly that
fragment (unmodelled instructions get stuck), which is enough to compare
the observable behavior of a function before and after a pass: the
result is `none` when execution gets stuck (an undefined variable, an
unmodelled instruction or fuel exhaustion), `some r` when the function
returns, with `r` the optional return value. -/

/-- Evaluate a value in an environment. -/
def evalVal (env : List (Symbol × Int)) : Value → Option Int
  | .var s => assocFind env s
  | .intConst v => some v

/-- Evaluate a binary operator (the arithmetic/compare fragment the
examples exercise; the rest is left unmodelled). -/
def evalBin (op : BinOp) (a b : Int) : Option Int :=
  match op with
  | .add => some (a + b)
  | .sub => some (a - b)
  | .mul => some (a * b)
  | .eq => some (if a = b then 1 else 0)
  | .ne => some (if a = b then 0 else 1)
  | .lt => some (if a < b then 1 else 0)
  | .le => some (if a ≤ b then 1 else 0)
  | .gt => some (if b < a then 1 else 0)
  | .ge => some (if b ≤ a then 1 else 0)
  | _ => none

/-- Run from an instruction list: `prev` is the block control came from
(for phi selection), `bn` the current block. -/
def execFrom (f : Fn) :
    Nat → Option BlockId → BlockId → List (Symbol × Int) → List InstRef →
      Option (Option Int)
  | 0, _, _, _, _ => none
  | _ + 1, _, _, _, [] => none
  | n + 1, prev, bn, env, i :: rest =>
      match i.inst with
      | .mov src d =>
          match evalVal env src with
          | some v => execFrom f n prev bn (assocSet env d v) rest
          | none => none
      | .bin op a b d =>
          match evalVal env a, evalVal env b with
          | some va, some vb =>
              match evalBin op va vb with
              | some v => execFrom f n prev bn (assocSet env d v) rest
              | none => none
          | _, _ => none
      | .phi srcs d =>
          match prev with
          | some p =>
              match srcs.find? (fun pr => pr.1 == p) with
              | some pr =>
                  match evalVal env pr.2 with
                  | some v => execFrom f n prev bn (assocSet env d v) rest
                  | none => none
              | none => none
          | none => none
      | .jmp t =>
          match f.findBlock t with
          | some b => execFrom f n (some bn) t env b.insts
          | none => none
      | .br c tr fls =>
          match evalVal env c with
          | some v =>
              let t := if v = 0 then fls else tr
              match f.findBlock t with
              | some b => execFrom f n (some bn) t env b.insts
              | none => none
          | none => none
      | .ret (some v) =>
          match evalVal env v with
          | some r => some (some r)
          | none => none
      | .ret none => some none
      | _ => none

/-- Execute a function on argument values. -/
def exec (f : Fn) (fuel : Nat) (args : List Int) : Option (Option Int) :=
  let env := f.param.zip args
  match f.findBlock f.ent with
  | some b => execFrom f fuel none f.ent env b.insts
  | none => none

/-! ### The builders' `ret` handling

Two builder generations are present: `irc/build.rs` (`build_non_assign`)
pushes the containing block onto the function's exit list before it even
examines the return type, while the earlier `compile/build.rs`
(`build_ctrl`) inserts the block into the exit set only on the non-void
path, after the operand has been built successfully.  Tokens and the
operand builders are embedded just deeply enough to reproduce the error
paths. -/

/-- A parse-tree operand token (sigils already stripped). -/
inductive Token where
  | globalId (name : String)
  | localId (name : String)
  | integer (v : Int)
deriving DecidableEq, Repr

/-- Symbol lookup plus type check (`find_symbol` / `check_type` followed
by `create_def_val` / `build_value`; both generations share this shape).
Integers become constants of the requested type. -/
def buildOpd (lcl glb : List Symbol) (ty : Ty) : Token → Except String Value
  | .globalId n =>
      match glb.find? (fun s => s.name == n) with
      | some s =>
          if s.ty = ty then .ok (.var s)
          else .error "type mismatch"
      | none => .error ("identifier " ++ n ++ " not found in global scope")
  | .localId n =>
      match lcl.find? (fun s => s.name == n) with
      | some s =>
          if s.ty = ty then .ok (.var s)
          else .error "type mismatch"
      | none => .error ("identifier " ++ n ++ " not found in local scope")
  | .integer v => .ok (.intConst v)

/-- The `Term::RetInstr` arm of `irc/build.rs`'s `build_non_assign`: the
containing block is pushed onto the exit list first, unconditionally;
only then is the return type examined and the operand built. -/
def ircBuildRet (retTy : Ty) (blk : BlockId) (exits : List BlockId)
    (opd : Option Token) (lcl glb : List Symbol) :
    List BlockId × Except String Inst :=
  let exits := exits ++ [blk]
  match retTy, opd with
  | .void, none => (exits, .ok (.ret none))
  | .void, some _ => (exits, .error "expect void, got value")
  | ty, some tok =>
      match buildOpd lcl glb ty tok with
      | .ok v => (exits, .ok (.ret (some v)))
      | .error e => (exits, .error e)
  | _, none => (exits, .error "expect value, got void")

/-- The `Term::RetInstr` arm of `compile/build.rs`'s `build_ctrl`: a
void return never touches the exit set; a non-void return inserts the
block only after its operand builds successfully. -/
def compileBuildRet (retTy : Ty) (blk : BlockId) (exits : List BlockId)
    (opd : Option Token) (lcl glb : List Symbol) :
    List BlockId × Except String Inst :=
  match retTy, opd with
  | .void, none => (exits, .ok (.ret none))
  | .void, some _ => (exits, .error "expect void, got value")
  | ty, some tok =>
      match buildOpd lcl glb ty tok with
      | .ok v => (appendOnce exits blk, .ok (.ret (some v)))
      | .error e => (exits, .error e)
  | _, none => (exits, .error "expect value, got void")

/-! ### Specification-side availability (for the claim about the verifier)

Two stateless readings of "the availability stack holds the symbols
defined on the dominator-tree path from the root to the current block
plus the function parameters", to be compared with the verifier's actual
error output.  `claimAvailUseNames` follows the claim's words exactly:
every local definition on the path counts.  `availSpec` is the corrected
characterization: only a symbol's first definition (in walk order)
populates a frame, because `Verifier::on_def` refuses to re-add a symbol
that is already in the statically-defined set. -/

/-- State for the claim-side reading: frames of all path definitions. -/
structure ClaimAvailSt where
  frames : List (List Symbol)
  out : List String
deriving DecidableEq, Repr

/-- One step of the claim-side reading: a use errors exactly when the
symbol is local and neither a parameter nor defined anywhere on the path
so far. -/
def claimAvailStep (ps : List Symbol) (st : ClaimAvailSt) : VisitEv → ClaimAvailSt
  | .openB _ => { st with frames := [] :: st.frames }
  | .closeB => { st with frames := st.frames.tail }
  | .useV _ v =>
      match v with
      | .var s =>
          if s.isLocalVar &&
              !(ps.contains s || st.frames.any (fun fr => fr.contains s)) then
            { st with out := st.out ++ [s.name] }
          else st
      | .intConst _ => st
  | .defV _ s =>
      if s.isLocalVar then
        { st with frames :=
            match st.frames with
            | fr :: rest => (fr ++ [s]) :: rest
            | [] => [] }
      else st

/-- The use-before-defined names the claim's reading predicts. -/
def claimAvailUseNames (f : Fn) (evs : List Ev) : List String :=
  ((visits f evs).foldl (claimAvailStep f.param) { frames := [], out := [] }).out

/-- The position of the first definition callback for symbol `s` in the
linearized walk. -/
def firstDefIdx : List VisitEv → Symbol → Option Nat
  | [], _ => none
  | e :: rest, s =>
      match e with
      | .defV _ t => if t = s then some 0 else (firstDefIdx rest s).map (· + 1)
      | _ => (firstDefIdx rest s).map (· + 1)

/-- The names of the blocks open (entered, not yet exited) after the
first `k` callbacks, innermost first. -/
def openNamesAt (vs : List VisitEv) (k : Nat) : List BlockId :=
  (vs.take k).foldl
    (fun acc e =>
      match e with
      | .openB b => b.name :: acc
      | .closeB => acc.tail
      | _ => acc) []

/-- The corrected availability of `s` at callback position `q`: a
parameter, or a symbol whose first definition precedes `q` and whose
enclosing block is still open at `q`. -/
def availSpec (vs : List VisitEv) (ps : List Symbol) (s : Symbol) (q : Nat) : Bool :=
  ps.contains s ||
    (match firstDefIdx vs s with
     | some p =>
         decide (p < q) &&
           (match (openNamesAt vs (p + 1)).head? with
            | some bn => (openNamesAt vs q).contains bn
            | none => false)
     | none => false)

/-- The per-callback check of the corrected characterization: a use of a
local symbol errors exactly when `availSpec` denies it at that
position. -/
def useCheck (vs : List VisitEv) (ps : List Symbol) (pe : Nat × VisitEv) : Option String :=
  match pe.2 with
  | .useV _ (.var s) =>
      if s.isLocalVar && !(availSpec vs ps s pe.1) then some s.name else none
  | _ => none

/-- The use-before-defined names predicted by the corrected (first
definition on the open path) characterization. -/
def specFirstUseNames (f : Fn) (evs : List Ev) : List String :=
  (visits f evs).enum.filterMap (useCheck (visits f evs) f.param)

/-- Well-formedness of a walk for function `f`: every entered block
exists and is entered only once, and no exit occurs with no block open.
(The recursive traversal of `walk_dom` produces exactly such event
lists.) -/
def walkOkAux (f : Fn) : List Ev → List BlockId → Nat → Bool
  | [], _, _ => true
  | .enter bn :: rest, seen, opn =>
      ((f.findBlock bn).isSome && !(seen.contains bn)) &&
        walkOkAux f rest (bn :: seen) (opn + 1)
  | .exit _ :: rest, seen, opn =>
      match opn with
      | 0 => false
      | k + 1 => walkOkAux f rest seen k

/-- Top-level walk well-formedness. -/
def walkOk (f : Fn) (evs : List Ev) : Bool := walkOkAux f evs [] 0

/-- Does any block of the function contain an instruction with identity
`n`? -/
def instOccurs (g : Fn) (n : Nat) : Bool :=
  g.blocks.any (fun b => b.insts.any (fun i => i.iid == n))

/-! ### Concrete functions

Small functions used to witness or refute the claims; each mirrors a
program the builder could produce (spec §8 scenarios). -/

/-- A minimal non-SSA function: `fn @f1() { %b0: ret; }`. -/
def f1 : Fn :=
  { name := "f1", scope := [], param := [], ret := .void, ent := "b0", exits := ["b0"]
    blocks := [{ name := "b0", insts := [⟨1, .ret none⟩], preds := [], succs := [] }]
    ssa := false }

/-- The dominator walk of `f1` (a single block). -/
def evs1 : List Ev := [.enter "b0", .exit "b0"]

/-- The straight-line reassignment function of spec §8 scenario 3:
`fn @f(%x: i64) -> i64 { %b0: %x <- add i64 %x, 1; %x <- add i64 %x, 1;
ret %x; }`, not in SSA form. -/
def symX2 : Symbol := { sid := 0, name := "x", isLocal := true, ty := .i 64 }

def f2 : Fn :=
  { name := "f", scope := [symX2], param := [symX2], ret := .i 64
    ent := "b0", exits := ["b0"]
    blocks := [{ name := "b0"
                 insts := [⟨1, .bin .add (.var symX2) (.intConst 1) symX2⟩,
                           ⟨2, .bin .add (.var symX2) (.intConst 1) symX2⟩,
                           ⟨3, .ret (some (.var symX2))⟩]
                 preds := [], succs := [] }]
    ssa := false }

def evs2 : List Ev := [.enter "b0", .exit "b0"]

/-- The chained-mov function for copy propagation (spec §8 scenario 6
extended by one mov): `%a <- mov i64 %x; %b <- mov i64 %a;
%c <- add i64 %b, 1; ret %c;`, in SSA form. -/
def symX3 : Symbol := { sid := 0, name := "x", isLocal := true, ty := .i 64 }
def symA3 : Symbol := { sid := 1, name := "a", isLocal := true, ty := .i 64 }
def symB3 : Symbol := { sid := 2, name := "b", isLocal := true, ty := .i 64 }
def symC3 : Symbol := { sid := 3, name := "c", isLocal := true, ty := .i 64 }

def f3 : Fn :=
  { name := "f3", scope := [symX3, symA3, symB3, symC3], param := [symX3], ret := .i 64
    ent := "b0", exits := ["b0"]
    blocks := [{ name := "b0"
                 insts := [⟨1, .mov (.var symX3) symA3⟩,
                           ⟨2, .mov (.var symA3) symB3⟩,
                           ⟨3, .bin .add (.var symB3) (.intConst 1) symC3⟩,
                           ⟨4, .ret (some (.var symC3))⟩]
                 preds := [], succs := [] }]
    ssa := true }

def evs3 : List Ev := [.enter "b0", .exit "b0"]

/-- The single block of `f3`, as a standalone value. -/
def f3b0 : Block :=
  { name := "b0"
    insts := [⟨1, .mov (.var symX3) symA3⟩,
              ⟨2, .mov (.var symA3) symB3⟩,
              ⟨3, .bin .add (.var symB3) (.intConst 1) symC3⟩,
              ⟨4, .ret (some (.var symC3))⟩]
    preds := [], succs := [] }

/-- A loop whose header phi and latch computation form a circular pair
(spec §8 scenario 5), plus one extra use `w` of the latch value, in SSA
form.  The pair `(phi 11, add 12)` is circular only after `add 13` (the
definition of the otherwise-dead `w`) has been removed. -/
def symC5 : Symbol := { sid := 0, name := "c", isLocal := true, ty := .i 1 }
def symA5 : Symbol := { sid := 1, name := "a", isLocal := true, ty := .i 64 }
def symS5 : Symbol := { sid := 2, name := "s", isLocal := true, ty := .i 64 }
def symT5 : Symbol := { sid := 3, name := "t", isLocal := true, ty := .i 64 }
def symW5 : Symbol := { sid := 4, name := "w", isLocal := true, ty := .i 64 }

def f5 : Fn :=
  { name := "f5", scope := [symC5, symA5, symS5, symT5, symW5]
    param := [symC5, symA5], ret := .i 64, ent := "b0", exits := ["b2"]
    blocks :=
      [{ name := "b0", insts := [⟨10, .jmp "b1"⟩], preds := [], succs := ["b1"] },
       { name := "b1"
         insts := [⟨11, .phi [("b0", .var symA5), ("b1", .var symT5)] symS5⟩,
                   ⟨12, .bin .add (.var symS5) (.intConst 1) symT5⟩,
                   ⟨13, .bin .add (.var symT5) (.intConst 0) symW5⟩,
                   ⟨14, .br (.var symC5) "b1" "b2"⟩]
         preds := ["b0", "b1"], succs := ["b1", "b2"] },
       { name := "b2", insts := [⟨15, .ret (some (.var symA5))⟩]
         preds := ["b1"], succs := [] }]
    ssa := true }

def evs5 : List Ev :=
  [.enter "b0", .enter "b1", .enter "b2", .exit "b2", .exit "b1", .exit "b0"]

/-- A loop with a bare circular phi pair, in SSA form (for the witness of
the circular-removal theorem). -/
def symC4 : Symbol := { sid := 0, name := "c", isLocal := true, ty := .i 1 }
def symA4 : Symbol := { sid := 1, name := "a", isLocal := true, ty := .i 64 }
def symS4 : Symbol := { sid := 2, name := "s", isLocal := true, ty := .i 64 }
def symT4 : Symbol := { sid := 3, name := "t", isLocal := true, ty := .i 64 }

/-- The circular phi of `f4`. -/
def p4 : InstRef := ⟨21, .phi [("b0", .var symA4), ("b1", .var symT4)] symS4⟩

/-- The circular phi's partner instruction in `f4`. -/
def u4 : InstRef := ⟨22, .bin .add (.var symS4) (.intConst 1) symT4⟩

def f4 : Fn :=
  { name := "f4", scope := [symC4, symA4, symS4, symT4]
    param := [symC4, symA4], ret := .i 64, ent := "b0", exits := ["b2"]
    blocks :=
      [{ name := "b0", insts := [⟨20, .jmp "b1"⟩], preds := [], succs := ["b1"] },
       { name := "b1"
         insts := [p4, u4, ⟨23, .br (.var symC4) "b1" "b2"⟩]
         preds := ["b0", "b1"], succs := ["b1", "b2"] },
       { name := "b2", insts := [⟨24, .ret (some (.var symA4))⟩]
         preds := ["b1"], succs := [] }]
    ssa := true }

def evs4 : List Ev :=
  [.enter "b0", .enter "b1", .enter "b2", .exit "b2", .exit "b1", .exit "b0"]

/-- The DCE state of `f4` after the two parameter symbols have been
picked: the next pick is the circular phi's destination. -/
def st4c : DceState :=
  dceLoop 2
    { defUse := runDefUse f4 evs4
      work := (runDefUse f4 evs4).map Prod.fst
      marked := [] }

/-- A loop whose latch computation is a call with a local destination:
the circular-phi pair `(phi 31, call 32)` qualifies for the circular rule
although the call has side effects. -/
def symC10 : Symbol := { sid := 0, name := "c", isLocal := true, ty := .i 1 }
def symA10 : Symbol := { sid := 1, name := "a", isLocal := true, ty := .i 64 }
def symS10 : Symbol := { sid := 2, name := "s", isLocal := true, ty := .i 64 }
def symT10 : Symbol := { sid := 3, name := "t", isLocal := true, ty := .i 64 }

/-- The side-effecting call instruction of `f10`. -/
def u10 : InstRef := ⟨32, .call "g" [.var symS10] (some symT10)⟩

def f10 : Fn :=
  { name := "f10", scope := [symC10, symA10, symS10, symT10]
    param := [symC10, symA10], ret := .i 64, ent := "b0", exits := ["b2"]
    blocks :=
      [{ name := "b0", insts := [⟨30, .jmp "b1"⟩], preds := [], succs := ["b1"] },
       { name := "b1"
         insts := [⟨31, .phi [("b0", .var symA10), ("b1", .var symT10)] symS10⟩,
                   u10,
                   ⟨33, .br (.var symC10) "b1" "b2"⟩]
         preds := ["b0", "b1"], succs := ["b1", "b2"] },
       { name := "b2", insts := [⟨34, .ret (some (.var symA10))⟩]
         preds := ["b1"], succs := [] }]
    ssa := true }

def evs10 : List Ev :=
  [.enter "b0", .enter "b1", .enter "b2", .exit "b2", .exit "b1", .exit "b0"]

/-- A diamond with two assignments to `%y` (spec §8 scenario 4), with the
join block's predecessor list in the order the CFG edges were connected:
`["b2", "b1"]`, which is not sorted by name. -/
def symC7 : Symbol := { sid := 0, name := "c", isLocal := true, ty := .i 1 }
def symY7 : Symbol := { sid := 1, name := "y", isLocal := true, ty := .i 64 }

def f7 : Fn :=
  { name := "f7", scope := [symC7, symY7], param := [symC7], ret := .i 64
    ent := "b0", exits := ["b3"]
    blocks :=
      [{ name := "b0", insts := [⟨41, .br (.var symC7) "b2" "b1"⟩]
         preds := [], succs := ["b2", "b1"] },
       { name := "b2", insts := [⟨42, .mov (.intConst 2) symY7⟩, ⟨43, .jmp "b3"⟩]
         preds := ["b0"], succs := ["b3"] },
       { name := "b1", insts := [⟨44, .mov (.intConst 1) symY7⟩, ⟨45, .jmp "b3"⟩]
         preds := ["b0"], succs := ["b3"] },
       { name := "b3", insts := [⟨46, .ret (some (.var symY7))⟩]
         preds := ["b2", "b1"], succs := [] }]
    ssa := false }

/-- The dominator walk of `f7`: `b0` immediately dominates all other
blocks. -/
def evs7 : List Ev :=
  [.enter "b0", .enter "b2", .exit "b2", .enter "b1", .exit "b1",
   .enter "b3", .exit "b3", .exit "b0"]

/-- The dominance frontier of `f7`. -/
def df7 : BlockId → List BlockId
  | "b1" => ["b3"]
  | "b2" => ["b3"]
  | _ => []

/-- First phi of a block: its source predecessor names, in order. -/
def firstPhiSrcBlocks (g : Fn) (bn : BlockId) : List BlockId :=
  match g.findBlock bn with
  | some b =>
      match b.insts.head? with
      | some i =>
          match i.inst with
          | .phi srcs _ => srcs.map Prod.fst
          | _ => []
      | none => []
  | none => []

/-- A function in which the same local symbol `%x` (one shared object) is
assigned in two sibling branches, and used in the second after its
(re-)definition.  The verifier reports the second definition as
`already defined` and — because a rejected redefinition is not added to
the availability stack — also reports the subsequent use as
`used before defined`, although `%x` is defined on the path. -/
def symC6 : Symbol := { sid := 0, name := "c", isLocal := true, ty := .i 1 }
def symX6 : Symbol := { sid := 1, name := "x", isLocal := true, ty := .i 1 }
def symY6 : Symbol := { sid := 2, name := "y", isLocal := true, ty := .i 1 }

def f6 : Fn :=
  { name := "f6", scope := [symC6, symX6, symY6], param := [symC6], ret := .void
    ent := "b0", exits := ["bA", "bB"]
    blocks :=
      [{ name := "b0", insts := [⟨51, .br (.var symC6) "bA" "bB"⟩]
         preds := [], succs := ["bA", "bB"] },
       { name := "bA", insts := [⟨52, .mov (.var symC6) symX6⟩, ⟨53, .ret none⟩]
         preds := ["b0"], succs := [] },
       { name := "bB"
         insts := [⟨54, .mov (.var symC6) symX6⟩, ⟨55, .mov (.var symX6) symY6⟩,
                   ⟨56, .ret none⟩]
         preds := ["b0"], succs := [] }]
    ssa := false }

def evs6 : List Ev :=
  [.enter "b0", .enter "bA", .exit "bA", .enter "bB", .exit "bB", .exit "b0"]

/-- Lexicographic comparison of character lists (the order `String`
comparison induces; written out so the kernel can evaluate it). -/
def strLeChars : List Char → List Char → Bool
  | [], _ => true
  | _ :: _, [] => false
  | a :: as, b :: bs => if a = b then strLeChars as bs else decide (a < b)

/-- Lexicographic `≤` on strings (kernel-computable). -/
def strLe (a b : String) : Bool := strLeChars a.data b.data

/-- Is a list of names in nondecreasing lexicographic order?  (`Phi`
sources are canonically ordered by predecessor name when the builder
constructs them via `sort_by_cached_key`.) -/
def nameOrdered : List String → Bool
  | [] => true
  | [_] => true
  | a :: b :: rest => strLe a b && nameOrdered (b :: rest)

end IRL

deriving instance DecidableEq for Except

namespace IRL

/-! ### General lemmas -/

/-- The frame contents the characterization predicts for open block `bn`
after `k` callbacks: the symbols whose first definition happened while
`bn` was the innermost open block. -/
def frameSpec (vs : List VisitEv) (ps : List Symbol) (k : Nat) (bn : BlockId) :
    List Symbol :=
  (vs.take k).enum.filterMap (fun pe =>
    match pe.2 with
    | .defV _ s =>
        if s.isLocalVar && !(ps.contains s) && (firstDefIdx vs s == some pe.1) &&
            ((openNamesAt vs (pe.1 + 1)).head? == some bn) then some s else none
    | _ => none)

/-- The predicted use-error output over the first `k` callbacks. -/
def specOutOn (vs : List VisitEv) (ps : List Symbol) (k : Nat) : List String :=
  (vs.take k).enum.filterMap (useCheck vs ps)

/-- The block name an `openB` callback introduces. -/
def openEvName : VisitEv → Option BlockId
  | .openB b => some b.name
  | _ => none

/-- The names opened during the first `k` callbacks, most recent first. -/
def seenListAt (vs : List VisitEv) (k : Nat) : List BlockId :=
  ((vs.take k).filterMap openEvName).reverse

/-- Well-formedness of a callback sequence: blocks open at most once, no
close without an open, every definition happens inside a block.
(`visits` of a well-formed walk satisfies this.) -/
def vsOkAux : List VisitEv → List BlockId → List BlockId → Bool
  | [], _, _ => true
  | .openB b :: rest, stck, seen =>
      (!(seen.contains b.name)) && vsOkAux rest (b.name :: stck) (b.name :: seen)
  | .closeB :: rest, stck, seen =>
      (match stck with
       | [] => false
       | _ :: tl => vsOkAux rest tl seen)
  | .defV _ _ :: rest, stck, seen => (!stck.isEmpty) && vsOkAux rest stck seen
  | .useV _ _ :: rest, stck, seen => vsOkAux rest stck seen

/-- Top-level callback well-formedness. -/
def vsOk (vs : List VisitEv) : Bool := vsOkAux vs [] []

/-- Running well-formedness after `k` callbacks: the remaining sequence
is accepted from the current open stack and seen set, the open stack has
no duplicate names, and every open name has been seen. -/
def VsState (vs : List VisitEv) (k : Nat) : Prop :=
  vsOkAux (vs.drop k) (openNamesAt vs k) (seenListAt vs k) = true ∧
    (openNamesAt vs k).Nodup ∧
    ∀ x ∈ openNamesAt vs k, x ∈ seenListAt vs k

/-- The verifier-state invariant after `k` callbacks: the recorded
use-before-defined errors match the stateless prediction, the
statically-defined set holds the parameters and the symbols already
first-defined, and the availability stack is exactly the predicted frame
for each open block over the parameter frame. -/
def VInv (f : Fn) (vs : List VisitEv) (k : Nat) (st : Verifier) : Prop :=
  st.err.filterMap useProj = specOutOn vs f.param k ∧
    (∀ s : Symbol, s ∈ st.defd ↔
      (s ∈ f.param ∨ (s.isLocalVar = true ∧ ∃ p, p < k ∧ firstDefIdx vs s = some p))) ∧
    st.avail = (openNamesAt vs k).map (frameSpec vs f.param k) ++ [f.param]


/-- A fold preserves any invariant its step preserves. -/
theorem foldl_preserve {α β : Type} {P : α → Prop} {step : α → β → α}
    (h : ∀ a b, P a → P (step a b)) :
    ∀ (l : List β) (a : α), P a → P (l.foldl step a) := by
  intro l
  induction l with
  | nil => intro a ha; exact ha
  | cons x xs ih => intro a ha; exact ih _ (h a x ha)

theorem mem_appendOnce_self {α : Type} [DecidableEq α] (l : List α) (x : α) :
    x ∈ appendOnce l x := by
  unfold appendOnce
  split
  · exact List.mem_of_elem_eq_true (by assumption)
  · exact List.mem_append_right _ (List.mem_singleton.mpr rfl)

theorem mem_appendOnce_of_mem {α : Type} [DecidableEq α] {l : List α} {x : α}
    (y : α) (h : x ∈ l) : x ∈ appendOnce l y := by
  unfold appendOnce
  split
  · exact h
  · exact List.mem_append_left _ h

theorem assocFind_cons {α β : Type} [DecidableEq α] (p : α × β) (r : List (α × β)) (k : α) :
    assocFind (p :: r) k = if p.1 = k then some p.2 else assocFind r k := by
  unfold assocFind
  rw [List.find?_cons]
  by_cases hp : p.1 = k
  · have hb : (p.1 == k) = true := by simp [hp]
    rw [hb, if_pos hp]
    rfl
  · have hb : (p.1 == k) = false := by simp [hp]
    rw [hb, if_neg hp]

theorem assocFind_map_subst {α β : Type} [DecidableEq α] (l : List (α × β)) (k : α) (v : β)
    (h : l.any (fun p => p.1 == k) = true) :
    assocFind (l.map (fun p => if p.1 == k then (k, v) else p)) k = some v := by
  induction l with
  | nil => simp at h
  | cons p r ih =>
      rw [List.map_cons]
      by_cases hp : p.1 = k
      · have hb : (p.1 == k) = true := by simp [hp]
        rw [hb, if_pos rfl, assocFind_cons, if_pos rfl]
      · have hb : (p.1 == k) = false := by simp [hp]
        rw [hb, if_neg Bool.false_ne_true, assocFind_cons, if_neg hp]
        apply ih
        simp only [List.any_cons, hb, Bool.false_or] at h
        exact h

theorem assocFind_append_single {α β : Type} [DecidableEq α] (l : List (α × β)) (k k' : α)
    (v : β) :
    assocFind (l ++ [(k, v)]) k' =
      (assocFind l k').or (if k = k' then some v else none) := by
  induction l with
  | nil =>
      rw [List.nil_append, assocFind_cons]
      by_cases hk : k = k'
      · rw [if_pos hk, if_pos hk]; rfl
      · rw [if_neg hk, if_neg hk]; rfl
  | cons p r ih =>
      rw [List.cons_append, assocFind_cons, assocFind_cons]
      by_cases hp : p.1 = k'
      · rw [if_pos hp, if_pos hp]; rfl
      · rw [if_neg hp, if_neg hp, ih]

theorem assocFind_set_self {α β : Type} [DecidableEq α] (l : List (α × β)) (k : α) (v : β) :
    assocFind (assocSet l k v) k = some v := by
  unfold assocSet
  split
  · exact assocFind_map_subst l k v (by assumption)
  · rename_i hna
    rw [assocFind_append_single, if_pos rfl]
    have hfn : assocFind l k = none := by
      induction l with
      | nil => rfl
      | cons p r ih =>
          have hb : (p.1 == k) = false := by
            by_contra hc
            have hbt : (p.1 == k) = true := by simpa using hc
            exact hna (by simp [List.any_cons, hbt])
          rw [assocFind_cons, if_neg (by simpa using hb)]
          apply ih
          intro hc
          exact hna (by simp [List.any_cons, hc])
    rw [hfn]
    rfl

theorem assocFind_map_subst_ne {α β : Type} [DecidableEq α] (l : List (α × β)) (k k' : α)
    (v : β) (hne : k' ≠ k) :
    assocFind (l.map (fun p => if p.1 == k then (k, v) else p)) k' = assocFind l k' := by
  induction l with
  | nil => simp
  | cons p r ih =>
      rw [List.map_cons]
      by_cases hp : p.1 = k
      · have hb : (p.1 == k) = true := by simp [hp]
        rw [hb, if_pos rfl, assocFind_cons, assocFind_cons,
          if_neg (fun h : k = k' => hne h.symm), if_neg (fun h : p.1 = k' => hne (hp ▸ h).symm)]
        exact ih
      · have hb : (p.1 == k) = false := by simp [hp]
        rw [hb, if_neg Bool.false_ne_true, assocFind_cons, assocFind_cons]
        by_cases hpk : p.1 = k'
        · rw [if_pos hpk, if_pos hpk]
        · rw [if_neg hpk, if_neg hpk]
          exact ih

theorem assocFind_set_ne {α β : Type} [DecidableEq α] (l : List (α × β)) (k k' : α) (v : β)
    (hne : k' ≠ k) : assocFind (assocSet l k v) k' = assocFind l k' := by
  unfold assocSet
  split
  · exact assocFind_map_subst_ne l k k' v hne
  · rw [assocFind_append_single, if_neg (fun h : k = k' => hne h.symm)]
    cases assocFind l k' <;> rfl

theorem assocFind_remove_ne {α β : Type} [DecidableEq α] (l : List (α × β)) (k k' : α)
    (hne : k' ≠ k) : assocFind (assocRemove l k) k' = assocFind l k' := by
  induction l with
  | nil => rfl
  | cons p r ih =>
      unfold assocRemove at ih ⊢
      rw [List.filter_cons]
      by_cases hp : p.1 = k
      · rw [if_neg (by simp [hp]), ih, assocFind_cons,
          if_neg (fun h : p.1 = k' => hne (hp ▸ h).symm)]
      · rw [if_pos (by simp [hp]), assocFind_cons, assocFind_cons]
        by_cases hpk : p.1 = k'
        · rw [if_pos hpk, if_pos hpk]
        · rw [if_neg hpk, if_neg hpk]
          exact ih

theorem assocFind_fold_remove {α β : Type} [DecidableEq α] (fr : List α) (k : α)
    (hnm : k ∉ fr) :
    ∀ m : List (α × β),
      assocFind (fr.foldl (fun m s => assocRemove m s) m) k = assocFind m k := by
  induction fr with
  | nil => intro m; rfl
  | cons s r ih =>
      intro m
      have hks : k ≠ s := fun h => hnm (h ▸ List.mem_cons_self s r)
      have hnr : k ∉ r := fun h => hnm (List.mem_cons_of_mem s h)
      rw [List.foldl_cons, ih hnr, assocFind_remove_ne m s k hks]

theorem mem_appendOnce_elim {α : Type} [DecidableEq α] {l : List α} {x y : α}
    (h : x ∈ appendOnce l y) : x ∈ l ∨ x = y := by
  unfold appendOnce at h
  split at h
  · exact Or.inl h
  · rcases List.mem_append.mp h with h1 | h1
    · exact Or.inl h1
    · exact Or.inr (List.mem_singleton.mp h1)

theorem getElem?_set_self_of_lt {α : Type} (l : List α) (k : Nat) (a : α)
    (h : k < l.length) : (l.set k a)[k]? = some a := by
  have hlen : k < (l.set k a).length := by simpa using h
  rw [List.getElem?_eq_getElem hlen]
  simp

theorem isMov_mapUses (g : Value → Value) : ∀ i : Inst, (Inst.mapUses g i).isMov = i.isMov := by
  intro i
  cases i <;> try rfl
  rename_i v
  cases v <;> rfl

theorem isPhi_mapUses (g : Value → Value) : ∀ i : Inst, (Inst.mapUses g i).isPhi = i.isPhi := by
  intro i
  cases i <;> try rfl
  rename_i v
  cases v <;> rfl

theorem findBlock_name {g : Fn} {bn : BlockId} {b : Block}
    (h : g.findBlock bn = some b) : b.name = bn := by
  have := List.find?_some h
  simpa using this

theorem findBlock_mem {g : Fn} {bn : BlockId} {b : Block}
    (h : g.findBlock bn = some b) : b ∈ g.blocks :=
  List.mem_of_find?_eq_some h

theorem findBlock_none {g : Fn} {bn : BlockId}
    (h : g.findBlock bn = none) : ∀ b ∈ g.blocks, b.name ≠ bn := by
  intro b hb
  have := List.find?_eq_none.mp h b hb
  simpa using this

theorem find_subst_same (bn : BlockId) (b2 : Block) (hname : b2.name = bn) :
    ∀ (l : List Block) (b : Block),
      l.find? (fun x => x.name == bn) = some b →
      (l.map (fun x => if x.name == b2.name then b2 else x)).find?
        (fun x => x.name == bn) = some b2 := by
  intro l
  induction l with
  | nil => intro b hf; simp at hf
  | cons x r ih =>
      intro b hf
      rw [List.find?_cons] at hf
      rw [List.map_cons, List.find?_cons]
      by_cases hx : x.name = bn
      · have hxb2 : (x.name == b2.name) = true := by simp [hx, hname]
        rw [hxb2, if_pos rfl]
        have : (b2.name == bn) = true := by simp [hname]
        rw [this]
      · have hxb : (x.name == bn) = false := by simp [hx]
        rw [hxb] at hf
        have hxb2 : (x.name == b2.name) = false := by
          have : x.name ≠ b2.name := fun h => hx (hname ▸ h)
          simp [this]
        rw [hxb2, if_neg Bool.false_ne_true, hxb]
        exact ih b hf

theorem find_subst_ne (bn : BlockId) (b2 : Block) (hname : b2.name ≠ bn) :
    ∀ l : List Block,
      (l.map (fun x => if x.name == b2.name then b2 else x)).find?
        (fun x => x.name == bn) = l.find? (fun x => x.name == bn) := by
  intro l
  induction l with
  | nil => rfl
  | cons x r ih =>
      rw [List.map_cons, List.find?_cons, List.find?_cons]
      by_cases hc : x.name = b2.name
      · have hcb : (x.name == b2.name) = true := by simp [hc]
        rw [hcb, if_pos rfl]
        have h1 : (b2.name == bn) = false := by simp [hname]
        have h2 : (x.name == bn) = false := by simp [hc ▸ hname]
        rw [h1, h2]
        exact ih
      · have hcb : (x.name == b2.name) = false := by simp [hc]
        rw [hcb, if_neg Bool.false_ne_true]
        cases hxn : (x.name == bn) with
        | true => rfl
        | false => exact ih

theorem findBlock_set_same {g : Fn} {bn : BlockId} {b b2 : Block}
    (hf : g.findBlock bn = some b) (hname : b2.name = bn) :
    (g.setBlock b2).findBlock bn = some b2 :=
  find_subst_same bn b2 hname g.blocks b hf

theorem findBlock_set_ne {g : Fn} {bn : BlockId} {b2 : Block}
    (hname : b2.name ≠ bn) :
    (g.setBlock b2).findBlock bn = g.findBlock bn :=
  find_subst_ne bn b2 hname g.blocks

theorem mem_blocks_set {g : Fn} {b2 x : Block} (h : x ∈ (g.setBlock b2).blocks) :
    x = b2 ∨ x ∈ g.blocks := by
  have h2 : x ∈ g.blocks.map (fun y => if y.name == b2.name then b2 else y) := h
  rcases List.mem_map.mp h2 with ⟨y, hy, he⟩
  by_cases hc : y.name = b2.name
  · rw [if_pos (by simpa using hc)] at he
    exact Or.inl he.symm
  · rw [if_neg (by simp [hc])] at he
    exact Or.inr (he ▸ hy)

theorem cpInstr_of_mov (st : CopyListener) (i : InstRef) {s : Value} {d : Symbol}
    (h : i.inst = .mov s d) :
    cpInstr st i =
      (i, { st with
              map := assocSet st.map d s
              defFrames :=
                match st.defFrames with
                | fr :: rest => (fr ++ [d]) :: rest
                | [] => []
              rm := appendOnce st.rm i.iid }) := by
  unfold cpInstr
  rw [h]

theorem cpInstr_of_phi (st : CopyListener) (i : InstRef)
    (h : i.inst.isPhi = true) : cpInstr st i = (i, st) := by
  unfold cpInstr
  cases hi : i.inst <;> (try rfl) <;> (rw [hi] at h; simp [Inst.isPhi] at h)

theorem cpInstr_of_other (st : CopyListener) (i : InstRef)
    (h1 : i.inst.isMov = false) (h2 : i.inst.isPhi = false) :
    cpInstr st i = ({ i with inst := i.inst.mapUses (cpUseVal st) }, st) := by
  unfold cpInstr
  cases hi : i.inst <;> (try rfl)
  · rw [hi] at h1; simp [Inst.isMov] at h1
  · rw [hi] at h2; simp [Inst.isPhi] at h2

theorem cpInstr_fn (st : CopyListener) (i : InstRef) : (cpInstr st i).2.fn = st.fn := by
  unfold cpInstr
  split <;> rfl

theorem cpInstr_iid (st : CopyListener) (i : InstRef) : (cpInstr st i).1.iid = i.iid := by
  unfold cpInstr
  split <;> rfl

theorem cpInstr_isMov (st : CopyListener) (i : InstRef) :
    (cpInstr st i).1.inst.isMov = i.inst.isMov := by
  unfold cpInstr
  split
  · rfl
  · rfl
  · exact isMov_mapUses _ _

theorem cpInstr_isPhi (st : CopyListener) (i : InstRef) :
    (cpInstr st i).1.inst.isPhi = i.inst.isPhi := by
  unfold cpInstr
  split
  · rfl
  · rfl
  · exact isPhi_mapUses _ _

theorem cpPhiSrcs_nonphi (st : CopyListener) (bn : BlockId) (i : InstRef)
    (h : i.inst.isPhi = false) : cpPhiSrcs st bn i = i := by
  unfold cpPhiSrcs
  cases hi : i.inst <;> (try rfl)
  rw [hi] at h; simp [Inst.isPhi] at h

theorem cpPhiSrcs_iid (st : CopyListener) (bn : BlockId) (i : InstRef) :
    (cpPhiSrcs st bn i).iid = i.iid := by
  unfold cpPhiSrcs
  split <;> rfl

theorem cpPhiSrcs_isMov (st : CopyListener) (bn : BlockId) (i : InstRef) :
    (cpPhiSrcs st bn i).inst.isMov = i.inst.isMov := by
  unfold cpPhiSrcs
  cases hi : i.inst <;> first | rfl | rw [hi]

theorem cpPhiSrcs_isPhi (st : CopyListener) (bn : BlockId) (i : InstRef) :
    (cpPhiSrcs st bn i).inst.isPhi = i.inst.isPhi := by
  unfold cpPhiSrcs
  cases hi : i.inst <;> first | rfl | rw [hi]

theorem cpStepSucc_map (bn : BlockId) (st : CopyListener) (sn : BlockId) :
    (cpStepSucc bn st sn).map = st.map := by
  unfold cpStepSucc
  split <;> rfl

theorem cpStepSucc_rm (bn : BlockId) (st : CopyListener) (sn : BlockId) :
    (cpStepSucc bn st sn).rm = st.rm := by
  unfold cpStepSucc
  split <;> rfl

theorem cpStepSucc_defFrames (bn : BlockId) (st : CopyListener) (sn : BlockId) :
    (cpStepSucc bn st sn).defFrames = st.defFrames := by
  unfold cpStepSucc
  split <;> rfl

theorem isMov_not_isPhi {i : Inst} (h : i.isMov = true) : i.isPhi = false := by
  cases i <;> simp [Inst.isMov, Inst.isPhi] at h ⊢

theorem isMov_elim {i : Inst} (h : i.isMov = true) : ∃ s d, i = .mov s d := by
  cases i <;> first | exact ⟨_, _, rfl⟩ | exact absurd h (by simp [Inst.isMov])

theorem movsFromFn_update (f : Fn) {st st2 : CopyListener}
    (hfn : ∀ b2 ∈ st2.fn.blocks, ∃ b0 ∈ st.fn.blocks, b0.name = b2.name ∧
      ∀ i2 ∈ b2.insts, ∃ i0 ∈ b0.insts,
        i2.inst.isMov = i0.inst.isMov ∧ (i0.inst.isMov = true → i2 = i0))
    (hrm : ∀ x ∈ st2.rm, x ∈ st.rm ∨
      ∃ b' ∈ st.fn.blocks, ∃ i' ∈ b'.insts, i'.inst.isMov = true ∧ i'.iid = x)
    (h : movsFromFn f st) : movsFromFn f st2 := by
  constructor
  · intro b2 hb2 i2 hi2 hmov
    rcases hfn b2 hb2 with ⟨b0, hb0, hname, hinst⟩
    rcases hinst i2 hi2 with ⟨i0, hi0, hme, hid⟩
    have h0mov : i0.inst.isMov = true := hme ▸ hmov
    rcases h.1 b0 hb0 i0 hi0 h0mov with ⟨bf, hbf, hbfname, hbfmem⟩
    exact ⟨bf, hbf, hbfname.trans hname, by rw [hid h0mov]; exact hbfmem⟩
  · intro x hx
    rcases hrm x hx with hold | ⟨b', hb', i', hi', hm, hiid⟩
    · exact h.2 x hold
    · rcases h.1 b' hb' i' hi' hm with ⟨bf, hbf, hbfname, hbfmem⟩
      exact ⟨bf, hbf, i', hbfmem, hm, hiid⟩

theorem cpStepInstr_chars (bn : BlockId) (st : CopyListener) (k : Nat) :
    (∀ b2 ∈ (cpStepInstr bn st k).fn.blocks, ∃ b0 ∈ st.fn.blocks, b0.name = b2.name ∧
      ∀ i2 ∈ b2.insts, ∃ i0 ∈ b0.insts,
        i2.inst.isMov = i0.inst.isMov ∧ (i0.inst.isMov = true → i2 = i0)) ∧
    (∀ x ∈ (cpStepInstr bn st k).rm, x ∈ st.rm ∨
      ∃ b' ∈ st.fn.blocks, ∃ i' ∈ b'.insts, i'.inst.isMov = true ∧ i'.iid = x) := by
  unfold cpStepInstr
  cases hfb : st.fn.findBlock bn with
  | none =>
      dsimp only
      exact ⟨fun b2 hb2 => ⟨b2, hb2, rfl, fun i2 hi2 => ⟨i2, hi2, rfl, fun _ => rfl⟩⟩,
        fun x hx => Or.inl hx⟩
  | some b =>
      dsimp only
      cases hg : b.insts.get? k with
      | none =>
          dsimp only
          exact ⟨fun b2 hb2 => ⟨b2, hb2, rfl, fun i2 hi2 => ⟨i2, hi2, rfl, fun _ => rfl⟩⟩,
            fun x hx => Or.inl hx⟩
      | some i =>
          dsimp only
          have hg2 : b.insts[k]? = some i := by rw [← List.get?_eq_getElem?]; exact hg
          have himem : i ∈ b.insts := List.getElem?_mem hg2
          have hbmem : b ∈ st.fn.blocks := findBlock_mem hfb
          have hfn2 : (cpInstr st i).2.fn = st.fn := cpInstr_fn st i
          constructor
          · intro b2 hb2
            have hb2s : b2 ∈ (st.fn.setBlock
                { b with insts := b.insts.set k (cpInstr st i).1 }).blocks := by
              rw [← hfn2]
              exact hb2
            rcases mem_blocks_set hb2s with heq | hmemo
            · refine ⟨b, hbmem, by rw [heq], ?_⟩
              intro i2 hi2
              rw [heq] at hi2
              rcases List.mem_or_eq_of_mem_set hi2 with hi2o | hi2n
              · exact ⟨i2, hi2o, rfl, fun _ => rfl⟩
              · refine ⟨i, himem, ?_, ?_⟩
                · rw [hi2n]
                  exact cpInstr_isMov st i
                · intro hm
                  rcases isMov_elim hm with ⟨s, d, hsd⟩
                  rw [hi2n, cpInstr_of_mov st i hsd]
            · exact ⟨b2, hmemo, rfl, fun i2 hi2 => ⟨i2, hi2, rfl, fun _ => rfl⟩⟩
          · intro x hx
            by_cases hm : i.inst.isMov = true
            · rcases isMov_elim hm with ⟨s, d, hsd⟩
              rw [cpInstr_of_mov st i hsd] at hx
              rcases mem_appendOnce_elim hx with hold | hnew
              · exact Or.inl hold
              · exact Or.inr ⟨b, hbmem, i, himem, hm, hnew.symm⟩
            · have hmf : i.inst.isMov = false := by simpa using hm
              by_cases hp : i.inst.isPhi = true
              · rw [cpInstr_of_phi st i hp] at hx
                exact Or.inl hx
              · have hpf : i.inst.isPhi = false := by simpa using hp
                rw [cpInstr_of_other st i hmf hpf] at hx
                exact Or.inl hx

theorem cpStepSucc_chars (bn : BlockId) (st : CopyListener) (sn : BlockId) :
    ∀ b2 ∈ (cpStepSucc bn st sn).fn.blocks, ∃ b0 ∈ st.fn.blocks, b0.name = b2.name ∧
      ∀ i2 ∈ b2.insts, ∃ i0 ∈ b0.insts,
        i2.inst.isMov = i0.inst.isMov ∧ (i0.inst.isMov = true → i2 = i0) := by
  unfold cpStepSucc
  cases hfs : st.fn.findBlock sn with
  | none =>
      dsimp only
      exact fun b2 hb2 => ⟨b2, hb2, rfl, fun i2 hi2 => ⟨i2, hi2, rfl, fun _ => rfl⟩⟩
  | some sb =>
      dsimp only
      intro b2 hb2
      have hsbmem : sb ∈ st.fn.blocks := findBlock_mem hfs
      rcases mem_blocks_set hb2 with heq | hmemo
      · refine ⟨sb, hsbmem, by rw [heq]; rfl, ?_⟩
        intro i2 hi2
        rw [heq] at hi2
        unfold succRewrite at hi2
        dsimp only at hi2
        rcases List.mem_map.mp hi2 with ⟨⟨j, x⟩, hjx, himg⟩
        have hxmem : x ∈ sb.insts := by
          rcases List.mk_mem_enum_iff_getElem?.mp hjx with hget
          exact List.getElem?_mem hget
        refine ⟨x, hxmem, ?_, ?_⟩
        · rw [← himg]
          by_cases hj : j < (phiPrefix sb.insts).length
          · simp only [if_pos hj]
            exact cpPhiSrcs_isMov st bn x
          · simp only [if_neg hj]
        · intro hmx
          rw [← himg]
          by_cases hj : j < (phiPrefix sb.insts).length
          · simp only [if_pos hj]
            exact cpPhiSrcs_nonphi st bn x (isMov_not_isPhi hmx)
          · simp only [if_neg hj]
      · exact ⟨b2, hmemo, rfl, fun i2 hi2 => ⟨i2, hi2, rfl, fun _ => rfl⟩⟩

theorem cpExitBlock_fn (st : CopyListener) : (cpExitBlock st).fn = st.fn := by
  unfold cpExitBlock
  split <;> rfl

theorem cpExitBlock_rm (st : CopyListener) : (cpExitBlock st).rm = st.rm := by
  unfold cpExitBlock
  split <;> rfl

theorem cpEnterFilter_rm (st : CopyListener) (bn : BlockId) :
    (cpEnterFilter st bn).rm = st.rm := by
  unfold cpEnterFilter
  split <;> rfl

theorem cpEnterFilter_map (st : CopyListener) (bn : BlockId) :
    (cpEnterFilter st bn).map = st.map := by
  unfold cpEnterFilter
  split <;> rfl

theorem cpEnterFilter_defFrames (st : CopyListener) (bn : BlockId) :
    (cpEnterFilter st bn).defFrames = st.defFrames := by
  unfold cpEnterFilter
  split <;> rfl

theorem foldl_cpStepSucc_map (bn : BlockId) :
    ∀ (l : List BlockId) (st : CopyListener),
      (l.foldl (cpStepSucc bn) st).map = st.map := by
  intro l
  induction l with
  | nil => intro st; rfl
  | cons sn r ih =>
      intro st
      rw [List.foldl_cons, ih, cpStepSucc_map]

theorem foldl_cpStepSucc_rm (bn : BlockId) :
    ∀ (l : List BlockId) (st : CopyListener),
      (l.foldl (cpStepSucc bn) st).rm = st.rm := by
  intro l
  induction l with
  | nil => intro st; rfl
  | cons sn r ih =>
      intro st
      rw [List.foldl_cons, ih, cpStepSucc_rm]

theorem foldl_cpStepSucc_defFrames (bn : BlockId) :
    ∀ (l : List BlockId) (st : CopyListener),
      (l.foldl (cpStepSucc bn) st).defFrames = st.defFrames := by
  intro l
  induction l with
  | nil => intro st; rfl
  | cons sn r ih =>
      intro st
      rw [List.foldl_cons, ih, cpStepSucc_defFrames]

theorem cpEnterSuccs_map (st : CopyListener) (bn : BlockId) :
    (cpEnterSuccs st bn).map = st.map := by
  unfold cpEnterSuccs
  split
  · rw [foldl_cpStepSucc_map]
  · rfl

theorem cpEnterSuccs_rm (st : CopyListener) (bn : BlockId) :
    (cpEnterSuccs st bn).rm = st.rm := by
  unfold cpEnterSuccs
  split
  · rw [foldl_cpStepSucc_rm]
  · rfl

theorem cpEnterSuccs_defFrames (st : CopyListener) (bn : BlockId) :
    (cpEnterSuccs st bn).defFrames = st.defFrames := by
  unfold cpEnterSuccs
  split
  · rw [foldl_cpStepSucc_defFrames]
  · rfl

theorem movsFromFn_mk {f : Fn} {st st2 : CopyListener} (hfn : st2.fn = st.fn)
    (hrm : st2.rm = st.rm) (h : movsFromFn f st) : movsFromFn f st2 := by
  unfold movsFromFn at *
  rw [hfn, hrm]
  exact h

theorem movsFromFn_cpStepInstr (f : Fn) (bn : BlockId) (st : CopyListener) (k : Nat)
    (h : movsFromFn f st) : movsFromFn f (cpStepInstr bn st k) :=
  movsFromFn_update f (cpStepInstr_chars bn st k).1 (cpStepInstr_chars bn st k).2 h

theorem movsFromFn_cpStepSucc (f : Fn) (bn : BlockId) (st : CopyListener) (sn : BlockId)
    (h : movsFromFn f st) : movsFromFn f (cpStepSucc bn st sn) := by
  refine movsFromFn_update f (cpStepSucc_chars bn st sn) ?_ h
  intro x hx
  rw [cpStepSucc_rm] at hx
  exact Or.inl hx

theorem movsFromFn_cpEnterInsts (f : Fn) (st : CopyListener) (bn : BlockId)
    (h : movsFromFn f st) : movsFromFn f (cpEnterInsts st bn) :=
  foldl_preserve (fun a b ha => movsFromFn_cpStepInstr f bn a b ha) _ st h

theorem movsFromFn_cpEnterSuccs (f : Fn) (st : CopyListener) (bn : BlockId)
    (h : movsFromFn f st) : movsFromFn f (cpEnterSuccs st bn) := by
  unfold cpEnterSuccs
  split
  · exact foldl_preserve (fun a b ha => movsFromFn_cpStepSucc f bn a b ha) _ st h
  · exact h

theorem movsFromFn_cpEnterFilter (f : Fn) (st : CopyListener) (bn : BlockId)
    (h : movsFromFn f st) : movsFromFn f (cpEnterFilter st bn) := by
  refine movsFromFn_update f ?_ ?_ h
  · intro b2 hb2
    unfold cpEnterFilter at hb2
    rcases hfb : st.fn.findBlock bn with _ | b3
    · rw [hfb] at hb2
      dsimp only at hb2
      exact ⟨b2, hb2, rfl, fun i2 hi2 => ⟨i2, hi2, rfl, fun _ => rfl⟩⟩
    · rw [hfb] at hb2
      dsimp only at hb2
      rcases mem_blocks_set hb2 with heq | hmemo
      · refine ⟨b3, findBlock_mem hfb, by rw [heq]; rfl, ?_⟩
        intro i2 hi2
        rw [heq] at hi2
        unfold filterRewrite at hi2
        dsimp only at hi2
        exact ⟨i2, (List.mem_filter.mp hi2).1, rfl, fun _ => rfl⟩
      · exact ⟨b2, hmemo, rfl, fun i2 hi2 => ⟨i2, hi2, rfl, fun _ => rfl⟩⟩
  · intro x hx
    rw [cpEnterFilter_rm] at hx
    exact Or.inl hx

theorem movsFromFn_cpEnterBlock (f : Fn) (st : CopyListener) (bn : BlockId)
    (h : movsFromFn f st) : movsFromFn f (cpEnterBlock st bn) := by
  unfold cpEnterBlock
  exact movsFromFn_cpEnterFilter f _ bn
    (movsFromFn_cpEnterSuccs f _ bn
      (movsFromFn_cpEnterInsts f _ bn (movsFromFn_mk rfl rfl h)))

theorem movsFromFn_cpExitBlock (f : Fn) (st : CopyListener)
    (h : movsFromFn f st) : movsFromFn f (cpExitBlock st) :=
  movsFromFn_mk (cpExitBlock_fn st) (cpExitBlock_rm st) h

theorem movsFromFn_cpStep (f : Fn) (st : CopyListener) (e : Ev)
    (h : movsFromFn f st) : movsFromFn f (cpStep st e) := by
  cases e with
  | enter bn => exact movsFromFn_cpEnterBlock f st bn h
  | exit bn => exact movsFromFn_cpExitBlock f st h

theorem movsFromFn_init (f : Fn) :
    movsFromFn f { fn := f, map := [], defFrames := [], rm := [] } := by
  constructor
  · intro b' hb' i' hi' hm
    exact ⟨b', hb', rfl, hi'⟩
  · intro x hx
    exact absurd hx (by simp)

theorem slotCorr_refl (b : Block) : slotCorr b b :=
  ⟨rfl, fun _ i2 h => ⟨i2, h, rfl, rfl, rfl, fun _ => rfl⟩⟩

theorem slotCorr_trans {a b c : Block} (h1 : slotCorr a b) (h2 : slotCorr b c) :
    slotCorr a c := by
  refine ⟨h2.1.trans h1.1, ?_⟩
  intro k i2 hk
  rcases h2.2 k i2 hk with ⟨i1, hk1, hid1, hm1, hp1, hnp1⟩
  rcases h1.2 k i1 hk1 with ⟨i0, hk0, hid0, hm0, hp0, hnp0⟩
  refine ⟨i0, hk0, hid1.trans hid0, hm1.trans hm0, hp1.trans hp0, ?_⟩
  intro hnp
  have he10 : i1 = i0 := hnp0 hnp
  have h1p : i1.inst.isPhi = false := by rw [he10]; exact hnp
  rw [hnp1 h1p, he10]

theorem cpStepInstr_findBlock_other (bn : BlockId) (st : CopyListener) (k : Nat)
    (tn : BlockId) (hne : tn ≠ bn) :
    (cpStepInstr bn st k).fn.findBlock tn = st.fn.findBlock tn := by
  unfold cpStepInstr
  cases hfb : st.fn.findBlock bn with
  | none => rfl
  | some b =>
      dsimp only
      cases hg : b.insts.get? k with
      | none => rfl
      | some i =>
          dsimp only
          rw [cpInstr_fn]
          have hname : (setInstsAt b k (cpInstr st i).1).name = bn := by
            show b.name = bn
            exact findBlock_name hfb
          exact findBlock_set_ne (by rw [hname]; exact fun hh => hne hh.symm)

theorem foldl_cpStepInstr_findBlock_other (bn tn : BlockId) (hne : tn ≠ bn) :
    ∀ (l : List Nat) (st : CopyListener),
      (l.foldl (cpStepInstr bn) st).fn.findBlock tn = st.fn.findBlock tn := by
  intro l
  induction l with
  | nil => intro st; rfl
  | cons k r ih =>
      intro st
      rw [List.foldl_cons, ih, cpStepInstr_findBlock_other bn st k tn hne]

theorem cpEnterInsts_findBlock_other (st : CopyListener) (bn tn : BlockId)
    (hne : tn ≠ bn) :
    (cpEnterInsts st bn).fn.findBlock tn = st.fn.findBlock tn :=
  foldl_cpStepInstr_findBlock_other bn tn hne _ st

theorem cpStepSucc_corr (bn : BlockId) (st : CopyListener) (sn tn : BlockId) {b : Block}
    (hf : st.fn.findBlock tn = some b) :
    ∃ b2, (cpStepSucc bn st sn).fn.findBlock tn = some b2 ∧ slotCorr b b2 := by
  unfold cpStepSucc
  cases hfs : st.fn.findBlock sn with
  | none => exact ⟨b, hf, slotCorr_refl b⟩
  | some sb =>
      dsimp only
      by_cases hsn : sn = tn
      · have hfs2 : st.fn.findBlock tn = some sb := by
          rw [← hsn]
          exact hfs
        have hbe : b = sb := by
          rw [hfs2] at hf
          exact ((Option.some.injEq _ _).mp hf).symm
        rw [hbe]
        have hname : (succRewrite st bn sb).name = tn := by
          show sb.name = tn
          exact findBlock_name hfs2
        refine ⟨succRewrite st bn sb, findBlock_set_same hfs2 hname, ?_, ?_⟩
        · unfold succRewrite
          dsimp only
          simp [List.enum_length]
        · intro k i2 hk
          have hk2 : (sb.insts.enum.map
              (fun (p : Nat × InstRef) =>
                if p.1 < (phiPrefix sb.insts).length
                then cpPhiSrcs st bn p.2 else p.2))[k]? = some i2 := hk
          rw [List.getElem?_map, List.getElem?_enum] at hk2
          cases hsk : sb.insts[k]? with
          | none => rw [hsk] at hk2; simp at hk2
          | some x =>
              rw [hsk] at hk2
              have hi2 : i2 = if k < (phiPrefix sb.insts).length
                  then cpPhiSrcs st bn x else x := by
                simpa using hk2.symm
              by_cases hkm : k < (phiPrefix sb.insts).length
              · rw [if_pos hkm] at hi2
                subst hi2
                exact ⟨x, rfl, cpPhiSrcs_iid st bn x, cpPhiSrcs_isMov st bn x,
                  cpPhiSrcs_isPhi st bn x, fun hnp => cpPhiSrcs_nonphi st bn x hnp⟩
              · rw [if_neg hkm] at hi2
                subst hi2
                exact ⟨i2, rfl, rfl, rfl, rfl, fun _ => rfl⟩
      · have hname : (succRewrite st bn sb).name ≠ tn := by
          show sb.name ≠ tn
          rw [findBlock_name hfs]
          exact hsn
        rw [findBlock_set_ne hname]
        exact ⟨b, hf, slotCorr_refl b⟩

theorem cpStepSucc_findBlock_none (bn : BlockId) (st : CopyListener) (sn tn : BlockId)
    (hf : st.fn.findBlock tn = none) :
    (cpStepSucc bn st sn).fn.findBlock tn = none := by
  unfold cpStepSucc
  cases hfs : st.fn.findBlock sn with
  | none => exact hf
  | some sb =>
      dsimp only
      have hsn : sn ≠ tn := by
        intro h
        rw [h] at hfs
        rw [hfs] at hf
        exact Option.noConfusion hf
      have hname : (succRewrite st bn sb).name ≠ tn := by
        show sb.name ≠ tn
        rw [findBlock_name hfs]
        exact hsn
      rw [findBlock_set_ne hname]
      exact hf

theorem foldl_cpStepSucc_corr (bn tn : BlockId) :
    ∀ (l : List BlockId) (st : CopyListener) {b : Block},
      st.fn.findBlock tn = some b →
      ∃ b2, (l.foldl (cpStepSucc bn) st).fn.findBlock tn = some b2 ∧ slotCorr b b2 := by
  intro l
  induction l with
  | nil => intro st b hf; exact ⟨b, hf, slotCorr_refl b⟩
  | cons sn r ih =>
      intro st b hf
      rcases cpStepSucc_corr bn st sn tn hf with ⟨b1, hb1, hc1⟩
      rcases ih (cpStepSucc bn st sn) hb1 with ⟨b2, hb2, hc2⟩
      exact ⟨b2, by rw [List.foldl_cons]; exact hb2, slotCorr_trans hc1 hc2⟩

theorem foldl_cpStepSucc_findBlock_none (bn tn : BlockId) :
    ∀ (l : List BlockId) (st : CopyListener),
      st.fn.findBlock tn = none →
      (l.foldl (cpStepSucc bn) st).fn.findBlock tn = none := by
  intro l
  induction l with
  | nil => intro st hf; exact hf
  | cons sn r ih =>
      intro st hf
      rw [List.foldl_cons]
      exact ih _ (cpStepSucc_findBlock_none bn st sn tn hf)

theorem cpEnterSuccs_corr (st : CopyListener) (en tn : BlockId) {b : Block}
    (hf : st.fn.findBlock tn = some b) :
    ∃ b2, (cpEnterSuccs st en).fn.findBlock tn = some b2 ∧ slotCorr b b2 := by
  unfold cpEnterSuccs
  cases hfb : st.fn.findBlock en with
  | none => exact ⟨b, hf, slotCorr_refl b⟩
  | some b1 =>
      dsimp only
      exact foldl_cpStepSucc_corr en tn b1.succs st hf

theorem cpEnterSuccs_findBlock_none (st : CopyListener) (en tn : BlockId)
    (hf : st.fn.findBlock tn = none) :
    (cpEnterSuccs st en).fn.findBlock tn = none := by
  unfold cpEnterSuccs
  cases hfb : st.fn.findBlock en with
  | none => exact hf
  | some b1 =>
      dsimp only
      exact foldl_cpStepSucc_findBlock_none en tn b1.succs st hf

theorem cpEnterFilter_findBlock_other (st : CopyListener) (bn tn : BlockId)
    (hne : tn ≠ bn) :
    (cpEnterFilter st bn).fn.findBlock tn = st.fn.findBlock tn := by
  unfold cpEnterFilter
  cases hfb : st.fn.findBlock bn with
  | none => rfl
  | some b3 =>
      dsimp only
      have hname : (filterRewrite st.rm b3).name = bn := by
        show b3.name = bn
        exact findBlock_name hfb
      exact findBlock_set_ne (by rw [hname]; exact fun hh => hne hh.symm)

theorem slotCorr_cpStep (st : CopyListener) (e : Ev) (tn : BlockId)
    (hne : e ≠ .enter tn) {b : Block} (hf : st.fn.findBlock tn = some b) :
    ∃ b2, (cpStep st e).fn.findBlock tn = some b2 ∧ slotCorr b b2 := by
  cases e with
  | exit en =>
      refine ⟨b, ?_, slotCorr_refl b⟩
      show (cpExitBlock st).fn.findBlock tn = some b
      rw [cpExitBlock_fn]
      exact hf
  | enter en =>
      have hten : tn ≠ en := fun h => hne (by rw [h])
      show ∃ b2, (cpEnterBlock st en).fn.findBlock tn = some b2 ∧ slotCorr b b2
      unfold cpEnterBlock
      have h1 : (cpEnterInsts { st with defFrames := [] :: st.defFrames } en).fn.findBlock
          tn = some b := by
        rw [cpEnterInsts_findBlock_other _ en tn hten]
        exact hf
      rcases cpEnterSuccs_corr _ en tn h1 with ⟨b2, hb2, hc2⟩
      refine ⟨b2, ?_, hc2⟩
      rw [cpEnterFilter_findBlock_other _ en tn hten]
      exact hb2

theorem cpStepInstr_found (bn : BlockId) (st : CopyListener) (k : Nat) {b : Block}
    {i : InstRef} (hf : st.fn.findBlock bn = some b) (hg : b.insts.get? k = some i) :
    (cpStepInstr bn st k).fn.findBlock bn = some (setInstsAt b k (cpInstr st i).1) ∧
    (cpStepInstr bn st k).map = (cpInstr st i).2.map ∧
    (cpStepInstr bn st k).rm = (cpInstr st i).2.rm ∧
    (cpStepInstr bn st k).defFrames = (cpInstr st i).2.defFrames := by
  unfold cpStepInstr
  rw [hf]
  dsimp only
  rw [hg]
  dsimp only
  refine ⟨?_, rfl, rfl, rfl⟩
  rw [cpInstr_fn]
  exact findBlock_set_same hf (by show b.name = bn; exact findBlock_name hf)

theorem cpStepInstr_nofind (bn : BlockId) (st : CopyListener) (k : Nat)
    (hf : st.fn.findBlock bn = none) : cpStepInstr bn st k = st := by
  unfold cpStepInstr
  rw [hf]

theorem cpStepInstr_noget (bn : BlockId) (st : CopyListener) (k : Nat) {b : Block}
    (hf : st.fn.findBlock bn = some b) (hg : b.insts.get? k = none) :
    cpStepInstr bn st k = st := by
  unfold cpStepInstr
  rw [hf]
  dsimp only
  rw [hg]

theorem cpInstr_rm_mono (st : CopyListener) (i : InstRef) {x : Nat} (h : x ∈ st.rm) :
    x ∈ (cpInstr st i).2.rm := by
  by_cases hm : i.inst.isMov = true
  · rcases isMov_elim hm with ⟨s, d, hsd⟩
    rw [cpInstr_of_mov st i hsd]
    exact mem_appendOnce_of_mem _ h
  · have hmf : i.inst.isMov = false := by simpa using hm
    by_cases hp : i.inst.isPhi = true
    · rw [cpInstr_of_phi st i hp]
      exact h
    · have hpf : i.inst.isPhi = false := by simpa using hp
      rw [cpInstr_of_other st i hmf hpf]
      exact h

theorem cpStepInstr_rm_mono (bn : BlockId) (st : CopyListener) (k : Nat) {x : Nat}
    (h : x ∈ st.rm) : x ∈ (cpStepInstr bn st k).rm := by
  cases hf : st.fn.findBlock bn with
  | none => rw [cpStepInstr_nofind bn st k hf]; exact h
  | some b =>
      cases hg : b.insts.get? k with
      | none => rw [cpStepInstr_noget bn st k hf hg]; exact h
      | some i =>
          rw [(cpStepInstr_found bn st k hf hg).2.2.1]
          exact cpInstr_rm_mono st i h

theorem cpEnterInsts_marks_aux (bn : BlockId) :
    ∀ (t : Nat) (st : CopyListener) {b : Block},
      st.fn.findBlock bn = some b →
      ∃ b1, ((List.range t).foldl (cpStepInstr bn) st).fn.findBlock bn = some b1 ∧
        b1.insts.length = b.insts.length ∧
        (∀ (k : Nat) (i1 : InstRef), k < t → b1.insts[k]? = some i1 →
          i1.inst.isMov = true →
          i1.iid ∈ ((List.range t).foldl (cpStepInstr bn) st).rm) := by
  intro t
  induction t with
  | zero =>
      intro st b hf
      exact ⟨b, hf, rfl, fun k i1 hk _ _ => absurd hk (Nat.not_lt_zero k)⟩
  | succ t ih =>
      intro st b hf
      rcases ih st hf with ⟨b1, hb1, hlen, hmark⟩
      rw [List.range_succ, List.foldl_append, List.foldl_cons, List.foldl_nil]
      generalize hstt : (List.range t).foldl (cpStepInstr bn) st = stt at hb1 hmark
      cases hg : b1.insts.get? t with
      | none =>
          rw [cpStepInstr_noget bn stt t hb1 hg]
          refine ⟨b1, hb1, hlen, ?_⟩
          intro k i1 hk hs hm
          rcases Nat.lt_succ_iff_lt_or_eq.mp hk with hlt | heq
          · exact hmark k i1 hlt hs hm
          · subst heq
            rw [List.get?_eq_getElem?] at hg
            rw [hg] at hs
            exact Option.noConfusion hs
      | some i =>
          have hfound := cpStepInstr_found bn stt t hb1 hg
          refine ⟨setInstsAt b1 t (cpInstr stt i).1, hfound.1, ?_, ?_⟩
          · show (b1.insts.set t (cpInstr stt i).1).length = b.insts.length
            rw [List.length_set]
            exact hlen
          · intro k i1 hk hs hm
            have hs2 : (b1.insts.set t (cpInstr stt i).1)[k]? = some i1 := hs
            rw [hfound.2.2.1]
            rcases Nat.lt_succ_iff_lt_or_eq.mp hk with hlt | heq
            · have htk : t ≠ k := fun hh => Nat.lt_irrefl t (hh ▸ hlt)
              rw [List.getElem?_set_ne htk] at hs2
              exact cpInstr_rm_mono stt i (hmark k i1 hlt hs2 hm)
            · subst heq
              by_cases hlb : k < b1.insts.length
              · rw [getElem?_set_self_of_lt _ _ _ hlb] at hs2
                have hi1 : i1 = (cpInstr stt i).1 :=
                  ((Option.some.injEq _ _).mp hs2).symm
                have him : i.inst.isMov = true := by
                  rw [← cpInstr_isMov stt i, ← hi1]
                  exact hm
                rcases isMov_elim him with ⟨s, d, hsd⟩
                rw [cpInstr_of_mov stt i hsd]
                have hiid : i1.iid = i.iid := by
                  rw [hi1]
                  exact cpInstr_iid stt i
                rw [hiid]
                exact mem_appendOnce_self stt.rm i.iid
              · have hnone : (b1.insts.set k (cpInstr stt i).1)[k]? = none := by
                  apply List.getElem?_eq_none
                  rw [List.length_set]
                  omega
                rw [hnone] at hs2
                exact Option.noConfusion hs2

theorem cpEnterInsts_nofind (st : CopyListener) (bn : BlockId)
    (hf : st.fn.findBlock bn = none) : cpEnterInsts st bn = st := by
  unfold cpEnterInsts
  rw [hf]
  rfl

theorem cpEnterSuccs_nofind (st : CopyListener) (bn : BlockId)
    (hf : st.fn.findBlock bn = none) : cpEnterSuccs st bn = st := by
  unfold cpEnterSuccs
  rw [hf]

theorem cpEnterFilter_nofind (st : CopyListener) (bn : BlockId)
    (hf : st.fn.findBlock bn = none) : cpEnterFilter st bn = st := by
  unfold cpEnterFilter
  rw [hf]

theorem cpEnterInsts_found (st : CopyListener) (bn : BlockId) {b : Block}
    (hf : st.fn.findBlock bn = some b) :
    cpEnterInsts st bn = (List.range b.insts.length).foldl (cpStepInstr bn) st := by
  unfold cpEnterInsts
  rw [hf]
  rfl

theorem cpEnterBlock_movFree (st : CopyListener) (bn : BlockId) :
    movFreeIn (cpEnterBlock st bn).fn bn := by
  intro bfin hfind i2 hi2
  unfold cpEnterBlock at hfind
  cases hfb0 : st.fn.findBlock bn with
  | none =>
      have hfb1 : ({ st with defFrames := [] :: st.defFrames } :
          CopyListener).fn.findBlock bn = none := hfb0
      rw [cpEnterInsts_nofind _ bn hfb1, cpEnterSuccs_nofind _ bn hfb1,
        cpEnterFilter_nofind _ bn hfb1] at hfind
      have hfind2 : st.fn.findBlock bn = some bfin := hfind
      rw [hfb0] at hfind2
      exact Option.noConfusion hfind2
  | some b0 =>
      have hfb1 : ({ st with defFrames := [] :: st.defFrames } :
          CopyListener).fn.findBlock bn = some b0 := hfb0
      rw [cpEnterInsts_found _ bn hfb1] at hfind
      generalize hstB : (List.range b0.insts.length).foldl (cpStepInstr bn)
        { st with defFrames := [] :: st.defFrames } = stB at hfind
      rcases cpEnterInsts_marks_aux bn b0.insts.length
          { st with defFrames := [] :: st.defFrames } hfb1 with ⟨b1, hb1, hlen, hmark⟩
      rw [hstB] at hb1 hmark
      have hall : ∀ i1 ∈ b1.insts, i1.inst.isMov = true → i1.iid ∈ stB.rm := by
        intro i1 hi1 hm
        rcases List.getElem_of_mem hi1 with ⟨k, hk, he⟩
        have hsl : b1.insts[k]? = some i1 := by
          rw [List.getElem?_eq_getElem hk, he]
        exact hmark k i1 (hlen ▸ hk) hsl hm
      rcases cpEnterSuccs_corr stB bn bn hb1 with ⟨b2, hb2, hcorr⟩
      unfold cpEnterFilter at hfind
      rw [hb2] at hfind
      dsimp only at hfind
      rw [findBlock_set_same hb2
        (show (filterRewrite (cpEnterSuccs stB bn).rm b2).name = bn by
          show b2.name = bn
          exact findBlock_name hb2)] at hfind
      have hbfin : bfin = filterRewrite (cpEnterSuccs stB bn).rm b2 :=
        ((Option.some.injEq _ _).mp hfind).symm
      rw [hbfin] at hi2
      unfold filterRewrite at hi2
      dsimp only at hi2
      rcases List.mem_filter.mp hi2 with ⟨hmem2, hpred⟩
      by_contra hmv
      have hm2 : i2.inst.isMov = true := by simpa using hmv
      rcases List.getElem_of_mem hmem2 with ⟨k, hk, he⟩
      have hs2 : b2.insts[k]? = some i2 := by
        rw [List.getElem?_eq_getElem hk, he]
      rcases hcorr.2 k i2 hs2 with ⟨i0, hs0, hid, hmm, hpp, hnp⟩
      have h0m : i0.inst.isMov = true := hmm ▸ hm2
      have hi0mem : i0 ∈ b1.insts := List.getElem?_mem hs0
      have hmarked := hall i0 hi0mem h0m
      have hcontains : (cpEnterSuccs stB bn).rm.contains i2.iid = true := by
        rw [cpEnterSuccs_rm, hid]
        exact List.elem_eq_true_of_mem hmarked
      rw [hcontains] at hpred
      simp at hpred

theorem findBlock_none_cpStep (st : CopyListener) (e : Ev) (tn : BlockId)
    (hne : e ≠ .enter tn) (hf : st.fn.findBlock tn = none) :
    (cpStep st e).fn.findBlock tn = none := by
  cases e with
  | exit en =>
      show (cpExitBlock st).fn.findBlock tn = none
      rw [cpExitBlock_fn]
      exact hf
  | enter en =>
      have hten : tn ≠ en := fun h => hne (by rw [h])
      show (cpEnterBlock st en).fn.findBlock tn = none
      unfold cpEnterBlock
      rw [cpEnterFilter_findBlock_other _ en tn hten]
      apply cpEnterSuccs_findBlock_none _ en tn
      rw [cpEnterInsts_findBlock_other _ en tn hten]
      exact hf

theorem movFreeIn_cpStep (st : CopyListener) (e : Ev) (tn : BlockId)
    (h : movFreeIn st.fn tn) : movFreeIn (cpStep st e).fn tn := by
  by_cases he : e = .enter tn
  · rw [he]
    exact cpEnterBlock_movFree st tn
  · intro b2 hb2 i2 hi2
    cases hold : st.fn.findBlock tn with
    | none =>
        rw [findBlock_none_cpStep st e tn he hold] at hb2
        exact Option.noConfusion hb2
    | some b =>
        rcases slotCorr_cpStep st e tn he hold with ⟨b2x, hb2x, hcorr⟩
        rw [hb2x] at hb2
        have hbe : b2 = b2x := ((Option.some.injEq _ _).mp hb2).symm
        rcases List.getElem_of_mem hi2 with ⟨k, hk, he2⟩
        have hs : b2x.insts[k]? = some i2 := by
          rw [← hbe, List.getElem?_eq_getElem hk, he2]
        rcases hcorr.2 k i2 hs with ⟨i0, hs0, _, hmm, _, _⟩
        rw [hmm]
        exact h b hold i0 (List.getElem?_mem hs0)

theorem movFreeIn_fold (bn : BlockId) :
    ∀ (l : List Ev) (st : CopyListener),
      movFreeIn st.fn bn → movFreeIn ((l.foldl cpStep st)).fn bn := by
  intro l
  induction l with
  | nil => intro st h; exact h
  | cons e r ih => intro st h; exact ih _ (movFreeIn_cpStep st e bn h)

theorem copyProp_movFree_master (f : Fn) (evs : List Ev) (bn : BlockId)
    (hent : Ev.enter bn ∈ evs) : movFreeIn (runCopyProp f evs) bn := by
  rcases List.append_of_mem hent with ⟨s, t, hevs⟩
  unfold runCopyProp
  rw [hevs, List.foldl_append, List.foldl_cons]
  exact movFreeIn_fold bn t _ (cpEnterBlock_movFree _ bn)

theorem isMovTo_elim {i : Inst} {d : Symbol} (h : i.isMovTo d = true) :
    ∃ s, i = .mov s d := by
  cases i <;> simp [Inst.isMovTo] at h
  rename_i s d'
  rw [show d' = d from h]
  exact ⟨s, rfl⟩

theorem isMovTo_of_mov {s : Value} {d : Symbol} : (Inst.mov s d).isMovTo d = true := by
  simp [Inst.isMovTo]

theorem movUniqueB_elim {f : Fn} {d : Symbol} {bnH : BlockId} {r : InstRef}
    (h : movUniqueB f d bnH r = true) {b : Block} {i : InstRef}
    (hb : b ∈ f.blocks) (hi : i ∈ b.insts) (hmov : i.inst.isMovTo d = true) :
    b.name = bnH ∧ i = r := by
  unfold movUniqueB at h
  rw [List.all_eq_true] at h
  have h1 := h b hb
  rw [List.all_eq_true] at h1
  have h2 := h1 i hi
  rw [hmov] at h2
  simpa using h2

theorem noMovIidB_elim {f : Fn} {u : Nat} (h : noMovIidB f u = true) {b : Block}
    {i : InstRef} (hb : b ∈ f.blocks) (hi : i ∈ b.insts)
    (hmov : i.inst.isMov = true) : i.iid ≠ u := by
  unfold noMovIidB at h
  rw [List.all_eq_true] at h
  have h1 := h b hb
  rw [List.all_eq_true] at h1
  have h2 := h1 i hi
  rw [hmov] at h2
  simpa using h2

theorem cpUseVal_var {st : CopyListener} {d : Symbol} {src : Value}
    (h : assocFind st.map d = some src) : cpUseVal st (.var d) = src := by
  unfold cpUseVal
  dsimp only
  rw [h]

theorem cpStepInstr_slot (bn : BlockId) (st : CopyListener) (k : Nat) {b : Block}
    (hf : st.fn.findBlock bn = some b) :
    ∃ b2, (cpStepInstr bn st k).fn.findBlock bn = some b2 ∧
      b2.insts.length = b.insts.length ∧
      ∀ jj : Nat, jj ≠ k → b2.insts[jj]? = b.insts[jj]? := by
  cases hg : b.insts.get? k with
  | none =>
      rw [cpStepInstr_noget bn st k hf hg]
      exact ⟨b, hf, rfl, fun _ _ => rfl⟩
  | some i =>
      refine ⟨setInstsAt b k (cpInstr st i).1, (cpStepInstr_found bn st k hf hg).1,
        ?_, ?_⟩
      · show (b.insts.set k (cpInstr st i).1).length = b.insts.length
        rw [List.length_set]
      · intro jj hjj
        show (b.insts.set k (cpInstr st i).1)[jj]? = b.insts[jj]?
        exact List.getElem?_set_ne (fun hh => hjj hh.symm)

theorem cpStepInstr_movslot (bn : BlockId) (st : CopyListener) (k : Nat) {b : Block}
    (hf : st.fn.findBlock bn = some b) {jj : Nat} {im : InstRef}
    (hs : b.insts[jj]? = some im) (hmv : im.inst.isMov = true) :
    ∃ b2, (cpStepInstr bn st k).fn.findBlock bn = some b2 ∧
      b2.insts.length = b.insts.length ∧ b2.insts[jj]? = some im := by
  rcases cpStepInstr_slot bn st k hf with ⟨b2, hb2, hlen, hsl⟩
  by_cases hjk : jj = k
  · subst hjk
    cases hg : b.insts.get? jj with
    | none =>
        rw [List.get?_eq_getElem?, hs] at hg
        exact Option.noConfusion hg
    | some i =>
        have hieq : i = im := by
          rw [List.get?_eq_getElem?, hs] at hg
          exact ((Option.some.injEq _ _).mp hg).symm
        subst hieq
        rcases isMov_elim hmv with ⟨s, d, hsd⟩
        refine ⟨setInstsAt b jj (cpInstr st i).1,
          (cpStepInstr_found bn st jj hf hg).1, ?_, ?_⟩
        · show (b.insts.set jj (cpInstr st i).1).length = b.insts.length
          rw [List.length_set]
        · show (b.insts.set jj (cpInstr st i).1)[jj]? = some i
          rw [cpInstr_of_mov st i hsd]
          exact getElem?_set_self_of_lt _ _ _ (List.getElem?_eq_some.mp hs).1
  · exact ⟨b2, hb2, hlen, by rw [hsl jj hjk]; exact hs⟩

theorem cpStepInstr_bind (f : Fn) (d : Symbol) (src : Value) (bnH : BlockId) (m : Nat)
    (hMU : movUniqueB f d bnH (InstRef.mk m (Inst.mov src d)) = true)
    (bn : BlockId) (st : CopyListener) (k : Nat)
    (hM : movsFromFn f st) (hbind : assocFind st.map d = some src) :
    assocFind (cpStepInstr bn st k).map d = some src := by
  cases hf : st.fn.findBlock bn with
  | none => rw [cpStepInstr_nofind bn st k hf]; exact hbind
  | some b =>
      cases hg : b.insts.get? k with
      | none => rw [cpStepInstr_noget bn st k hf hg]; exact hbind
      | some i =>
          rw [(cpStepInstr_found bn st k hf hg).2.1]
          have hg2 : b.insts[k]? = some i := by
            rw [← List.get?_eq_getElem?]
            exact hg
          have himem : i ∈ b.insts := List.getElem?_mem hg2
          by_cases hm : i.inst.isMov = true
          · rcases isMov_elim hm with ⟨s, d', hsd⟩
            rw [cpInstr_of_mov st i hsd]
            show assocFind (assocSet st.map d' s) d = some src
            by_cases hdd : d' = d
            · subst hdd
              rcases hM.1 b (findBlock_mem hf) i himem hm with ⟨bf, hbf, hbn, hif⟩
              have hmt : i.inst.isMovTo d' = true := by
                rw [hsd]
                exact isMovTo_of_mov
              rcases movUniqueB_elim hMU hbf hif hmt with ⟨_, hir⟩
              have hseq : s = src := by
                have h3 : i.inst = Inst.mov src d' := by rw [hir]
                rw [hsd] at h3
                have h4 := (Inst.mov.injEq _ _ _ _).mp h3
                exact h4.1
              rw [hseq]
              exact assocFind_set_self st.map d' src
            · rw [assocFind_set_ne st.map d' d s (fun hh => hdd hh.symm)]
              exact hbind
          · have hmf : i.inst.isMov = false := by simpa using hm
            by_cases hp : i.inst.isPhi = true
            · rw [cpInstr_of_phi st i hp]
              exact hbind
            · have hpf : i.inst.isPhi = false := by simpa using hp
              rw [cpInstr_of_other st i hmf hpf]
              exact hbind

theorem cpEnterInsts_establish_aux (f : Fn) (d : Symbol) (src : Value) (bnH : BlockId)
    (m : Nat) (hMU : movUniqueB f d bnH (InstRef.mk m (Inst.mov src d)) = true)
    (j : Nat) :
    ∀ (t : Nat) (st : CopyListener) {b0 : Block},
      st.fn.findBlock bnH = some b0 →
      movsFromFn f st →
      b0.insts[j]? = some (InstRef.mk m (Inst.mov src d)) →
      movsFromFn f ((List.range t).foldl (cpStepInstr bnH) st) ∧
      (∃ bt, ((List.range t).foldl (cpStepInstr bnH) st).fn.findBlock bnH = some bt ∧
        bt.insts[j]? = some (InstRef.mk m (Inst.mov src d))) ∧
      (j < t → assocFind ((List.range t).foldl (cpStepInstr bnH) st).map d = some src) := by
  intro t
  induction t with
  | zero =>
      intro st b0 hf hM hj
      exact ⟨hM, ⟨b0, hf, hj⟩, fun hh => absurd hh (Nat.not_lt_zero j)⟩
  | succ t ih =>
      intro st b0 hf hM hj
      rcases ih st hf hM hj with ⟨hMt, ⟨bt, hbt, hslot⟩, hbind⟩
      rw [List.range_succ, List.foldl_append, List.foldl_cons, List.foldl_nil]
      generalize hstt : (List.range t).foldl (cpStepInstr bnH) st = stt
        at hMt hbt hslot hbind
      have hmv : (InstRef.mk m (Inst.mov src d)).inst.isMov = true := rfl
      refine ⟨movsFromFn_cpStepInstr f bnH stt t hMt, ?_, ?_⟩
      · rcases cpStepInstr_movslot bnH stt t hbt hslot hmv with ⟨b2, hb2, _, hs2⟩
        exact ⟨b2, hb2, hs2⟩
      · intro hjt
        rcases Nat.lt_succ_iff_lt_or_eq.mp hjt with hlt | heq
        · exact cpStepInstr_bind f d src bnH m hMU bnH stt t hMt (hbind hlt)
        · subst heq
          have hg : bt.insts.get? j = some (InstRef.mk m (Inst.mov src d)) := by
            rw [List.get?_eq_getElem?]
            exact hslot
          rw [(cpStepInstr_found bnH stt j hbt hg).2.1, cpInstr_of_mov stt _ rfl]
          exact assocFind_set_self stt.map d src

theorem cpEnterBlock_establish (f : Fn) (d : Symbol) (src : Value) (bnH : BlockId)
    (m : Nat) (hMU : movUniqueB f d bnH (InstRef.mk m (Inst.mov src d)) = true)
    (st : CopyListener) {b0 : Block} (hf : st.fn.findBlock bnH = some b0)
    (hM : movsFromFn f st) (j : Nat)
    (hj : b0.insts[j]? = some (InstRef.mk m (Inst.mov src d))) :
    assocFind (cpEnterBlock st bnH).map d = some src := by
  unfold cpEnterBlock
  rw [cpEnterFilter_map, cpEnterSuccs_map]
  have hfb1 : ({ st with defFrames := [] :: st.defFrames } : CopyListener).fn.findBlock
      bnH = some b0 := hf
  rw [cpEnterInsts_found _ bnH hfb1]
  have hM1 : movsFromFn f { st with defFrames := [] :: st.defFrames } :=
    movsFromFn_mk rfl rfl hM
  have hlt : j < b0.insts.length := (List.getElem?_eq_some.mp hj).1
  exact (cpEnterInsts_establish_aux f d src bnH m hMU j b0.insts.length _ hfb1
    hM1 hj).2.2 hlt

theorem cpEnterBlock_bind (f : Fn) (d : Symbol) (src : Value) (bnH : BlockId)
    (m : Nat) (hMU : movUniqueB f d bnH (InstRef.mk m (Inst.mov src d)) = true)
    (st : CopyListener) (en : BlockId) (hM : movsFromFn f st)
    (hbind : assocFind st.map d = some src) :
    assocFind (cpEnterBlock st en).map d = some src := by
  unfold cpEnterBlock
  rw [cpEnterFilter_map, cpEnterSuccs_map]
  unfold cpEnterInsts
  have hstep : ∀ (a : CopyListener) (k : Nat),
      (movsFromFn f a ∧ assocFind a.map d = some src) →
      (movsFromFn f (cpStepInstr en a k) ∧
        assocFind (cpStepInstr en a k).map d = some src) := by
    intro a k ha
    exact ⟨movsFromFn_cpStepInstr f en a k ha.1,
      cpStepInstr_bind f d src bnH m hMU en a k ha.1 ha.2⟩
  exact (foldl_preserve hstep (List.range _)
    ({ st with defFrames := [] :: st.defFrames } : CopyListener)
    ⟨movsFromFn_mk rfl rfl hM, hbind⟩).2

theorem cpStepInstr_frames (f : Fn) (bn : BlockId) (st : CopyListener) (k : Nat)
    (hM : movsFromFn f st) {fr : List Symbol} {rest : List (List Symbol)}
    (hfr : st.defFrames = fr :: rest)
    (hch : ∀ s' ∈ fr, ∃ bf ∈ f.blocks, bf.name = bn ∧
      ∃ i0 ∈ bf.insts, i0.inst.isMovTo s' = true) :
    ∃ fr2, (cpStepInstr bn st k).defFrames = fr2 :: rest ∧
      ∀ s' ∈ fr2, ∃ bf ∈ f.blocks, bf.name = bn ∧
        ∃ i0 ∈ bf.insts, i0.inst.isMovTo s' = true := by
  cases hf : st.fn.findBlock bn with
  | none => rw [cpStepInstr_nofind bn st k hf]; exact ⟨fr, hfr, hch⟩
  | some b =>
      cases hg : b.insts.get? k with
      | none => rw [cpStepInstr_noget bn st k hf hg]; exact ⟨fr, hfr, hch⟩
      | some i =>
          rw [(cpStepInstr_found bn st k hf hg).2.2.2]
          have hg2 : b.insts[k]? = some i := by
            rw [← List.get?_eq_getElem?]
            exact hg
          have himem : i ∈ b.insts := List.getElem?_mem hg2
          by_cases hm : i.inst.isMov = true
          · rcases isMov_elim hm with ⟨s, d', hsd⟩
            rw [cpInstr_of_mov st i hsd]
            refine ⟨fr ++ [d'], ?_, ?_⟩
            · show (match st.defFrames with
                | frx :: restx => (frx ++ [d']) :: restx
                | [] => []) = (fr ++ [d']) :: rest
              rw [hfr]
            · intro s' hs'
              rcases List.mem_append.mp hs' with hold | hnew
              · exact hch s' hold
              · have hsd' : s' = d' := List.mem_singleton.mp hnew
                rcases hM.1 b (findBlock_mem hf) i himem hm with ⟨bf, hbf, hbn, hif⟩
                refine ⟨bf, hbf, hbn.trans (findBlock_name hf), i, hif, ?_⟩
                rw [hsd', hsd]
                exact isMovTo_of_mov
          · have hmf : i.inst.isMov = false := by simpa using hm
            by_cases hp : i.inst.isPhi = true
            · rw [cpInstr_of_phi st i hp]
              exact ⟨fr, hfr, hch⟩
            · have hpf : i.inst.isPhi = false := by simpa using hp
              rw [cpInstr_of_other st i hmf hpf]
              exact ⟨fr, hfr, hch⟩

theorem cpEnterBlock_frames (f : Fn) (st : CopyListener) (en : BlockId)
    (hM : movsFromFn f st) :
    ∃ fr, (cpEnterBlock st en).defFrames = fr :: st.defFrames ∧
      ∀ s' ∈ fr, ∃ bf ∈ f.blocks, bf.name = en ∧
        ∃ i0 ∈ bf.insts, i0.inst.isMovTo s' = true := by
  unfold cpEnterBlock
  rw [cpEnterFilter_defFrames, cpEnterSuccs_defFrames]
  unfold cpEnterInsts
  have hstep : ∀ (a : CopyListener) (k : Nat),
      (movsFromFn f a ∧ ∃ fr, a.defFrames = fr :: st.defFrames ∧
        ∀ s' ∈ fr, ∃ bf ∈ f.blocks, bf.name = en ∧
          ∃ i0 ∈ bf.insts, i0.inst.isMovTo s' = true) →
      (movsFromFn f (cpStepInstr en a k) ∧
        ∃ fr, (cpStepInstr en a k).defFrames = fr :: st.defFrames ∧
          ∀ s' ∈ fr, ∃ bf ∈ f.blocks, bf.name = en ∧
            ∃ i0 ∈ bf.insts, i0.inst.isMovTo s' = true) := by
    intro a k ha
    rcases ha.2 with ⟨fr, hfr, hch⟩
    rcases cpStepInstr_frames f en a k ha.1 hfr hch with ⟨fr2, hfr2, hch2⟩
    exact ⟨movsFromFn_cpStepInstr f en a k ha.1, fr2, hfr2, hch2⟩
  exact (foldl_preserve hstep (List.range _)
    ({ st with defFrames := [] :: st.defFrames } : CopyListener)
    ⟨movsFromFn_mk rfl rfl hM, [], rfl, fun s' hs' => absurd hs' (by simp)⟩).2

theorem cpExitBlock_pop {st : CopyListener} {fr : List Symbol}
    {rest : List (List Symbol)} (hfr : st.defFrames = fr :: rest) :
    (cpExitBlock st).defFrames = rest ∧
      (cpExitBlock st).map = fr.foldl (fun mp s => assocRemove mp s) st.map := by
  unfold cpExitBlock
  rw [hfr]
  exact ⟨rfl, rfl⟩

theorem cpEnterInsts_site_aux (f : Fn) (d : Symbol) (src : Value) (bnH : BlockId)
    (m : Nat) (hMU : movUniqueB f d bnH (InstRef.mk m (Inst.mov src d)) = true)
    (tn : BlockId) (q u : Nat) (inst : Inst)
    (hqm : inst.isMov = false) (hqp : inst.isPhi = false)
    (jo : Option Nat) (hjq : ∀ j, jo = some j → j < q) :
    ∀ (t : Nat) (st : CopyListener) {b0 : Block},
      st.fn.findBlock tn = some b0 →
      movsFromFn f st →
      b0.insts[q]? = some (InstRef.mk u inst) →
      (∀ j, jo = some j → b0.insts[j]? = some (InstRef.mk m (Inst.mov src d))) →
      (jo = none → assocFind st.map d = some src) →
      movsFromFn f ((List.range t).foldl (cpStepInstr tn) st) ∧
      ((jo = none →
          assocFind ((List.range t).foldl (cpStepInstr tn) st).map d = some src) ∧
        (∀ j, jo = some j → j < t →
          assocFind ((List.range t).foldl (cpStepInstr tn) st).map d = some src)) ∧
      (∃ bt, ((List.range t).foldl (cpStepInstr tn) st).fn.findBlock tn = some bt ∧
        bt.insts.length = b0.insts.length ∧
        (∀ j, jo = some j → bt.insts[j]? = some (InstRef.mk m (Inst.mov src d))) ∧
        (t ≤ q → bt.insts[q]? = some (InstRef.mk u inst)) ∧
        (q < t → ∃ g, bt.insts[q]? = some (InstRef.mk u (inst.mapUses g)) ∧
          g (.var d) = src)) := by
  intro t
  induction t with
  | zero =>
      intro st b0 hf hM hq hjslot hbind0
      refine ⟨hM, ⟨hbind0, fun j hj hlt => absurd hlt (Nat.not_lt_zero j)⟩,
        b0, hf, rfl, fun j hj => hjslot j hj, fun _ => hq,
        fun hh => absurd hh (Nat.not_lt_zero q)⟩
  | succ t ih =>
      intro st b0 hf hM hq hjslot hbind0
      rcases ih st hf hM hq hjslot hbind0 with
        ⟨hMt, ⟨hbn, hbs⟩, bt, hbt, hlen, hjs, hqpre, hqpost⟩
      rw [List.range_succ, List.foldl_append, List.foldl_cons, List.foldl_nil]
      generalize hstt : (List.range t).foldl (cpStepInstr tn) st = stt
        at hMt hbn hbs hbt hjs hqpre hqpost
      have hMn : movsFromFn f (cpStepInstr tn stt t) :=
        movsFromFn_cpStepInstr f tn stt t hMt
      refine ⟨hMn, ⟨?_, ?_⟩, ?_⟩
      · intro hnone
        exact cpStepInstr_bind f d src bnH m hMU tn stt t hMt (hbn hnone)
      · intro j hj hlt
        rcases Nat.lt_succ_iff_lt_or_eq.mp hlt with hjlt | hjeq
        · exact cpStepInstr_bind f d src bnH m hMU tn stt t hMt (hbs j hj hjlt)
        · subst hjeq
          have hg : bt.insts.get? j = some (InstRef.mk m (Inst.mov src d)) := by
            rw [List.get?_eq_getElem?]
            exact hjs j hj
          rw [(cpStepInstr_found tn stt j hbt hg).2.1, cpInstr_of_mov stt _ rfl]
          exact assocFind_set_self stt.map d src
      · cases hg : bt.insts.get? t with
        | none =>
            rw [cpStepInstr_noget tn stt t hbt hg]
            refine ⟨bt, hbt, hlen, hjs, fun hle => hqpre (Nat.le_of_succ_le hle), ?_⟩
            intro hqt
            rcases Nat.lt_succ_iff_lt_or_eq.mp hqt with hqlt | hqeq
            · exact hqpost hqlt
            · subst hqeq
              have := hqpre (Nat.le_refl q)
              rw [List.get?_eq_getElem?, this] at hg
              exact Option.noConfusion hg
        | some i =>
            rcases cpStepInstr_slot tn stt t hbt with ⟨b2, hb2, hlen2, hsl⟩
            refine ⟨b2, hb2, hlen2.trans hlen, ?_, ?_, ?_⟩
            · intro j hj
              have hmv : (InstRef.mk m (Inst.mov src d)).inst.isMov = true := rfl
              rcases cpStepInstr_movslot tn stt t hbt (hjs j hj) hmv with
                ⟨b2x, hb2x, _, hs2x⟩
              have : b2x = b2 := by
                rw [hb2x] at hb2
                exact (Option.some.injEq _ _).mp hb2
              rw [← this]
              exact hs2x
            · intro hle
              have htq : t ≠ q := fun hh => Nat.lt_irrefl t (hh ▸ hle)
              rw [hsl q (fun hh => htq hh.symm)]
              exact hqpre (Nat.le_of_succ_le hle)
            · intro hqt
              rcases Nat.lt_succ_iff_lt_or_eq.mp hqt with hqlt | hqeq
              · rcases hqpost hqlt with ⟨g, hslot, hg2⟩
                refine ⟨g, ?_, hg2⟩
                rw [hsl q (fun hh => Nat.lt_irrefl q (hh ▸ hqlt))]
                exact hslot
              · subst hqeq
                -- the step processes the site slot itself
                have hieq : i = InstRef.mk u inst := by
                  rw [List.get?_eq_getElem?, hqpre (Nat.le_refl q)] at hg
                  exact ((Option.some.injEq _ _).mp hg).symm
                subst hieq
                have hrw := cpInstr_of_other stt (InstRef.mk u inst) hqm hqp
                have hbind : assocFind stt.map d = some src := by
                  cases jo with
                  | none => exact hbn rfl
                  | some j => exact hbs j rfl (hjq j rfl)
                refine ⟨cpUseVal stt, ?_, cpUseVal_var hbind⟩
                have hb2e : b2 = setInstsAt bt q (cpInstr stt (InstRef.mk u inst)).1 := by
                  have := (cpStepInstr_found tn stt q hbt hg).1
                  rw [this] at hb2
                  exact ((Option.some.injEq _ _).mp hb2).symm
                rw [hb2e, hrw]
                show (bt.insts.set q (InstRef.mk u (inst.mapUses (cpUseVal stt))))[q]?
                  = some (InstRef.mk u (inst.mapUses (cpUseVal stt)))
                apply getElem?_set_self_of_lt
                rw [hlen]
                exact (List.getElem?_eq_some.mp hq).1

theorem mem_nonphi_of_slotCorr {b b2 : Block} (hc : slotCorr b b2) {x : InstRef}
    (hx : x ∈ b.insts) (hnp : x.inst.isPhi = false) : x ∈ b2.insts := by
  rcases List.getElem_of_mem hx with ⟨k, hk, he⟩
  have hk2 : k < b2.insts.length := by
    rw [hc.1]
    exact hk
  cases hs2 : b2.insts[k]? with
  | none =>
      rw [List.getElem?_eq_getElem hk2] at hs2
      exact Option.noConfusion hs2
  | some i2 =>
      rcases hc.2 k i2 hs2 with ⟨i0, hs0, _, _, _, hnp0⟩
      have hi0x : i0 = x := by
        rw [List.getElem?_eq_getElem hk, he] at hs0
        exact ((Option.some.injEq _ _).mp hs0).symm
      have hp0 : i0.inst.isPhi = false := by
        rw [hi0x]
        exact hnp
      have hi2 : i2 = i0 := hnp0 hp0
      have hmem2 : i2 ∈ b2.insts := List.getElem?_mem hs2
      rw [hi2, hi0x] at hmem2
      exact hmem2

theorem cpEnterBlock_site (f : Fn) (d : Symbol) (src : Value) (bnH : BlockId)
    (m : Nat) (hMU : movUniqueB f d bnH (InstRef.mk m (Inst.mov src d)) = true)
    (u : Nat) (hNU : noMovIidB f u = true)
    (tn : BlockId) (st : CopyListener) (hM : movsFromFn f st)
    {b0 : Block} (hf : st.fn.findBlock tn = some b0)
    (q : Nat) (inst : Inst) (hq : b0.insts[q]? = some (InstRef.mk u inst))
    (hqm : inst.isMov = false) (hqp : inst.isPhi = false)
    (jo : Option Nat) (hjq : ∀ j, jo = some j → j < q)
    (hjslot : ∀ j, jo = some j → b0.insts[j]? = some (InstRef.mk m (Inst.mov src d)))
    (hbind0 : jo = none → assocFind st.map d = some src) :
    ∃ bfin g, (cpEnterBlock st tn).fn.findBlock tn = some bfin ∧
      InstRef.mk u (inst.mapUses g) ∈ bfin.insts ∧ g (.var d) = src := by
  unfold cpEnterBlock
  have hf1 : ({ st with defFrames := [] :: st.defFrames } : CopyListener).fn.findBlock tn
      = some b0 := hf
  have hM1 : movsFromFn f { st with defFrames := [] :: st.defFrames } :=
    movsFromFn_mk rfl rfl hM
  have hbind1 : jo = none → assocFind ({ st with defFrames := [] :: st.defFrames } :
      CopyListener).map d = some src := hbind0
  rw [cpEnterInsts_found _ tn hf1]
  generalize hstt : (List.range b0.insts.length).foldl (cpStepInstr tn)
    { st with defFrames := [] :: st.defFrames } = stt
  have hsite := cpEnterInsts_site_aux f d src bnH m hMU tn q u inst
    hqm hqp jo hjq b0.insts.length _ hf1 hM1 hq hjslot hbind1
  rw [hstt] at hsite
  rcases hsite with ⟨hMf, _, bt, hbt, hlen, _, _, hqpost⟩
  rcases hqpost (List.getElem?_eq_some.mp hq).1 with ⟨g, hslot, hgv⟩
  rcases cpEnterSuccs_corr stt tn tn hbt with ⟨b2, hb2, hcorr⟩
  have hmem1 : InstRef.mk u (inst.mapUses g) ∈ bt.insts := List.getElem?_mem hslot
  have hnp : (InstRef.mk u (inst.mapUses g)).inst.isPhi = false := by
    show (inst.mapUses g).isPhi = false
    rw [isPhi_mapUses]
    exact hqp
  have hmem2 : InstRef.mk u (inst.mapUses g) ∈ b2.insts :=
    mem_nonphi_of_slotCorr hcorr hmem1 hnp
  have hMsucc : movsFromFn f (cpEnterSuccs stt tn) :=
    movsFromFn_cpEnterSuccs f stt tn hMf
  unfold cpEnterFilter
  rw [hb2]
  dsimp only
  refine ⟨filterRewrite (cpEnterSuccs stt tn).rm b2, g, ?_, ?_, hgv⟩
  · exact findBlock_set_same hb2
      (show (filterRewrite (cpEnterSuccs stt tn).rm b2).name = tn by
        show b2.name = tn
        exact findBlock_name hb2)
  · show InstRef.mk u (inst.mapUses g) ∈
      (filterRewrite (cpEnterSuccs stt tn).rm b2).insts
    unfold filterRewrite
    dsimp only
    apply List.mem_filter.mpr
    refine ⟨hmem2, ?_⟩
    have hcf : (cpEnterSuccs stt tn).rm.contains u = false := by
      cases hc : (cpEnterSuccs stt tn).rm.contains u
      · rfl
      · exfalso
        have hmemr : u ∈ (cpEnterSuccs stt tn).rm := by simpa using hc
        rcases hMsucc.2 u hmemr with ⟨bf, hbf, i0, hi0, hmv, hiid⟩
        exact noMovIidB_elim hNU hbf hi0 hmv hiid
    show (!(cpEnterSuccs stt tn).rm.contains (InstRef.mk u (inst.mapUses g)).iid) = true
    rw [show (InstRef.mk u (inst.mapUses g)).iid = u from rfl, hcf]
    rfl

theorem movsFromFn_fold (f : Fn) :
    ∀ (l : List Ev) (st : CopyListener), movsFromFn f st →
      movsFromFn f (l.foldl cpStep st) := by
  intro l
  induction l with
  | nil => intro st h; exact h
  | cons e r ih => intro st h; exact ih _ (movsFromFn_cpStep f st e h)

theorem slotCorr_fold (tn : BlockId) :
    ∀ (l : List Ev) (st : CopyListener) {b : Block},
      (Ev.enter tn ∈ l → False) → st.fn.findBlock tn = some b →
      ∃ b2, (l.foldl cpStep st).fn.findBlock tn = some b2 ∧ slotCorr b b2 := by
  intro l
  induction l with
  | nil => intro st b _ hf; exact ⟨b, hf, slotCorr_refl b⟩
  | cons e r ih =>
      intro st b hne hf
      have hee : e ≠ .enter tn := fun hh => hne (hh ▸ List.mem_cons_self e r)
      rcases slotCorr_cpStep st e tn hee hf with ⟨b1, hb1, hc1⟩
      rcases ih (cpStep st e) (fun hm => hne (List.mem_cons_of_mem e hm)) hb1 with
        ⟨b2, hb2, hc2⟩
      exact ⟨b2, by rw [List.foldl_cons]; exact hb2, slotCorr_trans hc1 hc2⟩

theorem mid_master (f : Fn) (d : Symbol) (src : Value) (bnH : BlockId) (m : Nat)
    (hMU : movUniqueB f d bnH (InstRef.mk m (Inst.mov src d)) = true) :
    ∀ (mid : List Ev) (bal : Nat) (st : CopyListener) (base : List (List Symbol))
      (fs : List (List Symbol)),
      midOkAux mid bal = true →
      (Ev.enter bnH ∈ mid → False) →
      movsFromFn f st →
      assocFind st.map d = some src →
      st.defFrames = fs ++ base →
      fs.length = bal →
      (∀ fr ∈ fs, ∀ s' ∈ fr, s' ≠ d) →
      movsFromFn f (mid.foldl cpStep st) ∧
        assocFind (mid.foldl cpStep st).map d = some src := by
  intro mid
  induction mid with
  | nil =>
      intro bal st base fs _ _ hM hbind _ _ _
      exact ⟨hM, hbind⟩
  | cons e r ih =>
      intro bal st base fs hok hne hM hbind hfs hlen hch
      rw [List.foldl_cons]
      cases e with
      | enter en =>
          have hok2 : midOkAux r (bal + 1) = true := hok
          have henb : en ≠ bnH := fun hh =>
            hne (by rw [← hh]; exact List.mem_cons_self _ _)
          rcases cpEnterBlock_frames f st en hM with ⟨fr2, hfr2, hch2⟩
          have hM2 := movsFromFn_cpEnterBlock f st en hM
          have hbind2 := cpEnterBlock_bind f d src bnH m hMU st en hM hbind
          refine ih (bal + 1) (cpEnterBlock st en) base (fr2 :: fs) hok2
            (fun hm => hne (List.mem_cons_of_mem _ hm)) hM2 hbind2 ?_ ?_ ?_
          · rw [hfr2, hfs]
            rfl
          · simp [hlen]
          · intro fr hfr s' hs'
            rcases List.mem_cons.mp hfr with heq | hmem
            · subst heq
              intro hd
              rcases hch2 s' hs' with ⟨bf, hbf, hbfname, i0, hi0, hmt⟩
              rw [hd] at hmt
              rcases movUniqueB_elim hMU hbf hi0 hmt with ⟨hbn2, _⟩
              exact henb (hbfname ▸ hbn2)
            · exact hch fr hmem s' hs'
      | exit en =>
          cases bal with
          | zero =>
              exfalso
              have hfalse : midOkAux (Ev.exit en :: r) 0 = false := rfl
              rw [hfalse] at hok
              exact Bool.noConfusion hok
          | succ bb =>
              have hok2 : midOkAux r bb = true := hok
              cases fs with
              | nil => exact absurd hlen (by simp)
              | cons fr fs2 =>
                  have hfr : st.defFrames = fr :: (fs2 ++ base) := by
                    rw [hfs]
                    rfl
                  rcases cpExitBlock_pop hfr with ⟨hdf, hmap⟩
                  have hM2 := movsFromFn_cpExitBlock f st hM
                  have hnd : d ∉ fr := by
                    intro hd
                    exact hch fr (List.mem_cons_self _ _) d hd rfl
                  have hbind2 : assocFind (cpExitBlock st).map d = some src := by
                    rw [hmap, assocFind_fold_remove fr d hnd st.map]
                    exact hbind
                  refine ih bb (cpExitBlock st) base fs2 hok2
                    (fun hm => hne (List.mem_cons_of_mem _ hm)) hM2 hbind2 hdf ?_ ?_
                  · exact Nat.succ.inj (by simpa using hlen)
                  · intro fr0 hfr0 s' hs'
                    exact hch fr0 (List.mem_cons_of_mem _ hfr0) s' hs'

theorem slot_of_slotCorr {b b2 : Block} (hc : slotCorr b b2) {k : Nat} {x : InstRef}
    (hbk : b.insts[k]? = some x) (hnp : x.inst.isPhi = false) :
    b2.insts[k]? = some x := by
  have hk : k < b2.insts.length := by
    rw [hc.1]
    exact (List.getElem?_eq_some.mp hbk).1
  cases hs2 : b2.insts[k]? with
  | none =>
      rw [List.getElem?_eq_getElem hk] at hs2
      exact Option.noConfusion hs2
  | some i2 =>
      rcases hc.2 k i2 hs2 with ⟨i0, hs0, _, _, _, hnp0⟩
      have hi0 : i0 = x := by
        rw [hbk] at hs0
        exact ((Option.some.injEq _ _).mp hs0).symm
      rw [hi0] at hnp0
      rw [hnp0 hnp]

theorem copyProp_subst_same_master (f : Fn) (evs pre rest : List Ev) (bn : BlockId)
    {b : Block} (j q m u : Nat) (src : Value) (d : Symbol) (inst : Inst)
    (hevs : evs = pre ++ .enter bn :: rest)
    (hpre : Ev.enter bn ∈ pre → False) (hrest : Ev.enter bn ∈ rest → False)
    (hfb : f.findBlock bn = some b)
    (hj : b.insts[j]? = some (InstRef.mk m (Inst.mov src d)))
    (hq : b.insts[q]? = some (InstRef.mk u inst))
    (hjq : j < q) (hqm : inst.isMov = false) (hqp : inst.isPhi = false)
    (hMU : movUniqueB f d bn (InstRef.mk m (Inst.mov src d)) = true)
    (hNU : noMovIidB f u = true) :
    ∃ bfin g, (runCopyProp f evs).findBlock bn = some bfin ∧
      InstRef.mk u (inst.mapUses g) ∈ bfin.insts ∧ g (.var d) = src := by
  unfold runCopyProp
  rw [hevs, List.foldl_append, List.foldl_cons]
  rcases slotCorr_fold bn pre { fn := f, map := [], defFrames := [], rm := [] }
      hpre hfb with ⟨bp, hbp, hcorr⟩
  have hMp : movsFromFn f
      (pre.foldl cpStep { fn := f, map := [], defFrames := [], rm := [] }) :=
    movsFromFn_fold f pre _ (movsFromFn_init f)
  generalize hstp : pre.foldl cpStep
    { fn := f, map := [], defFrames := [], rm := [] } = stp at hbp hMp
  have hjp : bp.insts[j]? = some (InstRef.mk m (Inst.mov src d)) :=
    slot_of_slotCorr hcorr hj (isMov_not_isPhi rfl)
  have hqpb : bp.insts[q]? = some (InstRef.mk u inst) :=
    slot_of_slotCorr hcorr hq hqp
  rcases cpEnterBlock_site f d src bn m hMU u hNU bn stp hMp hbp q inst hqpb hqm hqp
      (some j)
      (fun j2 hj2 => by injection hj2 with hh; rw [← hh]; exact hjq)
      (fun j2 hj2 => by injection hj2 with hh; rw [← hh]; exact hjp)
      (fun hno => Option.noConfusion hno) with ⟨bent, g, hbent, hment, hgv⟩
  rcases slotCorr_fold bn rest (cpStep stp (.enter bn)) hrest hbent with
    ⟨bfin, hbfin, hcf⟩
  refine ⟨bfin, g, hbfin, ?_, hgv⟩
  refine mem_nonphi_of_slotCorr hcf hment ?_
  show (inst.mapUses g).isPhi = false
  rw [isPhi_mapUses]
  exact hqp

theorem copyProp_subst_desc_master (f : Fn) (evs pre mid post : List Ev)
    (bn cn : BlockId) {b bc : Block} (j q m u : Nat) (src : Value) (d : Symbol)
    (inst : Inst)
    (hevs : evs = pre ++ .enter bn :: (mid ++ .enter cn :: post))
    (hpreb : Ev.enter bn ∈ pre → False)
    (hmidb : Ev.enter bn ∈ mid → False)
    (hprec : Ev.enter cn ∈ pre → False)
    (hmidc : Ev.enter cn ∈ mid → False)
    (hpostc : Ev.enter cn ∈ post → False)
    (hcb : cn ≠ bn)
    (hmidok : midOk mid = true)
    (hfb : f.findBlock bn = some b)
    (hj : b.insts[j]? = some (InstRef.mk m (Inst.mov src d)))
    (hfc : f.findBlock cn = some bc)
    (hq : bc.insts[q]? = some (InstRef.mk u inst))
    (hqm : inst.isMov = false) (hqp : inst.isPhi = false)
    (hMU : movUniqueB f d bn (InstRef.mk m (Inst.mov src d)) = true)
    (hNU : noMovIidB f u = true) :
    ∃ bfin g, (runCopyProp f evs).findBlock cn = some bfin ∧
      InstRef.mk u (inst.mapUses g) ∈ bfin.insts ∧ g (.var d) = src := by
  unfold runCopyProp
  rw [hevs, List.foldl_append, List.foldl_cons, List.foldl_append, List.foldl_cons]
  rcases slotCorr_fold bn pre { fn := f, map := [], defFrames := [], rm := [] }
      hpreb hfb with ⟨bp, hbp, hcorrb⟩
  rcases slotCorr_fold cn pre { fn := f, map := [], defFrames := [], rm := [] }
      hprec hfc with ⟨bcp, hbcp, hcorr1⟩
  have hMp : movsFromFn f
      (pre.foldl cpStep { fn := f, map := [], defFrames := [], rm := [] }) :=
    movsFromFn_fold f pre _ (movsFromFn_init f)
  generalize hstp : pre.foldl cpStep
    { fn := f, map := [], defFrames := [], rm := [] } = stp at hbp hbcp hMp
  have hjp : bp.insts[j]? = some (InstRef.mk m (Inst.mov src d)) :=
    slot_of_slotCorr hcorrb hj (isMov_not_isPhi rfl)
  have hbind1 : assocFind (cpStep stp (.enter bn)).map d = some src :=
    cpEnterBlock_establish f d src bn m hMU stp hbp hMp j hjp
  have hM1 : movsFromFn f (cpStep stp (.enter bn)) :=
    movsFromFn_cpEnterBlock f stp bn hMp
  have hneq : (Ev.enter bn : Ev) ≠ .enter cn := by
    intro hh
    injection hh with hh2
    exact hcb hh2.symm
  rcases slotCorr_cpStep stp (.enter bn) cn hneq hbcp with ⟨bc1, hbc1, hcorr2⟩
  rcases slotCorr_fold cn mid (cpStep stp (.enter bn)) hmidc hbc1 with
    ⟨bc2, hbc2, hcorr3⟩
  have hmid := mid_master f d src bn m hMU mid 0 (cpStep stp (.enter bn))
    ((cpStep stp (.enter bn)).defFrames) [] hmidok hmidb hM1 hbind1 rfl rfl
    (fun fr hfr => absurd hfr (by simp))
  generalize hstm : mid.foldl cpStep (cpStep stp (.enter bn)) = stm
    at hbc2 hmid
  have hqpc : bc2.insts[q]? = some (InstRef.mk u inst) :=
    slot_of_slotCorr (slotCorr_trans hcorr1 (slotCorr_trans hcorr2 hcorr3)) hq hqp
  rcases cpEnterBlock_site f d src bn m hMU u hNU cn stm hmid.1 hbc2 q inst hqpc
      hqm hqp none
      (fun j2 hj2 => Option.noConfusion hj2)
      (fun j2 hj2 => Option.noConfusion hj2)
      (fun _ => hmid.2) with ⟨bent, g, hbent, hment, hgv⟩
  rcases slotCorr_fold cn post (cpStep stm (.enter cn)) hpostc hbent with
    ⟨bfin, hbfin, hcf⟩
  refine ⟨bfin, g, hbfin, ?_, hgv⟩
  refine mem_nonphi_of_slotCorr hcf hment ?_
  show (inst.mapUses g).isPhi = false
  rw [isPhi_mapUses]
  exact hqp

/-- C3 (amended): over a dominator-tree walk, copy propagation (a) leaves
no mov instruction in any entered block, and (b) replaces a use of a mov
destination with that mov's immediate source value — one step, not
chased transitively — at every non-phi, non-mov instruction that the
walk visits inside the mov's scope: below the mov in its own block, or
in a distinct block entered strictly between the mov's block's enter and
its matching exit.  (Observable behavior is not preserved in general:
see the chained-mov counterexample.) -/
theorem copyProp_mov_removal_and_substitution (f : Fn) (evs : List Ev) :
    (∀ bn, Ev.enter bn ∈ evs → movFreeIn (runCopyProp f evs) bn) ∧
    (∀ (pre rest : List Ev) (bn : BlockId) (b : Block) (j q m u : Nat)
        (src : Value) (d : Symbol) (inst : Inst),
      evs = pre ++ .enter bn :: rest →
      (Ev.enter bn ∈ pre → False) → (Ev.enter bn ∈ rest → False) →
      f.findBlock bn = some b →
      b.insts[j]? = some (InstRef.mk m (Inst.mov src d)) →
      b.insts[q]? = some (InstRef.mk u inst) →
      j < q → inst.isMov = false → inst.isPhi = false →
      movUniqueB f d bn (InstRef.mk m (Inst.mov src d)) = true →
      noMovIidB f u = true →
      ∃ bfin g, (runCopyProp f evs).findBlock bn = some bfin ∧
        InstRef.mk u (inst.mapUses g) ∈ bfin.insts ∧ g (.var d) = src) ∧
    (∀ (pre mid post : List Ev) (bn cn : BlockId) (b bc : Block)
        (j q m u : Nat) (src : Value) (d : Symbol) (inst : Inst),
      evs = pre ++ .enter bn :: (mid ++ .enter cn :: post) →
      (Ev.enter bn ∈ pre → False) → (Ev.enter bn ∈ mid → False) →
      (Ev.enter cn ∈ pre → False) → (Ev.enter cn ∈ mid → False) →
      (Ev.enter cn ∈ post → False) →
      cn ≠ bn → midOk mid = true →
      f.findBlock bn = some b →
      b.insts[j]? = some (InstRef.mk m (Inst.mov src d)) →
      f.findBlock cn = some bc →
      bc.insts[q]? = some (InstRef.mk u inst) →
      inst.isMov = false → inst.isPhi = false →
      movUniqueB f d bn (InstRef.mk m (Inst.mov src d)) = true →
      noMovIidB f u = true →
      ∃ bfin g, (runCopyProp f evs).findBlock cn = some bfin ∧
        InstRef.mk u (inst.mapUses g) ∈ bfin.insts ∧ g (.var d) = src) := by
  refine ⟨?_, ?_, ?_⟩
  · intro bn hent
    exact copyProp_movFree_master f evs bn hent
  · intro pre rest bn b j q m u src d inst h1 h2 h3 h4 h5 h6 h7 h8 h9 h10 h11
    exact copyProp_subst_same_master f evs pre rest bn j q m u src d inst
      h1 h2 h3 h4 h5 h6 h7 h8 h9 h10 h11
  · intro pre mid post bn cn b bc j q m u src d inst
      h1 h2 h3 h4 h5 h6 h7 h8 h9 h10 h11 h12 h13 h14 h15 h16
    exact copyProp_subst_desc_master f evs pre mid post bn cn j q m u src d inst
      h1 h2 h3 h4 h5 h6 h7 h8 h9 h10 h11 h12 h13 h14 h15 h16

/-- C3 witness: on the chained-mov function `f3`, block `b0` of the
result holds no mov, and the add instruction (id 3) is rewritten with a
substitution that sends the second mov's destination `%b` to that mov's
immediate source `%a`. -/
theorem copyProp_mov_removal_and_substitution_witness :
    movFreeIn (runCopyProp f3 evs3) "b0" ∧
      ∃ bfin g, (runCopyProp f3 evs3).findBlock "b0" = some bfin ∧
        InstRef.mk 3 ((Inst.bin .add (.var symB3) (.intConst 1) symC3).mapUses g)
          ∈ bfin.insts ∧ g (.var symB3) = .var symA3 := by
  have h := copyProp_mov_removal_and_substitution f3 evs3
  refine ⟨h.1 "b0" (by decide), ?_⟩
  exact h.2.1 [] [.exit "b0"] "b0" f3b0 1 2 2 3 (.var symA3) symB3
    (.bin .add (.var symB3) (.intConst 1) symC3)
    (by decide) (by decide) (by decide) (by decide) (by decide) (by decide)
    (by decide) (by decide) (by decide) (by decide) (by decide)

/-! ### Invariance of the SSA flag and the name under phi insertion and
renaming (needed to settle what `to_ssa` does on a non-SSA function) -/

theorem insPhiTgt_inv (orig : List (BlockId × List Symbol)) (s : Symbol)
    (pi : PhiIns) (w : List BlockId) (tgt : BlockId) :
    (insPhiTgt orig s pi w tgt).1.fn.ssa = pi.fn.ssa ∧
      (insPhiTgt orig s pi w tgt).1.fn.name = pi.fn.name := by
  refine ⟨?_, ?_⟩ <;>
    (unfold insPhiTgt; dsimp only; split <;> first | rfl | (split <;> rfl))

theorem insPhiLoop_inv (df : BlockId → List BlockId)
    (orig : List (BlockId × List Symbol)) (s : Symbol) :
    ∀ (n : Nat) (pi : PhiIns) (w : List BlockId),
      (insPhiLoop df orig s n pi w).fn.ssa = pi.fn.ssa ∧
        (insPhiLoop df orig s n pi w).fn.name = pi.fn.name := by
  intro n
  induction n with
  | zero => intro pi w; exact ⟨rfl, rfl⟩
  | succ k ih =>
      intro pi w
      cases w with
      | nil => exact ⟨rfl, rfl⟩
      | cons bn rest =>
          have hfold :
              ∀ (l : List BlockId) (acc : PhiIns × List BlockId),
                (acc.1.fn.ssa = pi.fn.ssa ∧ acc.1.fn.name = pi.fn.name) →
                ((l.foldl (fun (acc : PhiIns × List BlockId) tgt =>
                    insPhiTgt orig s acc.1 acc.2 tgt) acc).1.fn.ssa = pi.fn.ssa ∧
                  (l.foldl (fun (acc : PhiIns × List BlockId) tgt =>
                    insPhiTgt orig s acc.1 acc.2 tgt) acc).1.fn.name = pi.fn.name) := by
            intro l
            refine foldl_preserve ?_ l
            intro a b hP
            have h := insPhiTgt_inv orig s a.1 a.2 b
            exact ⟨h.1.trans hP.1, h.2.trans hP.2⟩
          have hstep := hfold (df bn) (pi, rest) ⟨rfl, rfl⟩
          have := ih ((df bn).foldl (fun (acc : PhiIns × List BlockId) tgt =>
            insPhiTgt orig s acc.1 acc.2 tgt) (pi, rest)).1
            ((df bn).foldl (fun (acc : PhiIns × List BlockId) tgt =>
              insPhiTgt orig s acc.1 acc.2 tgt) (pi, rest)).2
          exact ⟨this.1.trans hstep.1, this.2.trans hstep.2⟩

theorem insertPhi_inv (f : Fn) (df : BlockId → List BlockId) :
    (insertPhi f df).ssa = f.ssa ∧ (insertPhi f df).name = f.name := by
  unfold insertPhi
  dsimp only
  refine foldl_preserve (P := fun (pi : PhiIns) => pi.fn.ssa = f.ssa ∧ pi.fn.name = f.name)
    ?_ f.scope _ ⟨rfl, rfl⟩
  intro a b hP
  exact ⟨(insPhiLoop_inv df _ b _ a _).1.trans hP.1,
    (insPhiLoop_inv df _ b _ a _).2.trans hP.2⟩

theorem rnDef_inv (st : Renamer) (s : Symbol) :
    (rnDef st s).2.fn.ssa = st.fn.ssa ∧ (rnDef st s).2.fn.name = st.fn.name := by
  unfold rnDef
  split
  · split
    · exact ⟨rfl, rfl⟩
    · exact ⟨rfl, rfl⟩
  · exact ⟨rfl, rfl⟩

theorem rnInstr_inv (st : Renamer) (i : InstRef) :
    (rnInstr st i).2.fn.ssa = st.fn.ssa ∧ (rnInstr st i).2.fn.name = st.fn.name := by
  unfold rnInstr
  split
  · exact rnDef_inv st _
  · dsimp only
    split
    · exact rnDef_inv st _
    · exact ⟨rfl, rfl⟩

theorem rnStepInstr_inv (bn : BlockId) (a : Renamer) (k : Nat) :
    (rnStepInstr bn a k).fn.ssa = a.fn.ssa ∧ (rnStepInstr bn a k).fn.name = a.fn.name := by
  unfold rnStepInstr
  split
  · split
    · exact ⟨(rnInstr_inv a _).1, (rnInstr_inv a _).2⟩
    · exact ⟨rfl, rfl⟩
  · exact ⟨rfl, rfl⟩

theorem rnStepSucc_inv (bn : BlockId) (a : Renamer) (sn : BlockId) :
    (rnStepSucc bn a sn).fn.ssa = a.fn.ssa ∧ (rnStepSucc bn a sn).fn.name = a.fn.name := by
  unfold rnStepSucc
  split
  · exact ⟨rfl, rfl⟩
  · exact ⟨rfl, rfl⟩

theorem rnEnterBlock_inv (st : Renamer) (bn : BlockId) :
    (rnEnterBlock st bn).fn.ssa = st.fn.ssa ∧ (rnEnterBlock st bn).fn.name = st.fn.name := by
  unfold rnEnterBlock
  dsimp only
  have h1 : ∀ (l : List Nat) (a : Renamer),
      (a.fn.ssa = st.fn.ssa ∧ a.fn.name = st.fn.name) →
      ((l.foldl (rnStepInstr bn) a).fn.ssa = st.fn.ssa ∧
        (l.foldl (rnStepInstr bn) a).fn.name = st.fn.name) := by
    intro l
    refine foldl_preserve ?_ l
    intro a k hP
    exact ⟨(rnStepInstr_inv bn a k).1.trans hP.1, (rnStepInstr_inv bn a k).2.trans hP.2⟩
  have h2 : ∀ (l : List BlockId) (a : Renamer),
      (a.fn.ssa = st.fn.ssa ∧ a.fn.name = st.fn.name) →
      ((l.foldl (rnStepSucc bn) a).fn.ssa = st.fn.ssa ∧
        (l.foldl (rnStepSucc bn) a).fn.name = st.fn.name) := by
    intro l
    refine foldl_preserve ?_ l
    intro a sn hP
    exact ⟨(rnStepSucc_inv bn a sn).1.trans hP.1, (rnStepSucc_inv bn a sn).2.trans hP.2⟩
  split
  · exact h2 _ _ (h1 _ _ ⟨rfl, rfl⟩)
  · exact h1 _ _ ⟨rfl, rfl⟩

theorem rnExitBlock_inv (st : Renamer) :
    (rnExitBlock st).fn.ssa = st.fn.ssa ∧ (rnExitBlock st).fn.name = st.fn.name := by
  unfold rnExitBlock
  split
  · exact ⟨rfl, rfl⟩
  · exact ⟨rfl, rfl⟩

theorem runRename_inv (f : Fn) (evs : List Ev) :
    (runRename f evs).ssa = f.ssa ∧ (runRename f evs).name = f.name := by
  unfold runRename
  refine foldl_preserve
    (P := fun (st : Renamer) => st.fn.ssa = f.ssa ∧ st.fn.name = f.name) ?_ evs _ ⟨rfl, rfl⟩
  intro a e hP
  cases e with
  | enter bn =>
      have h := rnEnterBlock_inv a bn
      exact ⟨h.1.trans hP.1, h.2.trans hP.2⟩
  | exit bn =>
      have h := rnExitBlock_inv a
      exact ⟨h.1.trans hP.1, h.2.trans hP.2⟩

theorem elimDeadCode_nonssa (g : Fn) (evs : List Ev) (h : g.ssa = false) :
    elimDeadCode g evs = .error ("fn @" ++ g.name ++ " is not in SSA form") := by
  unfold elimDeadCode
  rw [h]
  rfl

/-- Every verifier step leaves the walked function untouched; only
`on_end` writes to it. -/
theorem vStep_fn (a : Verifier) (e : VisitEv) : (vStep a e).fn = a.fn := by
  unfold vStep
  cases e <;> dsimp only <;> (repeat' split) <;> rfl

/-! ### Claim theorems -/

/-- C1: for every function whose SSA flag is not set, `Fn::to_ssa` does
not complete its steps normally: after computing dominance frontiers,
inserting phis and renaming, the call to `elim_dead_code` panics in
`assert_ssa` (message `fn @NAME is not in SSA form`), because `to_ssa`
sets the SSA flag only after DCE.  This contradicts the claim (and the
function's own in-repository test, which converts freshly built
functions); the code is in error, not the claim's intent. -/
theorem toSsa_panics_before_completion (f : Fn) (evs : List Ev)
    (df : BlockId → List BlockId) (h : f.ssa = false) :
    toSsa f evs df = .error ("fn @" ++ f.name ++ " is not in SSA form") := by
  unfold toSsa
  rw [h]
  have h1 := insertPhi_inv f df
  have h2 := runRename_inv (insertPhi f df) evs
  have hssa : (runRename (insertPhi f df) evs).ssa = false := by rw [h2.1, h1.1, h]
  have hname : (runRename (insertPhi f df) evs).name = f.name := by rw [h2.2, h1.2]
  simp only [Bool.false_eq_true, if_false]
  rw [elimDeadCode_nonssa _ _ hssa, hname]

/-- C1 witness: the panic at the concrete one-block function `f1`. -/
theorem toSsa_panics_before_completion_witness :
    f1.ssa = false ∧
      toSsa f1 evs1 (fun _ => []) =
        .error ("fn @" ++ f1.name ++ " is not in SSA form") :=
  ⟨rfl, toSsa_panics_before_completion f1 evs1 (fun _ => []) rfl⟩

/-- C2: the claimed post-state of `to_ssa` (single static definitions,
dominated uses) is never reached, because `to_ssa` never completes on a
built non-SSA function: at the straight-line reassignment function of
spec §8 scenario 3 the call panics inside `elim_dead_code`'s
`assert_ssa` (the SSA flag is still false when DCE runs). -/
theorem toSsa_f2_never_reaches_ssa_state :
    toSsa f2 evs2 (fun _ => []) = .error "fn @f is not in SSA form" := by decide

/-- C7: phi instructions inserted by `insert_phi` carry one `(pred,
value)` pair per predecessor, but in predecessor-list order, not sorted
by block name (only the builder sorts, in `build_phi_instr`); and the
post-`to_ssa` state the claim quantifies over is never reached, because
`to_ssa` panics in `elim_dead_code`.  At the diamond `f7` whose join has
predecessors `["b2", "b1"]`, the inserted phi's pairs are in that
unsorted order. -/
theorem insertPhi_pairs_not_sorted_f7 :
    firstPhiSrcBlocks (insertPhi f7 df7) "b3" = ["b2", "b1"] ∧
      nameOrdered (firstPhiSrcBlocks (insertPhi f7 df7) "b3") = false ∧
      toSsa f7 evs7 df7 = .error "fn @f7 is not in SSA form" :=
  ⟨by decide, by decide, by decide⟩

/-- C9: a dominator-tree walk with a `Verifier` always ends with the
walked function's SSA flag set to `true` — `Verifier::on_end` writes the
flag unconditionally and no other verifier callback touches the
function, so verification never leaves the flag false even when errors
were recorded. -/
theorem verifier_always_sets_ssa (f : Fn) (evs : List Ev) :
    (runVerifier f evs).fn = { f with ssa := true } := by
  unfold runVerifier
  dsimp only
  have h : ∀ (l : List VisitEv) (a : Verifier), a.fn = f → (l.foldl vStep a).fn = f := by
    intro l
    refine foldl_preserve ?_ l
    intro a e hP
    rw [vStep_fn a e, hP]
  rw [h (visits f evs) _ rfl]

/-- C10: the circular-phi rule of `elim_dead_code` never consults
`has_side_effect`: at `f10`, the loop-carried call `u10` (a side-
effecting instruction) and its phi partner are both removed, while the
ordinary rule fires only for instructions without side effects. -/
theorem circular_rule_removes_side_effecting_call :
    (elimDeadCode f10 evs10).map (fun g => instOccurs g 31 || instOccurs g 32) =
        .ok false ∧
      u10.inst.hasSideEffect = true :=
  ⟨by decide, by decide⟩

/-- C5 counterexample: `elim_dead_code` is not idempotent.  On `f5` the
first run removes only the dead `add` (its destination is unused), but
does not re-examine the phi after its partner's use count drops — the
work list re-queues only the sources of a removed instruction.  A second
run then removes the circular phi pair, so the second result differs
from the first. -/
theorem elimDeadCode_second_run_differs :
    (elimDeadCode f5 evs5).bind (fun g => elimDeadCode g evs5) ≠
      elimDeadCode f5 evs5 := by decide

/-- C6 counterexample: the verifier's use-before-defined error is not
"exactly when the symbol is absent from the path-definitions plus
parameters": in `f6` the symbol `x` is (re-)defined on the path before
its use in block `bB`, so the claim's reading predicts no error, yet the
verifier reports one, because a definition rejected as `already defined`
(here: `x` was first defined in the sibling `bA`) is not pushed onto the
availability stack. -/
theorem verifier_use_errors_differ_from_claim_f6 :
    verifierUseNames f6 evs6 = ["x"] ∧ claimAvailUseNames f6 evs6 = [] :=
  ⟨by decide, by decide⟩

/-- C3 counterexample: copy propagation does not preserve observable
behavior.  On the chained-mov function `f3` (`a <- mov x; b <- mov a;
c <- add b, 1; ret c`) the pass records `b ↦ a` from the second mov and
substitutes `a` — whose defining mov has been removed — into the add, so
the transformed function gets stuck where the original returned `x + 1`. -/
theorem copyProp_changes_behavior_f3 :
    exec f3 20 [5] = some (some 6) ∧ exec (runCopyProp f3 evs3) 20 [5] = none :=
  ⟨by decide, by decide⟩

/-- C8 counterexample: in the earlier builder (`compile/build.rs`,
`build_ctrl`), a `ret` in a `Void` function builds successfully without
touching the exit set, refuting "every ret pushes its containing block
regardless of the return type". -/
theorem compile_ret_void_no_push :
    compileBuildRet .void "b9" [] none [] [] = ([], .ok (.ret none)) := rfl

/-- C8 (amended): in the `irc` builder every `ret` pushes its containing
block onto the exit list, even when the operand later fails to build; in
the earlier `compile` builder a `ret` of a `Void` function never touches
the exit set (and a non-void `ret` inserts its block only after its
operand builds). -/
theorem ret_exit_push_characterization (ty : Ty) (blk : BlockId)
    (ex : List BlockId) (opd : Option Token) (lcl glb : List Symbol) :
    (ircBuildRet ty blk ex opd lcl glb).1 = ex ++ [blk] ∧
      (ty = .void → (compileBuildRet ty blk ex opd lcl glb).1 = ex) := by
  constructor
  · unfold ircBuildRet
    dsimp only
    (repeat' split) <;> rfl
  · intro hv
    subst hv
    unfold compileBuildRet
    cases opd with
    | none => rfl
    | some tok => rfl

/-- C8 witness: the characterization applied at a void `ret` in each
builder generation. -/
theorem ret_exit_push_characterization_witness :
    (ircBuildRet .void "b9" [] none [] []).1 = [] ++ ["b9"] ∧
      (compileBuildRet .void "b9" [] none [] []).1 = [] :=
  ⟨(ret_exit_push_characterization .void "b9" [] none [] []).1,
    (ret_exit_push_characterization .void "b9" [] none [] []).2 rfl⟩

/-! ### Lemmas about the DCE work-list loop -/

theorem dceEraseUse_marked (n : Nat) (st : DceState) (v : Value) :
    (dceEraseUse n st v).marked = st.marked := by
  unfold dceEraseUse
  (repeat' split) <;> rfl

theorem dceMarkOne_marked (st : DceState) (i : InstRef) :
    (dceMarkOne st i).marked = appendOnce st.marked i.iid := by
  unfold dceMarkOne
  dsimp only
  refine foldl_preserve
    (P := fun (a : DceState) => a.marked = appendOnce st.marked i.iid) ?_ _ _ rfl
  intro a v hP
  rw [dceEraseUse_marked, hP]

theorem dceMarkOne_marked_mono (st : DceState) (i : InstRef) {x : Nat}
    (h : x ∈ st.marked) : x ∈ (dceMarkOne st i).marked := by
  rw [dceMarkOne_marked]
  exact mem_appendOnce_of_mem _ h

theorem dceStep_marked_mono (st : DceState) {x : Nat} (h : x ∈ st.marked) :
    x ∈ (dceStep st).marked := by
  unfold dceStep
  split
  · exact h
  · exact foldl_preserve (P := fun (a : DceState) => x ∈ a.marked)
      (fun a i hP => dceMarkOne_marked_mono a i hP) _ _ h

theorem dceLoop_marked_mono :
    ∀ (n : Nat) (st : DceState) {x : Nat}, x ∈ st.marked → x ∈ (dceLoop n st).marked := by
  intro n
  induction n with
  | zero => intro st x h; exact h
  | succ k ih =>
      intro st x h
      unfold dceLoop
      split
      · exact h
      · exact ih _ (dceStep_marked_mono st h)

/-- When the picked symbol satisfies the circular-phi conditions, the
step marks both the phi and its partner. -/
theorem dceStep_circular_marks (st : DceState)
    (s t : Symbol) (du dut : DefUse) (b : BlockId) (p u u0 : InstRef)
    (hw : st.work.head? = some s)
    (hdu : assocFind st.defUse s = some du)
    (hdp : du.defPos = .inst b p)
    (hphi : p.inst.isPhi = true)
    (huses : du.uses = [u])
    (hdst : u.inst.dst = some t)
    (htl : t.isLocalVar = true)
    (hdut : assocFind st.defUse t = some dut)
    (hduses : dut.uses = [u0])
    (hu0 : u0.iid = p.iid) :
    p.iid ∈ (dceStep st).marked ∧ u.iid ∈ (dceStep st).marked := by
  have hrl : dceRemoveList st.defUse s = [p, u] := by
    unfold dceRemoveList
    rw [hdu]; dsimp only
    rw [hdp]; dsimp only
    simp [hphi, huses, hdst, htl, hdut, hduses, hu0]
  cases hwk : st.work with
  | nil => rw [hwk] at hw; exact absurd hw (by simp)
  | cons a l =>
      rw [hwk] at hw
      have ha : a = s := by
        simpa using hw
      subst ha
      unfold dceStep
      rw [hwk]
      dsimp only
      rw [hrl]
      simp only [List.foldl_cons, List.foldl_nil]
      constructor
      · rw [dceMarkOne_marked]
        refine mem_appendOnce_of_mem _ ?_
        rw [dceMarkOne_marked]
        exact mem_appendOnce_self _ _
      · rw [dceMarkOne_marked]
        exact mem_appendOnce_self _ _

/-! ### Lemmas about the removal phase -/

theorem scopeFoldRemove_blocks (dropped : List InstRef) (g : Fn) :
    (dropped.foldl
      (fun g i =>
        match i.inst.dst with
        | some d => { g with scope := scopeRemove g.scope d.name }
        | none => g) g).blocks = g.blocks := by
  refine foldl_preserve (P := fun (a : Fn) => a.blocks = g.blocks) ?_ dropped g rfl
  intro a i hP
  split
  · exact hP
  · exact hP

theorem scopeFoldRemove_scope_sublist (dropped : List InstRef) (g : Fn) :
    List.Sublist (dropped.foldl
      (fun g i =>
        match i.inst.dst with
        | some d => { g with scope := scopeRemove g.scope d.name }
        | none => g) g).scope g.scope := by
  refine foldl_preserve (P := fun (a : Fn) => List.Sublist a.scope g.scope)
    ?_ dropped g (List.Sublist.refl _)
  intro a i hP
  split
  · exact List.Sublist.trans (List.filter_sublist _) hP
  · exact hP

/-- Membership in the blocks of `dceRemoveBlock`: either the filtered
version of some original block, or an untouched original block whose
name differs from the processed one. -/
theorem dceRemoveBlock_mem {g : Fn} {marked : List Nat} {bn : BlockId} {bl : Block}
    (h : bl ∈ (dceRemoveBlock g marked bn).blocks) :
    (∃ b0 ∈ g.blocks,
        bl = { b0 with insts := b0.insts.filter (fun i => !(marked.contains i.iid)) }) ∨
      (bl ∈ g.blocks ∧ bl.name ≠ bn) := by
  unfold dceRemoveBlock at h
  split at h
  case h_1 b hfind =>
      rw [Fn.setBlock, scopeFoldRemove_blocks] at h
      dsimp only at h
      rcases List.mem_map.mp h with ⟨x, hx, hxe⟩
      by_cases hname : (x.name == b.name) = true
      · rw [if_pos hname] at hxe
        exact Or.inl ⟨b, findBlock_mem hfind, hxe.symm⟩
      · rw [if_neg (by simpa using hname)] at hxe
        subst hxe
        refine Or.inr ⟨hx, ?_⟩
        have : x.name ≠ b.name := by simpa using hname
        rw [← findBlock_name hfind]
        exact this
  case h_2 hfind =>
      exact Or.inr ⟨h, findBlock_none hfind bl h⟩

/-- After folding `dceRemoveBlock` over a list of names covering every
block that may still hold marked instructions, no block keeps a marked
instruction. -/
theorem fold_removeBlocks_clean (marked : List Nat) :
    ∀ (names : List BlockId) (g : Fn),
      (∀ bl ∈ g.blocks, bl.name ∈ names ∨
        ∀ i ∈ bl.insts, marked.contains i.iid = false) →
      ∀ bl ∈ (names.foldl (fun g bn => dceRemoveBlock g marked bn) g).blocks,
        ∀ i ∈ bl.insts, marked.contains i.iid = false := by
  intro names
  induction names with
  | nil =>
      intro g hg bl hbl i hi
      rcases hg bl hbl with hmem | hclean
      · exact absurd hmem (by simp)
      · exact hclean i hi
  | cons bn rest ih =>
      intro g hg bl hbl
      refine ih (dceRemoveBlock g marked bn) ?_ bl hbl
      intro x hx
      rcases dceRemoveBlock_mem hx with ⟨b0, _, hxe⟩ | ⟨hxg, hxn⟩
      · subst hxe
        refine Or.inr ?_
        intro i hi
        have := (List.mem_filter.mp hi).2
        simpa using this
      · rcases hg x hxg with hmem | hclean
        · rcases List.mem_cons.mp hmem with he | hr
          · exact absurd he hxn
          · exact Or.inl hr
        · exact Or.inr hclean

/-- A marked instruction is removed from every block of a covered
function. -/
theorem dceRemoveAll_no_marked (f : Fn) (evs : List Ev) (marked : List Nat)
    (m : Nat) (hm : m ∈ marked)
    (hcov : ∀ bl ∈ f.blocks, bl.name ∈ enteredNames evs) :
    instOccurs (dceRemoveAll f evs marked) m = false := by
  have hclean := fold_removeBlocks_clean marked (enteredNames evs) f
    (fun bl hbl => Or.inl (hcov bl hbl))
  unfold instOccurs
  rw [Bool.eq_false_iff]
  intro hany
  rcases List.any_eq_true.mp hany with ⟨bl, hbl, hbl2⟩
  rcases List.any_eq_true.mp hbl2 with ⟨i, hi, hieq⟩
  have hiid : i.iid = m := by simpa using hieq
  have hfalse := hclean bl hbl i hi
  rw [hiid] at hfalse
  have htrue : marked.contains m = true := List.elem_eq_true_of_mem hm
  rw [hfalse] at htrue
  exact absurd htrue (by simp)

/-- C4: whenever the symbol picked by `elim_dead_code`'s work list
satisfies the circular-phi conditions — its definition is a phi `p` with
exactly one use `u`, `u` has a local destination `t`, and `t`'s single
use is `p` — both `p` and `u` are marked at that step and are absent
from every block of the removal phase's result (the walk covering the
function's blocks). -/
theorem dce_circular_pick_removes_pair
    (f : Fn) (evs : List Ev) (st : DceState) (n : Nat)
    (s t : Symbol) (du dut : DefUse) (b : BlockId) (p u u0 : InstRef)
    (hw : st.work.head? = some s)
    (hdu : assocFind st.defUse s = some du)
    (hdp : du.defPos = .inst b p)
    (hphi : p.inst.isPhi = true)
    (huses : du.uses = [u])
    (hdst : u.inst.dst = some t)
    (htl : t.isLocalVar = true)
    (hdut : assocFind st.defUse t = some dut)
    (hduses : dut.uses = [u0])
    (hu0 : u0.iid = p.iid)
    (hcov : ∀ bl ∈ f.blocks, bl.name ∈ enteredNames evs) :
    instOccurs (dceRemoveAll f evs (dceLoop (n + 1) st).marked) p.iid = false ∧
      instOccurs (dceRemoveAll f evs (dceLoop (n + 1) st).marked) u.iid = false := by
  have hmk := dceStep_circular_marks st s t du dut b p u u0
    hw hdu hdp hphi huses hdst htl hdut hduses hu0
  have hne : st.work.isEmpty = false := by
    cases hwk : st.work with
    | nil => rw [hwk] at hw; exact absurd hw (by simp)
    | cons a l => rfl
  have hloop : dceLoop (n + 1) st = dceLoop n (dceStep st) := by
    have heq : dceLoop (n + 1) st =
        if st.work.isEmpty = true then st else dceLoop n (dceStep st) := rfl
    rw [heq, hne]
    simp
  rw [hloop]
  exact ⟨dceRemoveAll_no_marked f evs _ _ (dceLoop_marked_mono n _ hmk.1) hcov,
    dceRemoveAll_no_marked f evs _ _ (dceLoop_marked_mono n _ hmk.2) hcov⟩

/-- C4 witness: the theorem applied at the concrete loop `f4`, at the
state in which the work list's head is the circular phi's destination. -/
theorem dce_circular_pick_removes_pair_witness :
    instOccurs (dceRemoveAll f4 evs4 (dceLoop 1 st4c).marked) p4.iid = false ∧
      instOccurs (dceRemoveAll f4 evs4 (dceLoop 1 st4c).marked) u4.iid = false :=
  dce_circular_pick_removes_pair f4 evs4 st4c 0 symS4 symT4
    { defPos := .inst "b1" p4, uses := [u4] }
    { defPos := .inst "b1" u4, uses := [p4] }
    "b1" p4 u4 p4
    (by decide) (by decide) (by decide) (by decide) (by decide) (by decide)
    (by decide) (by decide) (by decide) (by decide) (by decide)

/-- C5 (amended): a run of `elim_dead_code` never adds instructions or
scope entries: every block of the result is an original block with a
sub-list of its instructions (same name), and the resulting scope is a
sub-list of the original scope.  (A second run may therefore only remove
further instructions, as it does on `f5`.) -/
theorem elimDeadCode_only_removes (f : Fn) (evs : List Ev) (g : Fn)
    (h : elimDeadCode f evs = .ok g) :
    (∀ bl ∈ g.blocks, ∃ b0 ∈ f.blocks,
        bl.name = b0.name ∧ List.Sublist bl.insts b0.insts) ∧
      List.Sublist g.scope f.scope := by
  unfold elimDeadCode at h
  by_cases hs : f.ssa
  · rw [hs] at h
    simp only [Bool.not_true, Bool.false_eq_true, if_false] at h
    have hg : g = dceRemoveAll f evs
        (dceLoop (dceFuel
          { defUse := runDefUse f evs
            work := (runDefUse f evs).map Prod.fst, marked := [] })
          { defUse := runDefUse f evs
            work := (runDefUse f evs).map Prod.fst, marked := [] }).marked := by
      exact (Except.ok.injEq _ _).mp h.symm
    subst hg
    clear h
    generalize (dceLoop _ _).marked = marked
    unfold dceRemoveAll
    constructor
    · refine foldl_preserve
        (P := fun (a : Fn) => ∀ bl ∈ a.blocks, ∃ b0 ∈ f.blocks,
          bl.name = b0.name ∧ List.Sublist bl.insts b0.insts)
        ?_ (enteredNames evs) f ?_
      · intro a bn hP bl hbl
        rcases dceRemoveBlock_mem hbl with ⟨b0, hb0, hble⟩ | ⟨hblg, _⟩
        · subst hble
          rcases hP b0 hb0 with ⟨b1, hb1, hn, hsub⟩
          exact ⟨b1, hb1, hn, List.Sublist.trans (List.filter_sublist _) hsub⟩
        · exact hP bl hblg
      · intro bl hbl
        exact ⟨bl, hbl, rfl, List.Sublist.refl _⟩
    · refine foldl_preserve
        (P := fun (a : Fn) => List.Sublist a.scope f.scope)
        ?_ (enteredNames evs) f (List.Sublist.refl _)
      intro a bn hP
      unfold dceRemoveBlock
      split
      · rw [Fn.setBlock]
        dsimp only
        exact List.Sublist.trans (scopeFoldRemove_scope_sublist _ a) hP
      · exact hP
  · rw [Bool.not_eq_true] at hs
    rw [hs] at h
    simp at h

/-- C5 witness: the amended theorem applied at the first run on `f5`. -/
theorem elimDeadCode_only_removes_witness :
    List.Sublist ((elimDeadCode f5 evs5).toOption.getD f5).scope f5.scope :=
  (elimDeadCode_only_removes f5 evs5 _ (by decide)).2

/-! ### Characterizing the verifier's availability stack

The lemmas below relate the verifier's stack machine to the stateless
reading of availability (`availSpec`): a symbol is available at a
callback exactly when it is a parameter, or its first definition
precedes the callback and happened inside a block that is still open. -/

theorem firstDefIdx_get :
    ∀ {vs : List VisitEv} {s : Symbol} {p : Nat},
      firstDefIdx vs s = some p → ∃ i, vs[p]? = some (.defV i s) := by
  intro vs
  induction vs with
  | nil => intro s p h; exact absurd h (by simp [firstDefIdx])
  | cons e rest ih =>
      intro s p h
      cases e with
      | defV i t =>
          by_cases ht : t = s
          · simp only [firstDefIdx, if_pos ht] at h
            have hp : p = 0 := by simpa using h.symm
            subst hp
            exact ⟨i, by simp [ht]⟩
          · simp only [firstDefIdx, if_neg ht] at h
            rcases Option.map_eq_some'.mp h with ⟨q, hq, hpq⟩
            rcases ih hq with ⟨j, hj⟩
            subst hpq
            exact ⟨j, by simpa using hj⟩
      | openB b =>
          simp only [firstDefIdx] at h
          rcases Option.map_eq_some'.mp h with ⟨q, hq, hpq⟩
          rcases ih hq with ⟨j, hj⟩
          subst hpq
          exact ⟨j, by simpa using hj⟩
      | closeB =>
          simp only [firstDefIdx] at h
          rcases Option.map_eq_some'.mp h with ⟨q, hq, hpq⟩
          rcases ih hq with ⟨j, hj⟩
          subst hpq
          exact ⟨j, by simpa using hj⟩
      | useV i v =>
          simp only [firstDefIdx] at h
          rcases Option.map_eq_some'.mp h with ⟨q, hq, hpq⟩
          rcases ih hq with ⟨j, hj⟩
          subst hpq
          exact ⟨j, by simpa using hj⟩

theorem firstDefIdx_le_of_def :
    ∀ {vs : List VisitEv} {s : Symbol} {k : Nat} {i : InstRef},
      vs[k]? = some (.defV i s) → ∃ p, p ≤ k ∧ firstDefIdx vs s = some p := by
  intro vs
  induction vs with
  | nil => intro s k i h; simp at h
  | cons e rest ih =>
      intro s k i h
      cases k with
      | zero =>
          have he : e = .defV i s := by simpa using h
          subst he
          exact ⟨0, Nat.le_refl 0, by simp [firstDefIdx]⟩
      | succ k' =>
          simp only [List.getElem?_cons_succ] at h
          rcases ih h with ⟨p, hpk, hp⟩
          cases e with
          | defV j t =>
              by_cases ht : t = s
              · exact ⟨0, Nat.zero_le _, by simp [firstDefIdx, ht]⟩
              · exact ⟨p + 1, Nat.succ_le_succ hpk, by simp [firstDefIdx, ht, hp]⟩
          | openB b => exact ⟨p + 1, Nat.succ_le_succ hpk, by simp [firstDefIdx, hp]⟩
          | closeB => exact ⟨p + 1, Nat.succ_le_succ hpk, by simp [firstDefIdx, hp]⟩
          | useV j v => exact ⟨p + 1, Nat.succ_le_succ hpk, by simp [firstDefIdx, hp]⟩

theorem take_succ_of_getElem {α : Type} {l : List α} {k : Nat} {e : α}
    (h : l[k]? = some e) : l.take (k + 1) = l.take k ++ [e] := by
  rw [List.take_succ, h]
  rfl

theorem lt_length_of_getElem {α : Type} {l : List α} {k : Nat} {e : α}
    (h : l[k]? = some e) : k < l.length := by
  by_contra hk
  rw [List.getElem?_eq_none (Nat.le_of_not_lt hk)] at h
  exact absurd h (by simp)

theorem enum_take_succ {vs : List VisitEv} {k : Nat} {e : VisitEv}
    (h : vs[k]? = some e) :
    (vs.take (k + 1)).enum = (vs.take k).enum ++ [(k, e)] := by
  rw [take_succ_of_getElem h, List.enum_append]
  congr 1
  have hk := lt_length_of_getElem h
  simp [List.enumFrom, List.length_take, Nat.min_eq_left (Nat.le_of_lt hk)]

theorem openNamesAt_succ {vs : List VisitEv} {k : Nat} {e : VisitEv}
    (h : vs[k]? = some e) :
    openNamesAt vs (k + 1) =
      (match e with
       | .openB b => b.name :: openNamesAt vs k
       | .closeB => (openNamesAt vs k).tail
       | _ => openNamesAt vs k) := by
  unfold openNamesAt
  rw [take_succ_of_getElem h, List.foldl_append]
  cases e <;> rfl

theorem seenListAt_succ {vs : List VisitEv} {k : Nat} {e : VisitEv}
    (h : vs[k]? = some e) :
    seenListAt vs (k + 1) =
      (match e with
       | .openB b => b.name :: seenListAt vs k
       | _ => seenListAt vs k) := by
  unfold seenListAt
  rw [take_succ_of_getElem h, List.filterMap_append]
  cases e
  all_goals simp [openEvName]

theorem filterMap_singleton {α β : Type} (f : α → Option β) (x : α) :
    List.filterMap f [x] = (f x).toList := by
  cases hfx : f x <;> simp [List.filterMap_cons, hfx]

theorem specOutOn_succ {vs : List VisitEv} {ps : List Symbol} {k : Nat} {e : VisitEv}
    (h : vs[k]? = some e) :
    specOutOn vs ps (k + 1) = specOutOn vs ps k ++ (useCheck vs ps (k, e)).toList := by
  unfold specOutOn
  rw [enum_take_succ h, List.filterMap_append]
  congr 1

theorem frameSpec_succ {vs : List VisitEv} {ps : List Symbol} {k : Nat} {e : VisitEv}
    (h : vs[k]? = some e) (bn : BlockId) :
    frameSpec vs ps (k + 1) bn =
      frameSpec vs ps k bn ++
        (match e with
         | .defV _ s =>
             if s.isLocalVar && !(ps.contains s) && (firstDefIdx vs s == some k) &&
                 ((openNamesAt vs (k + 1)).head? == some bn) then [s] else []
         | _ => []) := by
  unfold frameSpec
  rw [enum_take_succ h, List.filterMap_append]
  congr 1
  all_goals cases e with
  | defV i s =>
      rw [filterMap_singleton]
      dsimp only
      cases hC : (s.isLocalVar && !(ps.contains s) && (firstDefIdx vs s == some k) &&
          ((openNamesAt vs (k + 1)).head? == some bn)) with
      | false => rfl
      | true => rfl
  | openB b => rfl
  | closeB => rfl
  | useV i v => rfl

theorem mem_of_head?_eq {α : Type} {l : List α} {x : α} (h : l.head? = some x) :
    x ∈ l := by
  cases l with
  | nil => simp at h
  | cons a t =>
      simp at h
      simp [h]

theorem drop_eq_cons_of_getElem {α : Type} {l : List α} {k : Nat} {e : α}
    (h : l[k]? = some e) : l.drop k = e :: l.drop (k + 1) := by
  have hk := lt_length_of_getElem h
  have he : l[k] = e := by
    have := List.getElem?_eq_getElem hk
    rw [h] at this
    exact (Option.some.injEq _ _).mp this.symm
  rw [List.drop_eq_getElem_cons hk, he]

theorem vsState_zero {vs : List VisitEv} (h : vsOk vs = true) : VsState vs 0 := by
  refine ⟨?_, ?_, ?_⟩
  · simpa [openNamesAt, seenListAt] using h
  · simp [openNamesAt]
  · simp [openNamesAt]

theorem vsState_succ_none {vs : List VisitEv} {k : Nat}
    (hget : vs[k]? = none) (hst : VsState vs k) : VsState vs (k + 1) := by
  have hlen : vs.length ≤ k := by
    by_contra hk
    rw [List.getElem?_eq_getElem (Nat.lt_of_not_le hk)] at hget
    exact absurd hget (by simp)
  have htake : vs.take (k + 1) = vs.take k := by
    rw [List.take_succ, hget]
    simp
  have hopen : openNamesAt vs (k + 1) = openNamesAt vs k := by
    unfold openNamesAt
    rw [htake]
  have hseen : seenListAt vs (k + 1) = seenListAt vs k := by
    unfold seenListAt
    rw [htake]
  have hdrop : vs.drop (k + 1) = [] :=
    List.drop_eq_nil_of_le (Nat.le_succ_of_le hlen)
  exact ⟨by rw [hopen, hseen, hdrop]; rfl, hopen ▸ hst.2.1, by rw [hopen, hseen]; exact hst.2.2⟩

theorem vsState_succ_some {vs : List VisitEv} {k : Nat} {e : VisitEv}
    (hget : vs[k]? = some e) (hst : VsState vs k) : VsState vs (k + 1) := by
  obtain ⟨hok, hnd, hsub⟩ := hst
  rw [drop_eq_cons_of_getElem hget] at hok
  cases e with
  | openB b =>
      simp only [vsOkAux, Bool.and_eq_true] at hok
      obtain ⟨hseenb, hrest⟩ := hok
      have hbn : b.name ∉ seenListAt vs k := by
        intro hmem
        have hc : (seenListAt vs k).contains b.name = true := by simpa using hmem
        rw [hc] at hseenb
        exact absurd hseenb (by simp)
      refine ⟨?_, ?_, ?_⟩
      · rw [openNamesAt_succ hget, seenListAt_succ hget]
        exact hrest
      · rw [openNamesAt_succ hget]
        exact List.nodup_cons.mpr ⟨fun hm => hbn (hsub _ hm), hnd⟩
      · rw [openNamesAt_succ hget, seenListAt_succ hget]
        intro x hx
        rcases List.mem_cons.mp hx with hx | hx
        · exact List.mem_cons.mpr (Or.inl hx)
        · exact List.mem_cons.mpr (Or.inr (hsub _ hx))
  | closeB =>
      simp only [vsOkAux] at hok
      cases hopn : openNamesAt vs k with
      | nil => rw [hopn] at hok; exact absurd hok (by simp)
      | cons h0 t0 =>
          rw [hopn] at hok
          refine ⟨?_, ?_, ?_⟩
          · rw [openNamesAt_succ hget, seenListAt_succ hget, hopn]
            exact hok
          · rw [openNamesAt_succ hget, hopn]
            exact (hopn ▸ hnd).of_cons
          · rw [openNamesAt_succ hget, seenListAt_succ hget, hopn]
            intro x hx
            exact hsub x (hopn ▸ List.mem_cons.mpr (Or.inr hx))
  | defV i sy =>
      simp only [vsOkAux, Bool.and_eq_true] at hok
      refine ⟨?_, ?_, ?_⟩
      · rw [openNamesAt_succ hget, seenListAt_succ hget]
        exact hok.2
      · rw [openNamesAt_succ hget]
        exact hnd
      · rw [openNamesAt_succ hget, seenListAt_succ hget]
        exact hsub
  | useV i v =>
      simp only [vsOkAux] at hok
      refine ⟨?_, ?_, ?_⟩
      · rw [openNamesAt_succ hget, seenListAt_succ hget]
        exact hok
      · rw [openNamesAt_succ hget]
        exact hnd
      · rw [openNamesAt_succ hget, seenListAt_succ hget]
        exact hsub

theorem vsState_all {vs : List VisitEv} (h : vsOk vs = true) :
    ∀ k, VsState vs k := by
  intro k
  induction k with
  | zero => exact vsState_zero h
  | succ j ih =>
      cases hget : vs[j]? with
      | none => exact vsState_succ_none hget ih
      | some e => exact vsState_succ_some hget ih

theorem seenListAt_mono {vs : List VisitEv} {j : Nat} :
    ∀ {k : Nat}, j ≤ k → ∀ {x : BlockId}, x ∈ seenListAt vs j → x ∈ seenListAt vs k := by
  intro k
  induction k with
  | zero =>
      intro hjk x hx
      have hj : j = 0 := Nat.le_zero.mp hjk
      subst hj
      exact hx
  | succ m ih =>
      intro hjk x hx
      by_cases hj : j = m + 1
      · subst hj; exact hx
      · have hjm : j ≤ m := Nat.lt_succ_iff.mp (Nat.lt_of_le_of_ne hjk hj)
        have hxm := ih hjm hx
        cases hget : vs[m]? with
        | none =>
            have htake : vs.take (m + 1) = vs.take m := by
              rw [List.take_succ, hget]; simp
            unfold seenListAt
            rw [htake]
            exact hxm
        | some e =>
            rw [seenListAt_succ hget]
            cases e with
            | openB b => exact List.mem_cons.mpr (Or.inr hxm)
            | closeB => exact hxm
            | defV i s => exact hxm
            | useV i v => exact hxm

theorem band_true_iff {a b : Bool} : (a && b) = true ↔ a = true ∧ b = true := by simp

theorem bor_true_iff {a b : Bool} : (a || b) = true ↔ a = true ∨ b = true := by simp

/-- A block being opened has an empty predicted frame: its name was
never the innermost open block before (blocks open at most once). -/
theorem frameSpec_empty_of_unseen {vs : List VisitEv} {ps : List Symbol} {k : Nat}
    {b : Block} (hget : vs[k]? = some (.openB b)) (hok : vsOk vs = true) :
    frameSpec vs ps k b.name = [] := by
  have hseen : b.name ∉ seenListAt vs k := by
    obtain ⟨hokk, _, _⟩ := vsState_all hok k
    rw [drop_eq_cons_of_getElem hget] at hokk
    simp only [vsOkAux, Bool.and_eq_true] at hokk
    intro hmem
    have hc : (seenListAt vs k).contains b.name = true := by simpa using hmem
    rw [hc] at hokk
    exact absurd hokk.1 (by simp)
  unfold frameSpec
  rw [List.filterMap_eq_nil_iff]
  intro pe hpe
  obtain ⟨p, ev⟩ := pe
  have hp : (vs.take k)[p]? = some ev := List.mk_mem_enum_iff_getElem?.mp hpe
  have hpk : p < k := by
    have h1 := lt_length_of_getElem hp
    have h2 : (vs.take k).length ≤ k := by
      simp [List.length_take]
    omega
  cases ev with
  | defV i s =>
      dsimp only
      cases hC : (s.isLocalVar && !(ps.contains s) && (firstDefIdx vs s == some p) &&
          ((openNamesAt vs (p + 1)).head? == some b.name)) with
      | false => rfl
      | true =>
          exfalso
          have hlast : ((openNamesAt vs (p + 1)).head? == some b.name) = true :=
            (band_true_iff.mp hC).2
          have hhead : (openNamesAt vs (p + 1)).head? = some b.name := by
            simpa using hlast
          have hmem1 : b.name ∈ openNamesAt vs (p + 1) := mem_of_head?_eq hhead
          have hmem2 : b.name ∈ seenListAt vs (p + 1) :=
            (vsState_all hok (p + 1)).2.2 _ hmem1
          exact hseen (seenListAt_mono (Nat.succ_le_of_lt hpk) hmem2)
  | openB b2 => rfl
  | closeB => rfl
  | useV i v => rfl

theorem phiPredErrs_shape {b : Block} {x : VErr} (h : x ∈ phiPredErrs b) :
    ∃ n, x = .phiMissing n := by
  unfold phiPredErrs at h
  rcases List.mem_flatMap.mp h with ⟨p, _, hp⟩
  cases hpi : p.inst with
  | phi srcs d =>
      rw [hpi] at hp
      dsimp only at hp
      rcases List.mem_filterMap.mp hp with ⟨pr, _, hpr⟩
      by_cases hc : ((srcs.map Prod.fst).contains pr) = true
      · rw [if_pos hc] at hpr
        exact absurd hpr (by simp)
      · rw [if_neg hc] at hpr
        exact ⟨pr, ((Option.some.injEq _ _).mp hpr).symm⟩
  | mov a d => rw [hpi] at hp; exact absurd hp (by simp)
  | un o a d => rw [hpi] at hp; exact absurd hp (by simp)
  | bin o a c d => rw [hpi] at hp; exact absurd hp (by simp)
  | jmp t => rw [hpi] at hp; exact absurd hp (by simp)
  | br c t fl => rw [hpi] at hp; exact absurd hp (by simp)
  | call c a d => rw [hpi] at hp; exact absurd hp (by simp)
  | ret v => rw [hpi] at hp; exact absurd hp (by simp)
  | alloc d => rw [hpi] at hp; exact absurd hp (by simp)
  | new d l => rw [hpi] at hp; exact absurd hp (by simp)
  | ptrIdx a o i d => rw [hpi] at hp; exact absurd hp (by simp)
  | ld a d => rw [hpi] at hp; exact absurd hp (by simp)
  | st a c => rw [hpi] at hp; exact absurd hp (by simp)

theorem useProj_phiPredErrs (b : Block) :
    (phiPredErrs b).filterMap useProj = [] := by
  rw [List.filterMap_eq_nil_iff]
  intro x hx
  rcases phiPredErrs_shape hx with ⟨n, hxe⟩
  subst hxe
  rfl

/-- Membership in a predicted frame, characterized. -/
theorem mem_frameSpec_iff {vs : List VisitEv} {ps : List Symbol} {k : Nat}
    {bn : BlockId} {s : Symbol} :
    s ∈ frameSpec vs ps k bn ↔
      (s.isLocalVar = true ∧ s ∉ ps ∧
        ∃ p, p < k ∧ firstDefIdx vs s = some p ∧
          (openNamesAt vs (p + 1)).head? = some bn) := by
  unfold frameSpec
  rw [List.mem_filterMap]
  constructor
  · rintro ⟨pe, hmem, hf⟩
    obtain ⟨p, ev⟩ := pe
    have hp : (vs.take k)[p]? = some ev := List.mk_mem_enum_iff_getElem?.mp hmem
    have hpk : p < k := by
      have h1 := lt_length_of_getElem hp
      have h2 : (vs.take k).length ≤ k := by simp [List.length_take]
      omega
    cases ev with
    | defV i t =>
        dsimp only at hf
        cases hC : (t.isLocalVar && !(ps.contains t) && (firstDefIdx vs t == some p) &&
            ((openNamesAt vs (p + 1)).head? == some bn)) with
        | false => rw [hC] at hf; exact absurd hf (by simp)
        | true =>
            rw [hC] at hf
            have hts : t = s := by simpa using hf
            subst hts
            obtain ⟨h123, h4⟩ := band_true_iff.mp hC
            obtain ⟨h12, h3⟩ := band_true_iff.mp h123
            obtain ⟨h1, h2⟩ := band_true_iff.mp h12
            refine ⟨h1, by simpa using h2, p, hpk, by simpa using h3, by simpa using h4⟩
    | openB b2 => exact absurd hf (by simp)
    | closeB => exact absurd hf (by simp)
    | useV i v => exact absurd hf (by simp)
  · rintro ⟨hl, hnp, p, hpk, hfirst, hhead⟩
    rcases firstDefIdx_get hfirst with ⟨i, hi⟩
    refine ⟨(p, .defV i s), ?_, ?_⟩
    · rw [List.mk_mem_enum_iff_getElem?, List.getElem?_take, if_pos hpk]
      exact hi
    · dsimp only
      have hC : (s.isLocalVar && !(ps.contains s) && (firstDefIdx vs s == some p) &&
          ((openNamesAt vs (p + 1)).head? == some bn)) = true := by
        simp [hl, hnp, hfirst, hhead]
      rw [hC]
      rfl

/-- The verifier's availability test agrees with the stateless
characterization when the stack satisfies the invariant. -/
theorem isAvail_eq_availSpec {f : Fn} {vs : List VisitEv} {k : Nat} {st : Verifier}
    (hava : st.avail = (openNamesAt vs k).map (frameSpec vs f.param k) ++ [f.param])
    (s : Symbol) (hl : s.isLocalVar = true) :
    st.isAvail s = availSpec vs f.param s k := by
  rw [Bool.eq_iff_iff]
  constructor
  · intro h
    unfold Verifier.isAvail at h
    rcases List.any_eq_true.mp h with ⟨fr, hfr, hcont⟩
    have hs : s ∈ fr := by simpa using hcont
    rw [hava] at hfr
    rcases List.mem_append.mp hfr with hfr | hfr
    · rcases List.mem_map.mp hfr with ⟨bn, hbn, hfre⟩
      subst hfre
      rcases mem_frameSpec_iff.mp hs with ⟨hl2, hnp, p, hpk, hfirst, hhead⟩
      unfold availSpec
      rw [hfirst]
      dsimp only
      rw [hhead]
      dsimp only
      rw [bor_true_iff]
      right
      rw [band_true_iff]
      exact ⟨by simpa using hpk, by simpa using hbn⟩
    · have hfp : fr = f.param := by simpa using hfr
      subst hfp
      unfold availSpec
      rw [bor_true_iff]
      exact Or.inl (by simpa using hs)
  · intro h
    unfold availSpec at h
    rw [bor_true_iff] at h
    rcases h with h | h
    · unfold Verifier.isAvail
      refine List.any_eq_true.mpr ⟨f.param, ?_, ?_⟩
      · rw [hava]
        exact List.mem_append.mpr (Or.inr (by simp))
      · simpa using h
    · by_cases hps : s ∈ f.param
      · unfold Verifier.isAvail
        refine List.any_eq_true.mpr ⟨f.param, ?_, ?_⟩
        · rw [hava]
          exact List.mem_append.mpr (Or.inr (by simp))
        · simpa using hps
      · cases hfd : firstDefIdx vs s with
        | none => rw [hfd] at h; exact absurd h (by simp)
        | some p =>
            rw [hfd] at h
            dsimp only at h
            cases hhd : (openNamesAt vs (p + 1)).head? with
            | none => rw [hhd] at h; simp at h
            | some bn =>
                rw [hhd] at h
                dsimp only at h
                obtain ⟨hpk, hcontains⟩ := band_true_iff.mp h
                have hpk' : p < k := by simpa using hpk
                have hbn : bn ∈ openNamesAt vs k := by simpa using hcontains
                have hmemfr : s ∈ frameSpec vs f.param k bn :=
                  mem_frameSpec_iff.mpr ⟨hl, hps, p, hpk', hfd, hhd⟩
                unfold Verifier.isAvail
                refine List.any_eq_true.mpr ⟨frameSpec vs f.param k bn, ?_, ?_⟩
                · rw [hava]
                  exact List.mem_append.mpr
                    (Or.inl (List.mem_map.mpr ⟨bn, hbn, rfl⟩))
                · simpa using hmemfr

theorem firstDefIdx_ne_of_not_def {vs : List VisitEv} {k : Nat} {e : VisitEv}
    (hget : vs[k]? = some e) (s : Symbol)
    (hne : ∀ i, e ≠ .defV i s) : firstDefIdx vs s ≠ some k := by
  intro hfd
  rcases firstDefIdx_get hfd with ⟨i, hi⟩
  rw [hget] at hi
  exact hne i (by simpa using hi)

theorem defd_iff_succ_of_not_defV {vs : List VisitEv} {k : Nat} {e : VisitEv}
    (hget : vs[k]? = some e) (hform : ∀ i s', e ≠ .defV i s')
    {ps dl : List Symbol}
    (h : ∀ s : Symbol, s ∈ dl ↔
      (s ∈ ps ∨ (s.isLocalVar = true ∧ ∃ p, p < k ∧ firstDefIdx vs s = some p))) :
    ∀ s : Symbol, s ∈ dl ↔
      (s ∈ ps ∨ (s.isLocalVar = true ∧ ∃ p, p < k + 1 ∧ firstDefIdx vs s = some p)) := by
  intro s
  rw [h s]
  constructor
  · rintro (hp | ⟨hl, p, hpk, hfd⟩)
    · exact Or.inl hp
    · exact Or.inr ⟨hl, p, Nat.lt_succ_of_lt hpk, hfd⟩
  · rintro (hp | ⟨hl, p, hpk, hfd⟩)
    · exact Or.inl hp
    · rcases Nat.lt_succ_iff_lt_or_eq.mp hpk with hlt | heq
      · exact Or.inr ⟨hl, p, hlt, hfd⟩
      · subst heq
        exact absurd hfd (firstDefIdx_ne_of_not_def hget s (fun i => hform i s))

theorem defd_iff_succ_defV_noadd {vs : List VisitEv} {k : Nat} {i : InstRef} {sy : Symbol}
    (hget : vs[k]? = some (.defV i sy))
    {ps dl : List Symbol}
    (hcase : sy.isLocalVar = false ∨ sy ∈ dl)
    (h : ∀ s : Symbol, s ∈ dl ↔
      (s ∈ ps ∨ (s.isLocalVar = true ∧ ∃ p, p < k ∧ firstDefIdx vs s = some p))) :
    ∀ s : Symbol, s ∈ dl ↔
      (s ∈ ps ∨ (s.isLocalVar = true ∧ ∃ p, p < k + 1 ∧ firstDefIdx vs s = some p)) := by
  intro s
  rw [h s]
  constructor
  · rintro (hp | ⟨hl, p, hpk, hfd⟩)
    · exact Or.inl hp
    · exact Or.inr ⟨hl, p, Nat.lt_succ_of_lt hpk, hfd⟩
  · rintro (hp | ⟨hl, p, hpk, hfd⟩)
    · exact Or.inl hp
    · rcases Nat.lt_succ_iff_lt_or_eq.mp hpk with hlt | heq
      · exact Or.inr ⟨hl, p, hlt, hfd⟩
      · subst heq
        rcases firstDefIdx_get hfd with ⟨j, hj⟩
        rw [hget] at hj
        have hinj : VisitEv.defV i sy = VisitEv.defV j s := by simpa using hj
        injection hinj with _ hsy
        rcases hcase with hc | hc
        · rw [hsy, hl] at hc
          exact absurd hc (by simp)
        · rw [hsy] at hc
          exact (h s).mp hc

theorem frameSpec_succ_stable {vs : List VisitEv} {ps : List Symbol} {k : Nat}
    {e : VisitEv} (hget : vs[k]? = some e) (hform : ∀ i s', e ≠ .defV i s') :
    ∀ bn, frameSpec vs ps (k + 1) bn = frameSpec vs ps k bn := by
  intro bn
  rw [frameSpec_succ hget bn]
  cases e with
  | defV i s => exact absurd rfl (hform i s)
  | openB b => simp
  | closeB => simp
  | useV i v => simp

theorem frameSpec_succ_noadd {vs : List VisitEv} {ps : List Symbol} {k : Nat}
    {i : InstRef} {sy : Symbol} (hget : vs[k]? = some (.defV i sy))
    (hcond : (sy.isLocalVar && !(ps.contains sy) &&
      (firstDefIdx vs sy == some k)) = false) :
    ∀ bn, frameSpec vs ps (k + 1) bn = frameSpec vs ps k bn := by
  intro bn
  rw [frameSpec_succ hget bn]
  dsimp only
  rw [hcond]
  simp

theorem openNames_nonempty_of_defV {vs : List VisitEv} {k : Nat} {i : InstRef}
    {sy : Symbol} (hget : vs[k]? = some (.defV i sy)) (hok : vsOk vs = true) :
    ∃ b0 t0, openNamesAt vs k = b0 :: t0 := by
  obtain ⟨hokk, _, _⟩ := vsState_all hok k
  rw [drop_eq_cons_of_getElem hget] at hokk
  simp only [vsOkAux, Bool.and_eq_true] at hokk
  cases hopn : openNamesAt vs k with
  | nil => rw [hopn] at hokk; simp at hokk
  | cons b0 t0 => exact ⟨b0, t0, rfl⟩

theorem openNames_nonempty_of_closeB {vs : List VisitEv} {k : Nat}
    (hget : vs[k]? = some .closeB) (hok : vsOk vs = true) :
    ∃ b0 t0, openNamesAt vs k = b0 :: t0 := by
  obtain ⟨hokk, _, _⟩ := vsState_all hok k
  rw [drop_eq_cons_of_getElem hget] at hokk
  simp only [vsOkAux] at hokk
  cases hopn : openNamesAt vs k with
  | nil => rw [hopn] at hokk; simp at hokk
  | cons b0 t0 => exact ⟨b0, t0, rfl⟩

theorem vStep_preserves_VInv {f : Fn} {vs : List VisitEv} {k : Nat} {st : Verifier}
    {e : VisitEv} (hget : vs[k]? = some e) (hok : vsOk vs = true)
    (hinv : VInv f vs k st) : VInv f vs (k + 1) (vStep st e) := by
  obtain ⟨herr, hdefd, hava⟩ := hinv
  cases e with
  | openB b =>
      refine ⟨?_, ?_, ?_⟩
      · show (st.err ++ phiPredErrs b).filterMap useProj = _
        rw [List.filterMap_append, useProj_phiPredErrs, herr, specOutOn_succ hget]
        rfl
      · exact defd_iff_succ_of_not_defV hget (by intro i s' h; exact absurd h (by simp))
          hdefd
      · show ([] :: st.avail) = _
        rw [openNamesAt_succ hget]
        dsimp only
        rw [List.map_cons]
        have hhd : frameSpec vs f.param (k + 1) b.name = [] := by
          rw [frameSpec_succ hget b.name]
          dsimp only
          rw [frameSpec_empty_of_unseen hget hok]
          rfl
        have htl : (openNamesAt vs k).map (frameSpec vs f.param (k + 1)) =
            (openNamesAt vs k).map (frameSpec vs f.param k) :=
          List.map_congr_left (fun bn _ =>
            frameSpec_succ_stable hget (by intro i s' h; exact absurd h (by simp)) bn)
        rw [hhd, htl, hava, List.cons_append]
  | closeB =>
      refine ⟨?_, ?_, ?_⟩
      · show st.err.filterMap useProj = _
        rw [herr, specOutOn_succ hget]
        simp [useCheck]
      · exact defd_iff_succ_of_not_defV hget (by intro i s' h; exact absurd h (by simp))
          hdefd
      · show st.avail.tail = _
        rcases openNames_nonempty_of_closeB hget hok with ⟨b0, t0, hopn⟩
        rw [openNamesAt_succ hget]
        dsimp only
        rw [hopn]
        have htl : t0.map (frameSpec vs f.param (k + 1)) =
            t0.map (frameSpec vs f.param k) :=
          List.map_congr_left (fun bn _ =>
            frameSpec_succ_stable hget (by intro i s' h; exact absurd h (by simp)) bn)
        rw [List.tail_cons, htl, hava, hopn, List.map_cons]
        rfl
  | useV i v =>
      have hform : ∀ (j : InstRef) (s' : Symbol), VisitEv.useV i v ≠ .defV j s' := by
        intro j s' h
        exact absurd h (by simp)
      have hdefd' := defd_iff_succ_of_not_defV hget hform hdefd
      have hfr : ∀ bn, frameSpec vs f.param (k + 1) bn = frameSpec vs f.param k bn :=
        fun bn => frameSpec_succ_stable hget hform bn
      have hava' : st.avail =
          (openNamesAt vs (k + 1)).map (frameSpec vs f.param (k + 1)) ++ [f.param] := by
        rw [openNamesAt_succ hget]
        dsimp only
        rw [List.map_congr_left (fun bn _ => hfr bn), hava]
      cases v with
      | intConst w =>
          have hred : vStep st (.useV i (.intConst w)) = st := rfl
          rw [hred]
          refine ⟨?_, hdefd', hava'⟩
          rw [herr, specOutOn_succ hget]
          simp [useCheck]
      | var s =>
          by_cases hl : s.isLocalVar = true
          · have havsp := isAvail_eq_availSpec hava s hl
            by_cases hv : availSpec vs f.param s k = true
            · have hcode : (s.isLocalVar && !(st.isAvail s)) = false := by
                rw [havsp, hv]
                simp
              have hred : vStep st (.useV i (.var s)) = st := by
                unfold vStep
                dsimp only
                rw [hcode]
                rfl
              rw [hred]
              refine ⟨?_, hdefd', hava'⟩
              rw [herr, specOutOn_succ hget]
              have hchk : useCheck vs f.param (k, .useV i (.var s)) = none := by
                unfold useCheck
                dsimp only
                rw [hl, hv]
                rfl
              rw [hchk]
              simp
            · have hvf : availSpec vs f.param s k = false := by simpa using hv
              have hcode : (s.isLocalVar && !(st.isAvail s)) = true := by
                rw [havsp, hvf, hl]
                rfl
              have hred : vStep st (.useV i (.var s)) =
                  { st with err := st.err ++ [.useBeforeDef s.name] } := by
                unfold vStep
                dsimp only
                rw [hcode]
                rfl
              rw [hred]
              refine ⟨?_, hdefd', hava'⟩
              show (st.err ++ [VErr.useBeforeDef s.name]).filterMap useProj = _
              rw [List.filterMap_append, herr, specOutOn_succ hget]
              have hchk : useCheck vs f.param (k, .useV i (.var s)) = some s.name := by
                unfold useCheck
                dsimp only
                rw [hl, hvf]
                rfl
              rw [hchk]
              rfl
          · have hlf : s.isLocalVar = false := by simpa using hl
            have hred : vStep st (.useV i (.var s)) = st := by
              unfold vStep
              dsimp only
              rw [hlf]
              rfl
            rw [hred]
            refine ⟨?_, hdefd', hava'⟩
            rw [herr, specOutOn_succ hget]
            have hchk : useCheck vs f.param (k, .useV i (.var s)) = none := by
              unfold useCheck
              dsimp only
              rw [hlf]
              rfl
            rw [hchk]
            simp
  | defV i sy =>
      by_cases hloc : sy.isLocalVar = true
      · by_cases hcont : st.defd.contains sy = true
        · have hmem : sy ∈ st.defd := by simpa using hcont
          have hred : vStep st (.defV i sy) =
              { st with err := st.err ++ [.alreadyDefined sy.name] } := by
            unfold vStep
            dsimp only
            rw [hloc, hcont]
            rfl
          have hcond : (sy.isLocalVar && !(f.param.contains sy) &&
              (firstDefIdx vs sy == some k)) = false := by
            rcases (hdefd sy).mp hmem with hp | ⟨_, p, hpk, hfd⟩
            · have : f.param.contains sy = true := by simpa using hp
              rw [this]
              simp
            · have : (firstDefIdx vs sy == some k) = false := by
                rw [hfd]
                have : p ≠ k := Nat.ne_of_lt hpk
                simp [this]
              rw [this]
              simp
          refine ⟨?_, ?_, ?_⟩
          · rw [hred]
            show (st.err ++ [VErr.alreadyDefined sy.name]).filterMap useProj = _
            rw [List.filterMap_append, herr, specOutOn_succ hget]
            rfl
          · rw [hred]
            exact defd_iff_succ_defV_noadd hget (Or.inr hmem) hdefd
          · rw [hred]
            show st.avail = _
            rw [openNamesAt_succ hget]
            dsimp only
            rw [List.map_congr_left (fun bn _ => frameSpec_succ_noadd hget hcond bn),
              hava]
        · -- fresh local definition: added to the defined set and the top frame
          have hcf : st.defd.contains sy = false := by
            cases h : st.defd.contains sy
            · rfl
            · exact absurd h hcont
          have hnmem : sy ∉ st.defd := by
            intro hm
            simp [hm] at hcf
          have hnps : sy ∉ f.param := fun hp => hnmem ((hdefd sy).mpr (Or.inl hp))
          have hnfirst : ∀ p, p < k → firstDefIdx vs sy ≠ some p := by
            intro p hpk hfd
            exact hnmem ((hdefd sy).mpr (Or.inr ⟨hloc, p, hpk, hfd⟩))
          have hfirst : firstDefIdx vs sy = some k := by
            rcases firstDefIdx_le_of_def hget with ⟨p, hpk, hfd⟩
            rcases Nat.lt_or_ge p k with hlt | hge
            · exact absurd hfd (hnfirst p hlt)
            · have : p = k := Nat.le_antisymm hpk hge
              subst this
              exact hfd
          rcases openNames_nonempty_of_defV hget hok with ⟨b0, t0, hopn⟩
          have hndup := (vsState_all hok k).2.1
          rw [hopn] at hndup
          have hb0t0 : b0 ∉ t0 := (List.nodup_cons.mp hndup).1
          have hred : vStep st (.defV i sy) =
              { st with
                defd := st.defd ++ [sy]
                avail := match st.avail with
                  | fr :: rest => (fr ++ [sy]) :: rest
                  | [] => [] } := by
            unfold vStep
            dsimp only
            rw [hloc, hcf]
            rfl
          have hpsc : f.param.contains sy = false := by
            cases h : f.param.contains sy
            · rfl
            · exact absurd (by simpa using h) hnps
          refine ⟨?_, ?_, ?_⟩
          · rw [hred]
            show st.err.filterMap useProj = _
            rw [herr, specOutOn_succ hget]
            simp [useCheck]
          · rw [hred]
            intro s
            show s ∈ st.defd ++ [sy] ↔ _
            rw [List.mem_append, List.mem_singleton]
            constructor
            · rintro (hm | rfl)
              · rcases (hdefd s).mp hm with hp | ⟨hl, p, hpk, hfd⟩
                · exact Or.inl hp
                · exact Or.inr ⟨hl, p, Nat.lt_succ_of_lt hpk, hfd⟩
              · exact Or.inr ⟨hloc, k, Nat.lt_succ_self k, hfirst⟩
            · rintro (hp | ⟨hl, p, hpk, hfd⟩)
              · exact Or.inl ((hdefd s).mpr (Or.inl hp))
              · rcases Nat.lt_succ_iff_lt_or_eq.mp hpk with hlt | heq
                · exact Or.inl ((hdefd s).mpr (Or.inr ⟨hl, p, hlt, hfd⟩))
                · subst heq
                  rcases firstDefIdx_get hfd with ⟨j, hj⟩
                  rw [hget] at hj
                  have hinj : VisitEv.defV i sy = VisitEv.defV j s := by
                    simpa using hj
                  injection hinj with _ hsy
                  exact Or.inr hsy.symm
          · rw [hred]
            show (match st.avail with
              | fr :: rest => (fr ++ [sy]) :: rest
              | [] => []) = _
            rw [hava, hopn, List.map_cons, List.cons_append]
            dsimp only
            rw [openNamesAt_succ hget]
            dsimp only
            rw [hopn, List.map_cons]
            have hhd : frameSpec vs f.param (k + 1) b0 =
                frameSpec vs f.param k b0 ++ [sy] := by
              rw [frameSpec_succ hget b0]
              dsimp only
              rw [hloc, hpsc, hfirst, openNamesAt_succ hget]
              dsimp only
              rw [hopn]
              simp
            have htl : t0.map (frameSpec vs f.param (k + 1)) =
                t0.map (frameSpec vs f.param k) := by
              refine List.map_congr_left (fun bn hbn => ?_)
              have hne : b0 ≠ bn := fun h => hb0t0 (h ▸ hbn)
              rw [frameSpec_succ hget bn]
              dsimp only
              rw [openNamesAt_succ hget]
              dsimp only
              rw [hopn]
              have : (((b0 :: t0).head? == some bn) : Bool) = false := by
                simp [hne]
              rw [this]
              simp
            rw [hhd, htl, List.cons_append]
      · -- non-local definition: the verifier state is unchanged
        have hlf : sy.isLocalVar = false := by simpa using hloc
        have hred : vStep st (.defV i sy) = st := by
          unfold vStep
          dsimp only
          rw [hlf]
          rfl
        have hcond : (sy.isLocalVar && !(f.param.contains sy) &&
            (firstDefIdx vs sy == some k)) = false := by
          rw [hlf]
          simp
        refine ⟨?_, ?_, ?_⟩
        · rw [hred, herr, specOutOn_succ hget]
          simp [useCheck]
        · rw [hred]
          exact defd_iff_succ_defV_noadd hget (Or.inl hlf) hdefd
        · rw [hred]
          rw [openNamesAt_succ hget]
          dsimp only
          rw [List.map_congr_left (fun bn _ => frameSpec_succ_noadd hget hcond bn),
            hava]

theorem verifier_fold_VInv {f : Fn} {vs : List VisitEv} (hok : vsOk vs = true) :
    ∀ (suf : List VisitEv) (k : Nat) (st : Verifier),
      vs.drop k = suf → VInv f vs k st →
      VInv f vs (k + suf.length) (suf.foldl vStep st) := by
  intro suf
  induction suf with
  | nil =>
      intro k st _ hinv
      simpa using hinv
  | cons e suf' ih =>
      intro k st hdrop hinv
      have hget : vs[k]? = some e := by
        have h1 : (vs.drop k).head? = vs[k]? := List.head?_drop vs k
        rw [hdrop] at h1
        exact h1.symm
      have hdc := drop_eq_cons_of_getElem hget
      rw [hdrop] at hdc
      have hdrop' : vs.drop (k + 1) = suf' := by
        injection hdc with h1 h2
        exact h2.symm
      have hstep := vStep_preserves_VInv hget hok hinv
      have hres := ih (k + 1) (vStep st e) hdrop' hstep
      have hlen : k + (e :: suf').length = k + 1 + suf'.length := by
        simp [List.length_cons]
        omega
      rw [List.foldl_cons, hlen]
      exact hres

/-- C6 (amended): over any well-formed dominator-tree walk, the verifier
reports a use-before-defined error for exactly those local-variable uses
whose symbol is neither a parameter nor first defined at an earlier
callback inside a block that is still open (on the dominator path) at
the point of use; the reported names appear in callback order. -/
theorem verifier_use_errors_characterization (f : Fn) (evs : List Ev)
    (hok : vsOk (visits f evs) = true) :
    verifierUseNames f evs = specFirstUseNames f evs := by
  have hbase : VInv f (visits f evs) 0
      { fn := f, defd := f.param, avail := [f.param], err := [] } := by
    refine ⟨?_, ?_, ?_⟩
    · simp [specOutOn]
    · intro s
      simp
    · simp [openNamesAt]
  have h := verifier_fold_VInv hok (visits f evs) 0
      { fn := f, defd := f.param, avail := [f.param], err := [] } rfl hbase
  have herr := h.1
  show ((visits f evs).foldl vStep
      { fn := f, defd := f.param, avail := [f.param], err := [] }).err.filterMap
        useProj = _
  rw [herr]
  unfold specFirstUseNames specOutOn
  rw [Nat.zero_add, List.take_length]

/-- C6 witness: the characterization applied to the sibling-redefinition
function `f6`, whose walk is well-formed; both sides evaluate to `["x"]`. -/
theorem verifier_use_errors_characterization_witness :
    vsOk (visits f6 evs6) = true ∧
      verifierUseNames f6 evs6 = specFirstUseNames f6 evs6 :=
  ⟨by decide, verifier_use_errors_characterization f6 evs6 (by decide)⟩

end IRL
